import Mathlib

set_option maxRecDepth 8000

/-!
Verification development for the SPU execution core:
* `spu/kernel/hlo/sort.cc` — the oblivious sorting engine (bitonic networks,
  compare-exchange primitive, public comparison-sort path, `Sort` dispatch);
* `spu/device/executor.cc` — the region/block executor with chained symbol scopes.

One-dimensional tensors are embedded as Lean lists; the tensor primitives the
engine consumes (`hal::slice`, `hal::select`, `hal::permute`,
`Value::copyElementFrom`) become the list functions below.  Machine indices are
`Nat`/`Int`.  Fallible code returns `Except`.
-/

namespace spu

/-- The visibility tag of a value or of a comparator's result
(`spu::Visibility`); only the two members the sort kernel branches on are
relevant here. -/
inductive Visibility where
  | VIS_PUBLIC
  | VIS_SECRET
deriving DecidableEq

namespace kernel.hlo

/-- `CompFn`: a comparator body.  It receives the interleaved slices
`[x₀, y₀, x₁, y₁, …]` (two windows per operand) and produces one predicate
vector. -/
def CompFn (α : Type) : Type := List (List α) → List Bool

/-- `hal::slice` of a one-dimensional value: the elements of `[s, e)`. -/
def slice {α : Type} (v : List α) (s e : Nat) : List α := (v.drop s).take (e - s)

/-- `hal::select`: elementwise choice by a predicate vector. -/
def select {α : Type} : List Bool → List α → List α → List α
  | p :: ps, a :: l1, b :: l2 => (if p then a else b) :: select ps l1 l2
  | _, _, _ => []

/-- `Value::copyElementFrom` of a contiguous window: overwrite the elements of
`v` starting at offset `start` with the elements of `w`. -/
def writeWin {α : Type} (v : List α) (start : Nat) (w : List α) : List α :=
  v.take start ++ w ++ v.drop (start + w.length)

/-- `hal::permute` along axis 0 by an explicit index list: a gather,
`result[i] = v[idx[i]]`. -/
def permute {α : Type} [Inhabited α] (v : List α) (idx : List Nat) : List α :=
  idx.map (fun i => v.getD i default)

/-- `cmpSwap` from `sort.cc`: compare two equal-length windows of every operand
with one comparator invocation and conditionally swap them with branchless
selects.  `acc` chooses which window receives `greater` and which `less`. -/
def cmpSwap {α : Type} (comparator_body : CompFn α) (values_to_sort : List (List α))
    (x_start y_start n : Nat) (acc : Bool) : List (List α) :=
  let values := (values_to_sort.map
    (fun v => [slice v x_start (x_start + n), slice v y_start (y_start + n)])).flatten
  let predicate := comparator_body values
  values_to_sort.map (fun v =>
    let f := slice v x_start (x_start + n)
    let s := slice v y_start (y_start + n)
    let greater := select predicate f s
    let less := select predicate s f
    if acc then writeWin (writeWin v x_start greater) y_start less
    else writeWin (writeWin v x_start less) y_start greater)

/-- Floor base-2 logarithm, computed by a structural recursion (the fuel is an
upper bound on the recursion depth, so `log2floor n = Nat.log2 n`; see
`log2floor_eq`).  Used to embed `absl::bit_width` and
`emp::greatestPowerOfTwoLessThan` in kernel-computable form. -/
def log2floorAux : Nat → Nat → Nat
  | 0, _ => 0
  | fuel + 1, n => if n ≤ 1 then 0 else 1 + log2floorAux fuel (n / 2)

/-- Floor base-2 logarithm (`Nat.log2`, kernel-computable form). -/
def log2floor (n : Nat) : Nat := log2floorAux n n

/-- `emp::greatestPowerOfTwoLessThan` (external collaborator of `sort.cc`):
for `n ≥ 2`, the greatest power of two strictly below `n`. -/
def greatestPowerOfTwoLessThan (n : Nat) : Nat :=
  if n ≤ 1 then 0 else 2 ^ log2floor (n - 1)

/-- `sequentialBitonicMerge`.  The C++ recursion always terminates because the
window length strictly shrinks; the embedding makes that explicit with a fuel
argument that bounds the window length (`fuel ≥ n` reproduces the source
exactly). -/
def sequentialBitonicMerge {α : Type} (comparator_body : CompFn α) :
    Nat → List (List α) → Nat → Nat → Bool → List (List α)
  | 0, vals, _, _, _ => vals
  | fuel + 1, vals, lo, n, acc =>
    if 1 < n then
      let m := greatestPowerOfTwoLessThan n
      let vals := cmpSwap comparator_body vals lo (lo + m) (n - m) acc
      let vals := sequentialBitonicMerge comparator_body fuel vals lo m acc
      sequentialBitonicMerge comparator_body fuel vals (lo + m) (n - m) acc
    else vals

/-- `sequentialBitonicSort`, fueled like `sequentialBitonicMerge`. -/
def sequentialBitonicSort {α : Type} (comparator_body : CompFn α) :
    Nat → List (List α) → Nat → Nat → Bool → List (List α)
  | 0, vals, _, _, _ => vals
  | fuel + 1, vals, lo, n, acc =>
    if 1 < n then
      let m := n >>> 1
      let vals := sequentialBitonicSort comparator_body fuel vals lo m (!acc)
      let vals := sequentialBitonicSort comparator_body fuel vals (lo + m) (n - m) acc
      sequentialBitonicMerge comparator_body (fuel + 1) vals lo n acc
    else vals

/-- `generateBitonicSortIndex`: for stage `i` from `log2 n` down to `1`, the
permutation listing the positions with bit `i-1` clear before those with it
set (the source's `fst`/`sec` vectors, concatenated). -/
def generateBitonicSortIndex (n : Nat) : List (List Nat) :=
  let stage := log2floor n
  ((List.range stage).reverse).map (fun k =>
    let p := (List.range n).partition (fun j => (j >>> k) &&& 1 == 0)
    p.1 ++ p.2)

/-- `generateBitonicMergeIndex`: for each `(stage_idx, substage_idx)` pair of
the canonical bitonic merge network, the permutation routing each comparison
into adjacent halves.  A position goes into `fst` exactly when its `asc_flag`
and `fst_flag` agree (the source's `asc_flag ^ fst_flag` test, negated). -/
def generateBitonicMergeIndex (n : Nat) : List (List Nat) :=
  let stage := log2floor n
  (List.range (stage - 1)).flatMap (fun s =>
    ((List.range (s + 1)).reverse).map (fun t =>
      let p := (List.range n).partition (fun i =>
        let asc_flag := (i >>> (s + 1)) &&& 1 == 0
        let fst_flag := (i >>> t) &&& 1 == 0
        asc_flag == fst_flag)
      p.1 ++ p.2))

/-- The inverse-permutation computation of `parallelBitonicSort`: `std::sort`
of `iota(n)` comparing `index[left] < index[right]`.  The embedding uses a
deterministic insertion sort; on the duplicate-free index lists produced by
the schedule generators the strictly-sorted result is unique, so any correct
`std::sort` yields this list. -/
def inversePermutation (index : List Nat) : List Nat :=
  (List.range index.length).insertionSort (fun a b => index.getD a 0 ≤ index.getD b 0)

/-- `absl::has_single_bit`: `n` is a positive power of two. -/
def hasSingleBit (n : Nat) : Bool := n != 0 && n &&& (n - 1) == 0

/-- `parallelBitonicSort`: concatenate the merge-index and sort-index
schedules; for each stage permute every operand, perform one batched
compare-exchange between the two halves, and permute back by the inverse
permutation. -/
def parallelBitonicSort {α : Type} [Inhabited α] (comparator_body : CompFn α)
    (values_to_sort : List (List α)) (n : Nat) : List (List α) :=
  let indices := generateBitonicMergeIndex n ++ generateBitonicSortIndex n
  indices.foldl (fun target index =>
    let permuted_values := target.map (fun v => permute v index)
    let swapped := cmpSwap comparator_body permuted_values 0 (n / 2) (n / 2) true
    let inverse_permutation := inversePermutation index
    swapped.map (fun v => permute v inverse_permutation)) values_to_sort

/-- `getConditionValue`: read the boolean out of a (public) scalar predicate
value. -/
def getConditionValue (pred : List Bool) : Bool := pred.headD false

/-- The index comparator built inside the public path of `Sort`: evaluate the
comparator body on the scalar elements at flat indices `a` and `b` of every
operand (`getElementAt`), and reveal the result. -/
def publicComparator {α : Type} [Inhabited α] (comparator_body : CompFn α)
    (values_to_sort : List (List α)) (a b : Nat) : Bool :=
  getConditionValue (comparator_body
    ((values_to_sort.map (fun v => [[v.getD a default], [v.getD b default]])).flatten))

/-- One row of the public path of `Sort`: sort `iota(n)` by the revealed
comparator and permute every operand by the resulting index order.
`std::stable_sort` (the `is_stable` branch) is embedded as an insertion sort,
which computes exactly the unique stable result; the `std::sort` branch agrees
with it whenever the comparator orders the row strictly (in particular on
duplicate-free keys), which is the only situation in which `std::sort`'s
output is determined. -/
def sortRowPublic {α : Type} [Inhabited α] (comparator_body : CompFn α)
    (is_stable : Bool) (values_to_sort : List (List α)) (n : Nat) : List (List α) :=
  let r : Nat → Nat → Prop := fun a b => publicComparator comparator_body values_to_sort b a = false
  let indices_to_sort :=
    if is_stable then (List.range n).insertionSort r else (List.range n).insertionSort r
  values_to_sort.map (fun v => permute v indices_to_sort)

/-- The non-public (oblivious) row path of `Sort`: batched parallel bitonic
sort when the row length is a power of two, the sequential fallback
otherwise. -/
def nonPublicSortPath {α : Type} [Inhabited α] (comparator_body : CompFn α)
    (values_to_sort : List (List α)) (n : Nat) : List (List α) :=
  if hasSingleBit n then parallelBitonicSort comparator_body values_to_sort n
  else sequentialBitonicSort comparator_body n values_to_sort 0 n true

/-- How a call of `Sort` can go wrong.  `oobRead` records undefined behaviour:
an out-of-range read (of `inputs[0]` on an empty operand span, or of
`key_shape[sort_dim]` through `std::vector::operator[]`), which the C++ does
not detect. -/
inductive SortError where
  | oobRead
  | invalidSortDimension
deriving DecidableEq

/-- `Sort` from `sort.cc`, embedded at rank 1 (`key_shape = [n]`), where the
row iteration visits exactly one row.  The order of effects follows the
source: `inputs[0]` is read first, then `key_shape[sort_dim]` is read —
*before* the `YACL_ENFORCE` range check on `sort_dim` — and only then does the
visibility dispatch run.  (Named `hloSort` because `Sort` is a Lean
keyword.) -/
def hloSort {α : Type} [Inhabited α] (inputs : List (List α)) (sort_dim : Int)
    (is_stable : Bool) (comparator_body : CompFn α) (comparator_ret_vis : Visibility) :
    Except SortError (List (List α)) :=
  match inputs.head? with
  | none => .error .oobRead
  | some key =>
    let key_shape : List Int := [Int.ofNat key.length]
    let rank : Int := Int.ofNat key_shape.length
    if sort_dim < 0 ∨ rank ≤ sort_dim then .error .oobRead
    else if ¬ (0 ≤ sort_dim ∧ sort_dim < rank) then .error .invalidSortDimension
    else
      let n := key.length
      if comparator_ret_vis = .VIS_PUBLIC then
        .ok (sortRowPublic comparator_body is_stable inputs n)
      else
        .ok (nonPublicSortPath comparator_body inputs n)


/-!
Position-level mirror of the oblivious row path, used to show that all
operands of a row move by one permutation determined by the key operand
alone.  `keyPred` is the comparator's action on the two key windows; the
mirrors below compute, from the original key row only, the position
permutation the network applies.
-/

/-- The comparator body only looks at the key operand's two windows. -/
def KeyOnly {α : Type} (cmp : CompFn α) (keyPred : List α → List α → List Bool) : Prop :=
  ∀ vs, cmp vs = keyPred (vs.getD 0 []) (vs.getD 1 [])

/-- A well-formed comparator predicate is as wide as its (paired) inputs. -/
def PredWidth {α : Type} (keyPred : List α → List α → List Bool) : Prop :=
  ∀ a b : List α, (keyPred a b).length = min a.length b.length

/-- Position-level `cmpSwap`: the swap applied to the position list `p`, with
the predicate computed from the key row gathered through `p`. -/
def posCmpSwap {α : Type} [Inhabited α] (keyPred : List α → List α → List Bool)
    (key : List α) (p : List Nat) (x y n : Nat) (acc : Bool) : List Nat :=
  let wk := permute key p
  let predicate := keyPred (slice wk x (x + n)) (slice wk y (y + n))
  let f := slice p x (x + n)
  let s := slice p y (y + n)
  let greater := select predicate f s
  let less := select predicate s f
  if acc then writeWin (writeWin p x greater) y less
  else writeWin (writeWin p x less) y greater

/-- Position-level `sequentialBitonicMerge`. -/
def posSeqMerge {α : Type} [Inhabited α] (keyPred : List α → List α → List Bool)
    (key : List α) : Nat → List Nat → Nat → Nat → Bool → List Nat
  | 0, p, _, _, _ => p
  | fuel + 1, p, lo, n, acc =>
    if 1 < n then
      let m := greatestPowerOfTwoLessThan n
      let p := posCmpSwap keyPred key p lo (lo + m) (n - m) acc
      let p := posSeqMerge keyPred key fuel p lo m acc
      posSeqMerge keyPred key fuel p (lo + m) (n - m) acc
    else p

/-- Position-level `sequentialBitonicSort`. -/
def posSeqSort {α : Type} [Inhabited α] (keyPred : List α → List α → List Bool)
    (key : List α) : Nat → List Nat → Nat → Nat → Bool → List Nat
  | 0, p, _, _, _ => p
  | fuel + 1, p, lo, n, acc =>
    if 1 < n then
      let m := n >>> 1
      let p := posSeqSort keyPred key fuel p lo m (!acc)
      let p := posSeqSort keyPred key fuel p (lo + m) (n - m) acc
      posSeqMerge keyPred key (fuel + 1) p lo n acc
    else p

/-- Position-level `parallelBitonicSort`. -/
def posParallel {α : Type} [Inhabited α] (keyPred : List α → List α → List Bool)
    (key : List α) (p0 : List Nat) (n : Nat) : List Nat :=
  let indices := generateBitonicMergeIndex n ++ generateBitonicSortIndex n
  indices.foldl (fun p index =>
    let permuted := permute p index
    let swapped := posCmpSwap keyPred key permuted 0 (n / 2) (n / 2) true
    permute swapped (inversePermutation index)) p0

/-- The permutation the oblivious row path applies: a function of the key row
and the row length only. -/
def posNonPublicPath {α : Type} [Inhabited α] (keyPred : List α → List α → List Bool)
    (key : List α) (n : Nat) : List Nat :=
  if hasSingleBit n then posParallel keyPred key (List.range n) n
  else posSeqSort keyPred key n (List.range n) 0 n true

/-- The permutation the public row path applies: a function of the key row
and the row length only. -/
def posPublicIdx {α : Type} [Inhabited α] (keyPred : List α → List α → List Bool)
    (key : List α) (n : Nat) : List Nat :=
  (List.range n).insertionSort (fun a b =>
    getConditionValue (keyPred [key.getD b default] [key.getD a default]) = false)



/-!
Single-key value-level view of the bitonic networks, used for the
correctness claims.  `ltCompFn` is the elementwise less-than comparator over
any linear order; `hcStep` is `cmpSwap` specialised to one operand with that
comparator; `seqMergeK`/`seqSortK` are the corresponding specialisations of
the two recursions.
-/

/-- The elementwise less-than comparator over a linear order. -/
def ltCompFn (α : Type) [LinearOrder α] : CompFn α := fun values =>
  List.zipWith (fun a b => decide (a < b)) (values.getD 0 []) (values.getD 1 [])

/-- Total position read (the element at `i`, or the default far out of
range). -/
def wAt {α : Type} [Inhabited α] (w : List α) (i : Nat) : α := w.getD i default

/-- `cmpSwap` with the less-than comparator, acting on a single operand. -/
def hcStep {α : Type} [LinearOrder α] (w : List α) (x y k : Nat) (acc : Bool) : List α :=
  let f := slice w x (x + k)
  let s := slice w y (y + k)
  let predicate := List.zipWith (fun a b => decide (a < b)) f s
  let greater := select predicate f s
  let less := select predicate s f
  if acc then writeWin (writeWin w x greater) y less
  else writeWin (writeWin w x less) y greater

/-- `sequentialBitonicMerge` on a single operand with the less-than
comparator. -/
def seqMergeK {α : Type} [LinearOrder α] : Nat → List α → Nat → Nat → Bool → List α
  | 0, w, _, _, _ => w
  | fuel + 1, w, lo, n, acc =>
    if 1 < n then
      let m := greatestPowerOfTwoLessThan n
      let w := hcStep w lo (lo + m) (n - m) acc
      let w := seqMergeK fuel w lo m acc
      seqMergeK fuel w (lo + m) (n - m) acc
    else w

/-- `sequentialBitonicSort` on a single operand with the less-than
comparator. -/
def seqSortK {α : Type} [LinearOrder α] : Nat → List α → Nat → Nat → Bool → List α
  | 0, w, _, _, _ => w
  | fuel + 1, w, lo, n, acc =>
    if 1 < n then
      let m := n >>> 1
      let w := seqSortK fuel w lo m (!acc)
      let w := seqSortK fuel w (lo + m) (n - m) acc
      seqMergeK (fuel + 1) w lo n acc
    else w

/-! Window predicates over boolean rows, used in the zero-one-principle
proof of network correctness. -/

/-- The window `[lo, lo+n)` is sorted ascending. -/
def SortedWinA (w : List Bool) (lo n : Nat) : Prop :=
  ∀ i j, lo ≤ i → i ≤ j → j < lo + n → wAt w i ≤ wAt w j

/-- The window `[lo, lo+n)` is sorted descending. -/
def SortedWinD (w : List Bool) (lo n : Nat) : Prop :=
  ∀ i j, lo ≤ i → i ≤ j → j < lo + n → wAt w j ≤ wAt w i

/-- The window contains no `0,1,0` subsequence: it is of shape
`1^a 0^b 1^c` (a "valley"). -/
def ValleyWin (w : List Bool) (lo n : Nat) : Prop :=
  ∀ i j k, lo ≤ i → i < j → j < k → k < lo + n →
    ¬(wAt w i = false ∧ wAt w j = true ∧ wAt w k = false)

/-- The window contains no `1,0,1` subsequence: it is of shape
`0^a 1^b 0^c` (a "mountain"). -/
def MountWin (w : List Bool) (lo n : Nat) : Prop :=
  ∀ i j k, lo ≤ i → i < j → j < k → k < lo + n →
    ¬(wAt w i = true ∧ wAt w j = false ∧ wAt w k = true)

/-- The window contains no four-term alternation: it is cyclically bitonic
(a valley or a mountain). -/
def Bit4Win (w : List Bool) (lo n : Nat) : Prop :=
  ∀ a b c d, lo ≤ a → a < b → b < c → c < d → d < lo + n →
    ¬(wAt w a ≠ wAt w b ∧ wAt w b ≠ wAt w c ∧ wAt w c ≠ wAt w d)

/-- Pointwise negation of a boolean row. -/
def notL (w : List Bool) : List Bool := w.map (fun b => !b)

/-! The canonical phase/substage description of the parallel bitonic
network, in arithmetic form. -/

/-- Bit `t` of `j`. -/
def bitAt (t j : Nat) : Nat := (j / 2 ^ t) % 2

/-- The comparison partner of `j` at substage `t`: `j` with bit `t`
flipped. -/
def partnerAt (t j : Nat) : Nat := if bitAt t j = 0 then j + 2 ^ t else j - 2 ^ t

/-- One substage (phase `s`, substage `t`) of the canonical parallel bitonic
network on `n` positions: position `j` receives the minimum of itself and its
partner when its `asc_flag` and `fst_flag` agree, the maximum otherwise. -/
def phaseStepVal (s t n : Nat) (w : List Bool) : List Bool :=
  (List.range n).map (fun j =>
    if bitAt (s + 1) j = bitAt t j then min (wAt w j) (wAt w (partnerAt t j))
    else max (wAt w (partnerAt t j)) (wAt w j))

/-- The `(stage_idx, substage_idx)` pairs of all phases of the network of
`2 ^ e` positions, in schedule order. -/
def phaseList (e : Nat) : List (Nat × Nat) :=
  (List.range e).flatMap (fun s => ((List.range (s + 1)).reverse).map (fun t => (s, t)))

/-- The canonical parallel bitonic network on boolean rows. -/
def canonParallel (e : Nat) (w : List Bool) : List Bool :=
  (phaseList e).foldl (fun w st => phaseStepVal st.1 st.2 (2 ^ e) w) w

/-- Decidable check that a generated stage index list realises canonical
substage `(s, t)`: the two halves list the `fst`/`sec` positions so that the
`p`-th comparison pairs a `fst` position with its partner. -/
def stageOk (n s t : Nat) (index : List Nat) : Bool :=
  index.isPerm (List.range n) &&
    (List.range (n / 2)).all (fun p =>
      bitAt (s + 1) (index.getD p 0) == bitAt t (index.getD p 0) &&
      index.getD (n / 2 + p) 0 == partnerAt t (index.getD p 0))

/-- Decidable check that the whole generated schedule of `parallelBitonicSort`
on `2 ^ e` positions realises the canonical phase list, stage by stage. -/
def scheduleOk (e : Nat) : Bool :=
  let idxs := generateBitonicMergeIndex (2 ^ e) ++ generateBitonicSortIndex (2 ^ e)
  let ph := phaseList e
  idxs.length == ph.length &&
    (idxs.zip ph).all (fun pr => stageOk (2 ^ e) pr.2.1 pr.2.2 pr.1)

/-- One stage of `parallelBitonicSort` on a single operand with the less-than
comparator: permute, batched compare-exchange of the two halves, permute
back. -/
def parStepK {α : Type} [LinearOrder α] [Inhabited α] (n : Nat) (v : List α)
    (index : List Nat) : List α :=
  permute (hcStep (permute v index) 0 (n / 2) (n / 2) true) (inversePermutation index)

/-- `parallelBitonicSort` on a single operand with the less-than
comparator. -/
def parK {α : Type} [LinearOrder α] [Inhabited α] (n : Nat) (v : List α) : List α :=
  (generateBitonicMergeIndex n ++ generateBitonicSortIndex n).foldl (parStepK n) v

/-- Invariant of the canonical network inside phase `s`, at granularity
`2 ^ t`: every aligned `2 ^ t`-block is cyclically bitonic, and within each
`2 ^ (s+1)` superblock the blocks dominate each other in the superblock's
direction (ascending when bit `s+1` of the position is clear). -/
def SubInv (e s t : Nat) (v : List Bool) : Prop :=
  (∀ b : Nat, (b + 1) * 2 ^ t ≤ 2 ^ e → Bit4Win v (b * 2 ^ t) (2 ^ t)) ∧
  (∀ i j : Nat, i < 2 ^ e → j < 2 ^ e → i / 2 ^ (s + 1) = j / 2 ^ (s + 1) →
    i / 2 ^ t < j / 2 ^ t →
    (bitAt (s + 1) i = 0 → wAt v i ≤ wAt v j) ∧
    (bitAt (s + 1) i = 1 → wAt v j ≤ wAt v i))

/-- The substages `t, t-1, …, 0` of phase `s` of the canonical network. -/
def phaseRun (s n : Nat) : Nat → List Bool → List Bool
  | 0, v => phaseStepVal s 0 n v
  | t + 1, v => phaseRun s n t (phaseStepVal s (t + 1) n v)

/-- The phases `0, …, s-1` of the canonical network. -/
def phasesRun (n : Nat) : Nat → List Bool → List Bool
  | 0, v => v
  | s + 1, v => phaseRun s n s (phasesRun n s v)

/-!
Trace instrumentation for the obliviousness property: an event records every
compare-exchange window (start offsets and width) issued through `cmpSwap` and
every permutation index list handed to `hal::permute`.
-/

/-- One observable scheduling action of the oblivious path. -/
inductive SortEvent where
  | swapWin (x y n : Nat)
  | permIdx (idx : List Nat)
deriving DecidableEq

/-- `sequentialBitonicMerge` instrumented with the events it issues. -/
def sequentialBitonicMergeTr {α : Type} (comparator_body : CompFn α) :
    Nat → List (List α) → Nat → Nat → Bool → List (List α) × List SortEvent
  | 0, vals, _, _, _ => (vals, [])
  | fuel + 1, vals, lo, n, acc =>
    if 1 < n then
      let m := greatestPowerOfTwoLessThan n
      let v1 := cmpSwap comparator_body vals lo (lo + m) (n - m) acc
      let r2 := sequentialBitonicMergeTr comparator_body fuel v1 lo m acc
      let r3 := sequentialBitonicMergeTr comparator_body fuel r2.1 (lo + m) (n - m) acc
      (r3.1, SortEvent.swapWin lo (lo + m) (n - m) :: (r2.2 ++ r3.2))
    else (vals, [])

/-- `sequentialBitonicSort` instrumented with the events it issues. -/
def sequentialBitonicSortTr {α : Type} (comparator_body : CompFn α) :
    Nat → List (List α) → Nat → Nat → Bool → List (List α) × List SortEvent
  | 0, vals, _, _, _ => (vals, [])
  | fuel + 1, vals, lo, n, acc =>
    if 1 < n then
      let m := n >>> 1
      let r1 := sequentialBitonicSortTr comparator_body fuel vals lo m (!acc)
      let r2 := sequentialBitonicSortTr comparator_body fuel r1.1 (lo + m) (n - m) acc
      let r3 := sequentialBitonicMergeTr comparator_body (fuel + 1) r2.1 lo n acc
      (r3.1, r1.2 ++ r2.2 ++ r3.2)
    else (vals, [])

/-- `parallelBitonicSort` instrumented with the events it issues. -/
def parallelBitonicSortTr {α : Type} [Inhabited α] (comparator_body : CompFn α)
    (values_to_sort : List (List α)) (n : Nat) : List (List α) × List SortEvent :=
  let indices := generateBitonicMergeIndex n ++ generateBitonicSortIndex n
  indices.foldl (fun st index =>
    let permuted_values := st.1.map (fun v => permute v index)
    let swapped := cmpSwap comparator_body permuted_values 0 (n / 2) (n / 2) true
    let inverse_permutation := inversePermutation index
    (swapped.map (fun v => permute v inverse_permutation),
      st.2 ++ [SortEvent.permIdx index, SortEvent.swapWin 0 (n / 2) (n / 2),
        SortEvent.permIdx inverse_permutation])) (values_to_sort, [])

/-- The non-public row path, instrumented. -/
def nonPublicSortPathTr {α : Type} [Inhabited α] (comparator_body : CompFn α)
    (values_to_sort : List (List α)) (n : Nat) : List (List α) × List SortEvent :=
  if hasSingleBit n then parallelBitonicSortTr comparator_body values_to_sort n
  else sequentialBitonicSortTr comparator_body n values_to_sort 0 n true

/-- The precomputed schedule of `sequentialBitonicMerge`: a pure function of
the window geometry. -/
def seqMergeSchedule : Nat → Nat → Nat → List SortEvent
  | 0, _, _ => []
  | fuel + 1, lo, n =>
    if 1 < n then
      let m := greatestPowerOfTwoLessThan n
      SortEvent.swapWin lo (lo + m) (n - m) ::
        (seqMergeSchedule fuel lo m ++ seqMergeSchedule fuel (lo + m) (n - m))
    else []

/-- The precomputed schedule of `sequentialBitonicSort`. -/
def seqSortSchedule : Nat → Nat → Nat → List SortEvent
  | 0, _, _ => []
  | fuel + 1, lo, n =>
    if 1 < n then
      let m := n >>> 1
      seqSortSchedule fuel lo m ++ seqSortSchedule fuel (lo + m) (n - m) ++
        seqMergeSchedule (fuel + 1) lo n
    else []

/-- The precomputed schedule of `parallelBitonicSort`. -/
def parallelSchedule (n : Nat) : List SortEvent :=
  (generateBitonicMergeIndex n ++ generateBitonicSortIndex n).flatMap (fun index =>
    [SortEvent.permIdx index, SortEvent.swapWin 0 (n / 2) (n / 2),
      SortEvent.permIdx (inversePermutation index)])

/-- The precomputed schedule of the whole non-public path: a function of the
sort-axis length alone. -/
def nonPublicSchedule (n : Nat) : List SortEvent :=
  if hasSingleBit n then parallelSchedule n else seqSortSchedule n 0 n


/-- The elementwise less-than comparator region: compares the two key windows
(the first operand's `x` and `y` slices) pointwise.  On the scalar slices of
the public path it reveals exactly `a < b`. -/
def intLtComparator : CompFn Int := fun values =>
  List.zipWith (fun a b => decide (a < b)) (values.getD 0 []) (values.getD 1 [])

/-- The action of `intLtComparator` on the two key windows. -/
def intLtKeyPred : List Int → List Int → List Bool := fun a b =>
  List.zipWith (fun x y => decide (x < y)) a b

end kernel.hlo

namespace device

/-!
Embedding of `spu/device/executor.cc`.

`mlir::Value` keys become `Nat` identifiers; runtime `spu::Value`s become an
abstract inhabited type `V`.  A `SymbolScope` is a frame (association list,
newest binding first — `addValue` overwrites by shadowing) plus the chain of
enclosing frames; the whole chain is a list with the innermost frame at the
head.  `runKernel` is the externally supplied kernel-dispatch capability; per
the interface contract it reads operands through scope lookup and returns the
bindings it inserts into the scope it was handed (the innermost one).
-/

/-- One `SymbolScope`'s own `symbols_` map. -/
def Frame (V : Type) : Type := List (Nat × V)

/-- The chain of scopes, innermost first (`SymbolScope` + its `parent_`
pointers). -/
def ScopeChain (V : Type) : Type := List (Frame V)

/-- How the executor can fail: the `YACL_ENFORCE`/`YACL_THROW` sites of
`executor.cc`. -/
inductive RunError where
  | arityMismatch
  | malformedRegion
  | missingTerminator
  | undefinedValue
deriving DecidableEq

/-- `SymbolScope::lookupValue`: search the own map, then climb the parent
chain; a miss is fatal (`YACL_THROW`). -/
def lookupValue {V : Type} : ScopeChain V → Nat → Except RunError V
  | [], _ => .error .undefinedValue
  | f :: parent, key =>
    match f.lookup key with
    | some v => .ok v
    | none => lookupValue parent key

/-- `SymbolScope::addValue`: bind (or rebind) a key in this scope's own map. -/
def addValue {V : Type} (f : Frame V) (key : Nat) (v : V) : Frame V := (key, v) :: f

/-- The kernel-dispatch capability (`OpExecutor::runKernel`): given the
current scope chain and an operation, the bindings it inserts into the
innermost scope, in insertion order. -/
def KernelFn (V Op : Type) : Type := ScopeChain V → Op → List (Nat × V)

/-- One `executor->runKernel(hctx, symbols, op)` call: all bindings the kernel
produces are added to the innermost scope. -/
def runKernel {V Op : Type} (kernel : KernelFn V Op) (chain : ScopeChain V) (op : Op) :
    ScopeChain V :=
  match chain with
  | [] => []
  | f :: parent => ((kernel (f :: parent) op).foldl (fun fr kv => addValue fr kv.1 kv.2) f) :: parent

/-- An `mlir::Block`: non-terminator operations in program order, and the
terminator's operand ids (`none` models a block without terminator). -/
structure BlockModel (Op : Type) where
  ops : List Op
  terminator : Option (List Nat)

/-- An `mlir::Region`: the block-argument ids (`region.getArguments`, the
`i`-th has `getArgNumber () = i`) and the owned blocks
(`region.hasOneBlock()` is checked at run time). -/
structure RegionModel (Op : Type) where
  argIds : List Nat
  blocks : List (BlockModel Op)

/-- `runBlock`: execute the non-terminator operations strictly in order, then
resolve the terminator's operands through the final scope chain.  The final
scope chain is returned alongside the results so that the scope-discard
behaviour of `runRegion` is expressible (the C++ keeps it in the mutable
`SymbolScope`). -/
def runBlock {V Op : Type} (kernel : KernelFn V Op) (chain : ScopeChain V)
    (block : BlockModel Op) : Except RunError (List V × ScopeChain V) :=
  let chain := block.ops.foldl (runKernel kernel) chain
  match block.terminator with
  | some termOperands => (termOperands.mapM (lookupValue chain)).map (fun rs => (rs, chain))
  | none => .error .missingTerminator

/-- The fresh child scope of `runRegion`: each block argument bound to the
matching positional parameter. -/
def initScope {V : Type} (argIds : List Nat) (params : List V) : Frame V :=
  (argIds.zip params).foldl (fun fr kv => addValue fr kv.1 kv.2) []

/-- `runRegion`: enforce the arity match, create a child scope chained to the
parent, inject the parameters, enforce the single block, and run it.  The
returned chain is the scope chain as seen after the call returns: the child
scope has been discarded. -/
def runRegion {V Op : Type} (kernel : KernelFn V Op) (parent_scope : ScopeChain V)
    (region : RegionModel Op) (params : List V) : Except RunError (List V × ScopeChain V) :=
  if region.argIds.length ≠ params.length then .error .arityMismatch
  else
    let sscope := initScope region.argIds params
    match region.blocks with
    | [block] =>
      (runBlock kernel (sscope :: parent_scope) block).map (fun rc => (rc.1, rc.2.tail))
    | _ => .error .malformedRegion

end device

end spu

instance {ε α : Type} [DecidableEq ε] [DecidableEq α] : DecidableEq (Except ε α) := fun x y =>
  match x, y with
  | .ok u, .ok v =>
    if h : u = v then .isTrue (by rw [h]) else .isFalse (by intro hc; cases hc; exact h rfl)
  | .error u, .error v =>
    if h : u = v then .isTrue (by rw [h]) else .isFalse (by intro hc; cases hc; exact h rfl)
  | .ok _, .error _ => .isFalse (by intro hc; cases hc)
  | .error _, .ok _ => .isFalse (by intro hc; cases hc)


namespace spu.kernel.hlo

/-! Basic algebra of the embedded tensor primitives. -/

theorem select_length {α : Type} :
    ∀ (p : List Bool) (a b : List α),
      (select p a b).length = min p.length (min a.length b.length) := by
  intro p
  induction p with
  | nil => intro a b; simp [select]
  | cons pc ps ih =>
    intro a b
    cases a with
    | nil => simp [select]
    | cons x xs =>
      cases b with
      | nil => simp [select]
      | cons y ys => simp [select, ih, Nat.succ_min_succ]

theorem select_getElem? {α : Type} :
    ∀ (p : List Bool) (a b : List α) (k : Nat) (pc : Bool) (x y : α),
      p[k]? = some pc → a[k]? = some x → b[k]? = some y →
      (select p a b)[k]? = some (if pc then x else y) := by
  intro p
  induction p with
  | nil => intro a b k pc x y hp; simp at hp
  | cons p0 ps ih =>
    intro a b k pc x y hp ha hb
    cases a with
    | nil => simp at ha
    | cons a0 as1 =>
      cases b with
      | nil => simp at hb
      | cons b0 bs1 =>
        cases k with
        | zero =>
          simp at hp ha hb
          subst hp; subst ha; subst hb
          simp [select]
        | succ j =>
          simp at hp ha hb
          simpa [select] using ih as1 bs1 j pc x y hp ha hb

theorem select_map {α β : Type} (g : α → β) :
    ∀ (p : List Bool) (a b : List α),
      select p (a.map g) (b.map g) = (select p a b).map g := by
  intro p
  induction p with
  | nil => intro a b; simp [select]
  | cons p0 ps ih =>
    intro a b
    cases a with
    | nil => simp [select]
    | cons a0 as1 =>
      cases b with
      | nil => simp [select]
      | cons b0 bs1 => simp [select, ih, apply_ite g]

theorem mem_select {α : Type} :
    ∀ (p : List Bool) (a b : List α) (z : α), z ∈ select p a b → z ∈ a ∨ z ∈ b := by
  intro p
  induction p with
  | nil => intro a b z h; simp [select] at h
  | cons p0 ps ih =>
    intro a b z h
    cases a with
    | nil => simp [select] at h
    | cons a0 as1 =>
      cases b with
      | nil => simp [select] at h
      | cons b0 bs1 =>
        simp only [select, List.mem_cons] at h
        rcases h with h | h
        · by_cases hp : p0 <;> simp [hp] at h <;> simp [h]
        · rcases ih as1 bs1 z h with h2 | h2
          · exact Or.inl (List.mem_cons_of_mem _ h2)
          · exact Or.inr (List.mem_cons_of_mem _ h2)

theorem select_swap_perm {α : Type} :
    ∀ (p : List Bool) (a b : List α), a.length = b.length →
      (select p a b ++ select p b a).Perm (a.take p.length ++ b.take p.length) := by
  intro p
  induction p with
  | nil => intro a b _; simp [select]
  | cons p0 ps ih =>
    intro a b hlen
    cases a with
    | nil =>
      cases b with
      | nil => simp [select]
      | cons b0 bs1 => simp at hlen
    | cons a0 as1 =>
      cases b with
      | nil => simp at hlen
      | cons b0 bs1 =>
        simp only [select, List.take_succ_cons, List.cons_append]
        have hmid : ((if p0 then a0 else b0) :: (select ps as1 bs1 ++
            (if p0 then b0 else a0) :: select ps bs1 as1)).Perm
            ((if p0 then a0 else b0) :: (if p0 then b0 else a0) ::
              (select ps as1 bs1 ++ select ps bs1 as1)) :=
          List.Perm.cons _ List.perm_middle
        refine hmid.trans ?_
        have hpair : ((if p0 then a0 else b0) :: (if p0 then b0 else a0) ::
            (select ps as1 bs1 ++ select ps bs1 as1)).Perm
            (a0 :: b0 :: (select ps as1 bs1 ++ select ps bs1 as1)) := by
          by_cases hp : p0
          · simp [hp]
          · simp only [hp, if_false]
            exact List.Perm.swap _ _ _
        refine hpair.trans ?_
        have htail := ih as1 bs1 (by simpa using hlen)
        have : (a0 :: b0 :: (select ps as1 bs1 ++ select ps bs1 as1)).Perm
            (a0 :: b0 :: (as1.take ps.length ++ bs1.take ps.length)) :=
          (htail.cons b0).cons a0
        refine this.trans ?_
        exact (List.Perm.cons a0 List.perm_middle.symm)

theorem slice_length {α : Type} (v : List α) (s e : Nat) :
    (slice v s e).length = min (e - s) (v.length - s) := by
  simp [slice]

theorem slice_getElem? {α : Type} (v : List α) (s e k : Nat) (h : k < e - s) :
    (slice v s e)[k]? = v[s + k]? := by
  simp [slice, List.getElem?_take, h, List.getElem?_drop]

theorem writeWin_eq_parts {α : Type} (v w : List α) (s : Nat) :
    writeWin v s w = v.take s ++ w ++ v.drop (s + w.length) := rfl

theorem writeWin_length {α : Type} (v w : List α) (s : Nat) (h : s + w.length ≤ v.length) :
    (writeWin v s w).length = v.length := by
  simp [writeWin]
  omega

theorem writeWin_getElem? {α : Type} (v w : List α) (s j : Nat) (h : s + w.length ≤ v.length) :
    (writeWin v s w)[j]? =
      if j < s then v[j]?
      else if j < s + w.length then w[j - s]?
      else v[j]? := by
  have hs : (v.take s).length = s := by simp; omega
  by_cases h1 : j < s
  · rw [if_pos h1, writeWin_eq_parts, List.append_assoc, List.getElem?_append_left (by omega),
      List.getElem?_take, if_pos h1]
  · rw [if_neg h1]
    by_cases h2 : j < s + w.length
    · rw [if_pos h2, writeWin_eq_parts, List.append_assoc,
        List.getElem?_append_right (by omega), hs, List.getElem?_append_left (by omega)]
    · rw [if_neg h2, writeWin_eq_parts, List.append_assoc,
        List.getElem?_append_right (by omega), hs, List.getElem?_append_right (by omega),
        List.getElem?_drop]
      congr 1
      omega

theorem permute_length {α : Type} [Inhabited α] (v : List α) (p : List Nat) :
    (permute v p).length = p.length := by
  simp [permute]

theorem permute_getElem? {α : Type} [Inhabited α] (v : List α) (p : List Nat) (i : Nat) :
    (permute v p)[i]? = p[i]?.map (fun j => v.getD j default) := by
  simp [permute, List.getElem?_map]

theorem slice_permute {α : Type} [Inhabited α] (v : List α) (p : List Nat) (s e : Nat) :
    slice (permute v p) s e = permute v (slice p s e) := by
  simp [slice, permute, List.map_take, List.map_drop]

theorem writeWin_permute {α : Type} [Inhabited α] (v : List α) (p q : List Nat) (s : Nat) :
    writeWin (permute v p) s (permute v q) = permute v (writeWin p s q) := by
  simp [writeWin, permute, List.map_append, List.map_take, List.map_drop]

theorem select_permute {α : Type} [Inhabited α] (v : List α) (pred : List Bool)
    (pa pb : List Nat) :
    select pred (permute v pa) (permute v pb) = permute v (select pred pa pb) := by
  simp [permute, select_map]

theorem getD_range_map {α : Type} [Inhabited α] (l : List α) :
    (List.range l.length).map (fun i => l.getD i default) = l := by
  apply List.ext_getElem
  · simp
  · intro i h1 h2
    simp [List.getD_eq_getElem?_getD, List.getElem?_eq_getElem h2]

theorem permute_range_self {α : Type} [Inhabited α] (l : List α) :
    permute l (List.range l.length) = l := getD_range_map l

theorem permute_comp {α : Type} [Inhabited α] (v : List α) (p : List Nat) (idx : List Nat)
    (h : ∀ i ∈ idx, i < p.length) :
    permute (permute v p) idx = permute v (permute p idx) := by
  unfold permute
  rw [List.map_map]
  apply List.map_congr_left
  intro i hi
  have hip := h i hi
  simp only [Function.comp]
  rw [List.getD_eq_getElem?_getD, List.getElem?_map, List.getElem?_eq_getElem hip]
  simp [List.getD_eq_getElem?_getD, List.getElem?_eq_getElem hip]

theorem mem_permute_of_lt {α : Type} [Inhabited α] (v : List α) (p : List Nat)
    (h : ∀ i ∈ p, i < v.length) : ∀ z ∈ permute v p, z ∈ v := by
  intro z hz
  simp only [permute, List.mem_map] at hz
  obtain ⟨i, hi, rfl⟩ := hz
  have := h i hi
  rw [List.getD_eq_getElem?_getD, List.getElem?_eq_getElem this]
  exact List.getElem_mem this

theorem permute_perm_of_perm_range {α : Type} [Inhabited α] (l : List α) (idx : List Nat)
    (hl : idx.Perm (List.range l.length)) : (permute l idx).Perm l := by
  have h1 : (permute l idx).Perm (permute l (List.range l.length)) :=
    List.Perm.map _ hl
  rw [permute_range_self] at h1
  exact h1

end spu.kernel.hlo


namespace spu.kernel.hlo

/-! Arithmetic facts about `log2floor` and `greatestPowerOfTwoLessThan`. -/

theorem log2floorAux_bounds :
    ∀ (fuel n : Nat), n ≤ fuel → 1 ≤ n →
      2 ^ log2floorAux fuel n ≤ n ∧ n < 2 ^ (log2floorAux fuel n + 1) := by
  intro fuel
  induction fuel with
  | zero => intro n h1 h2; omega
  | succ f ih =>
    intro n h1 h2
    by_cases hn : n ≤ 1
    · have : n = 1 := by omega
      subst this
      simp [log2floorAux]
    · have h2n : 2 ≤ n := by omega
      have hrec : n / 2 ≤ f := by omega
      have hpos : 1 ≤ n / 2 := by omega
      obtain ⟨hlb, hub⟩ := ih (n / 2) hrec hpos
      have hstep : log2floorAux (f + 1) n = 1 + log2floorAux f (n / 2) := by
        simp [log2floorAux, hn]
      rw [hstep]
      constructor
      · have : 2 ^ (1 + log2floorAux f (n / 2)) = 2 * 2 ^ log2floorAux f (n / 2) := by
          rw [pow_add]; ring
        rw [this]
        omega
      · have : 2 ^ (1 + log2floorAux f (n / 2) + 1) = 2 * 2 ^ (log2floorAux f (n / 2) + 1) := by
          rw [pow_add, pow_add, pow_add]; ring
        rw [this]
        omega

theorem log2floor_bounds (n : Nat) (h : 1 ≤ n) :
    2 ^ log2floor n ≤ n ∧ n < 2 ^ (log2floor n + 1) :=
  log2floorAux_bounds n n (Nat.le_refl n) h

theorem gptlt_facts (n : Nat) (h : 1 < n) :
    0 < greatestPowerOfTwoLessThan n ∧ greatestPowerOfTwoLessThan n < n ∧
      n - greatestPowerOfTwoLessThan n ≤ greatestPowerOfTwoLessThan n := by
  unfold greatestPowerOfTwoLessThan
  rw [if_neg (by omega)]
  obtain ⟨hlb, hub⟩ := log2floor_bounds (n - 1) (by omega)
  have hp : 0 < 2 ^ log2floor (n - 1) := Nat.pos_pow_of_pos _ (by omega)
  have h2 : 2 ^ (log2floor (n - 1) + 1) = 2 * 2 ^ log2floor (n - 1) := by
    rw [pow_add]; ring
  rw [h2] at hub
  exact ⟨hp, by omega, by omega⟩

/-- `log2floor` is determined by the power-of-two bracketing, so on
`2 ^ k - 1` (for `k ≥ 1`) it returns `k - 1`. -/
theorem log2floor_two_pow_sub_one (k : Nat) (hk : 1 ≤ k) :
    log2floor (2 ^ k - 1) = k - 1 := by
  have hpk : 2 ^ k ≥ 2 ^ 1 := Nat.pow_le_pow_right (by omega) hk
  have h1 : 1 ≤ 2 ^ k - 1 := by omega
  obtain ⟨hlb, hub⟩ := log2floor_bounds (2 ^ k - 1) h1
  set L := log2floor (2 ^ k - 1) with hL
  have hlt : 2 ^ L < 2 ^ k := by omega
  have hk1 : 2 ^ (k - 1) < 2 ^ (L + 1) := by
    have : 2 ^ (k - 1) ≤ 2 ^ k - 1 := by
      have : 2 ^ k = 2 * 2 ^ (k - 1) := by
        conv_lhs => rw [show k = 1 + (k - 1) by omega]
        rw [pow_add]; ring
      have hp : 0 < 2 ^ (k - 1) := Nat.pos_pow_of_pos _ (by omega)
      omega
    omega
  have hLk : L < k := (Nat.pow_lt_pow_iff_right (by omega)).mp hlt
  have hkL : k - 1 < L + 1 := (Nat.pow_lt_pow_iff_right (by omega)).mp hk1
  omega

/-- On a power of two `2 ^ k` (`k ≥ 1`), the greatest power of two strictly
below it is exactly the half. -/
theorem gptlt_two_pow (k : Nat) (hk : 1 ≤ k) :
    greatestPowerOfTwoLessThan (2 ^ k) = 2 ^ (k - 1) := by
  unfold greatestPowerOfTwoLessThan
  have hpk : 2 ^ k ≥ 2 ^ 1 := Nat.pow_le_pow_right (by omega) hk
  rw [if_neg (by omega), log2floor_two_pow_sub_one k hk]

/-! Window decomposition lemmas. -/

theorem slice_append_drop {α : Type} (p : List α) (s e : Nat) (h : s ≤ e) :
    slice p s e ++ p.drop e = p.drop s := by
  unfold slice
  have h2 : p.drop e = (p.drop s).drop (e - s) := by
    rw [List.drop_drop]
    congr 1
    omega
  rw [h2]
  exact List.take_append_drop _ _

theorem take_append_slice {α : Type} (p : List α) (s e : Nat) (h : s ≤ e) :
    p.take s ++ slice p s e = p.take s ++ (p.drop s).take (e - s) := rfl

/-- Full three-window decomposition of a list around `[x, x+k)` and
`[y, y+k)`. -/
theorem window_decomposition {α : Type} (p : List α) (x y k : Nat)
    (hxy : x + k ≤ y) (hy : y + k ≤ p.length) :
    p = p.take x ++ slice p x (x + k) ++ slice p (x + k) y ++ slice p y (y + k) ++
      p.drop (y + k) := by
  have h1 : slice p y (y + k) ++ p.drop (y + k) = p.drop y :=
    slice_append_drop p y (y + k) (by omega)
  have h2 : slice p (x + k) y ++ p.drop y = p.drop (x + k) :=
    slice_append_drop p (x + k) y (by omega)
  have h3 : slice p x (x + k) ++ p.drop (x + k) = p.drop x :=
    slice_append_drop p x (x + k) (by omega)
  calc p = p.take x ++ p.drop x := (List.take_append_drop _ _).symm
    _ = _ := by rw [← h3, ← h2, ← h1]; simp [List.append_assoc]

theorem slice_length_of_le {α : Type} (p : List α) (s k : Nat) (h : s + k ≤ p.length) :
    (slice p s (s + k)).length = k := by
  rw [slice_length]
  omega

theorem select_length_le {α : Type} (pred : List Bool) (a b : List α) :
    (select pred a b).length ≤ a.length := by
  rw [select_length]
  omega

/-- `writeWin` at the exact window width, as take/append/drop. -/
theorem writeWin_exact {α : Type} (v w : List α) (s k : Nat) (hw : w.length = k) :
    writeWin v s w = v.take s ++ w ++ v.drop (s + k) := by
  rw [writeWin_eq_parts, hw]

theorem posCmpSwap_length {α : Type} [Inhabited α] (keyPred : List α → List α → List Bool)
    (key : List α) (p : List Nat) (x y k : Nat) (acc : Bool)
    (hxy : x + k ≤ y) (hy : y + k ≤ p.length) :
    (posCmpSwap keyPred key p x y k acc).length = p.length := by
  unfold posCmpSwap
  have hf : (slice p x (x + k)).length = k := slice_length_of_le p x k (by omega)
  have hs : (slice p y (y + k)).length = k := slice_length_of_le p y k (by omega)
  have hg : ∀ pr : List Bool, (select pr (slice p x (x + k)) (slice p y (y + k))).length ≤ k := by
    intro pr; have := select_length_le pr (slice p x (x + k)) (slice p y (y + k)); omega
  have hl : ∀ pr : List Bool, (select pr (slice p y (y + k)) (slice p x (x + k))).length ≤ k := by
    intro pr; have := select_length_le pr (slice p y (y + k)) (slice p x (x + k)); omega
  cases acc with
  | true =>
    simp only [if_pos]
    rw [writeWin_length, writeWin_length]
    · have := hg (keyPred (slice (permute key p) x (x + k)) (slice (permute key p) y (y + k)))
      omega
    · rw [writeWin_length]
      · have := hl (keyPred (slice (permute key p) x (x + k)) (slice (permute key p) y (y + k)))
        omega
      · have := hg (keyPred (slice (permute key p) x (x + k)) (slice (permute key p) y (y + k)))
        omega
  | false =>
    simp only [Bool.false_eq_true, if_false]
    rw [writeWin_length, writeWin_length]
    · have := hl (keyPred (slice (permute key p) x (x + k)) (slice (permute key p) y (y + k)))
      omega
    · rw [writeWin_length]
      · have := hg (keyPred (slice (permute key p) x (x + k)) (slice (permute key p) y (y + k)))
        omega
      · have := hl (keyPred (slice (permute key p) x (x + k)) (slice (permute key p) y (y + k)))
        omega

theorem mem_slice {α : Type} (p : List α) (s e : Nat) : ∀ z ∈ slice p s e, z ∈ p := by
  intro z hz
  unfold slice at hz
  exact List.drop_subset _ _ (List.take_subset _ _ hz)

theorem mem_writeWin {α : Type} (v w : List α) (s : Nat) :
    ∀ z ∈ writeWin v s w, z ∈ v ∨ z ∈ w := by
  intro z hz
  rw [writeWin_eq_parts] at hz
  simp only [List.append_assoc, List.mem_append] at hz
  rcases hz with h | h | h
  · exact Or.inl (List.take_subset _ _ h)
  · exact Or.inr h
  · exact Or.inl (List.drop_subset _ _ h)

theorem mem_posCmpSwap {α : Type} [Inhabited α] (keyPred : List α → List α → List Bool)
    (key : List α) (p : List Nat) (x y k : Nat) (acc : Bool) :
    ∀ z ∈ posCmpSwap keyPred key p x y k acc, z ∈ p := by
  intro z hz
  unfold posCmpSwap at hz
  have hsel : ∀ (pr : List Bool) (a b : List Nat), (∀ u ∈ a, u ∈ p) → (∀ u ∈ b, u ∈ p) →
      ∀ u ∈ select pr a b, u ∈ p := by
    intro pr a b ha hb u hu
    rcases mem_select pr a b u hu with h | h
    · exact ha u h
    · exact hb u h
  have hx := mem_slice p x (x + k)
  have hyy := mem_slice p y (y + k)
  cases acc with
  | true =>
    simp only [if_pos] at hz
    rcases mem_writeWin _ _ _ z hz with h | h
    · rcases mem_writeWin _ _ _ z h with h2 | h2
      · exact h2
      · exact hsel _ _ _ hx hyy z h2
    · exact hsel _ _ _ hyy hx z h
  | false =>
    simp only [Bool.false_eq_true, if_false] at hz
    rcases mem_writeWin _ _ _ z hz with h | h
    · rcases mem_writeWin _ _ _ z h with h2 | h2
      · exact h2
      · exact hsel _ _ _ hyy hx z h2
    · exact hsel _ _ _ hx hyy z h

end spu.kernel.hlo


namespace spu.kernel.hlo

/-- Writing two equal-width windows whose combined contents are a permutation
of the original windows' contents permutes the whole list. -/
theorem writeWin_two_perm {α : Type} (p w1 w2 : List α) (x y k : Nat)
    (h1 : w1.length = k) (h2 : w2.length = k) (hxy : x + k ≤ y) (hy : y + k ≤ p.length)
    (hcore : (w1 ++ w2).Perm (slice p x (x + k) ++ slice p y (y + k))) :
    (writeWin (writeWin p x w1) y w2).Perm p := by
  have hq : writeWin p x w1 = p.take x ++ w1 ++ p.drop (x + k) := writeWin_exact p w1 x k h1
  have hql : (p.take x ++ w1).length = x + k := by
    simp [h1]
    omega
  have hqtake : (writeWin p x w1).take y = p.take x ++ w1 ++ slice p (x + k) y := by
    rw [hq, List.take_append_eq_append_take, hql,
      List.take_of_length_le (by omega : (p.take x ++ w1).length ≤ y)]
    rfl
  have hqdrop : (writeWin p x w1).drop (y + k) = p.drop (y + k) := by
    rw [hq, List.drop_append_eq_append_drop, hql,
      List.drop_eq_nil_of_le (by omega : (p.take x ++ w1).length ≤ y + k),
      List.drop_drop]
    simp only [List.nil_append]
    congr 1
    omega
  have hres : writeWin (writeWin p x w1) y w2 =
      p.take x ++ w1 ++ slice p (x + k) y ++ w2 ++ p.drop (y + k) := by
    rw [writeWin_exact _ w2 y k h2, hqtake, hqdrop]
  rw [hres]
  conv_rhs => rw [window_decomposition p x y k hxy hy]
  simp only [List.append_assoc]
  refine List.Perm.append_left _ ?_
  have step1 : (w1 ++ (slice p (x + k) y ++ (w2 ++ p.drop (y + k)))).Perm
      (slice p (x + k) y ++ (w1 ++ (w2 ++ p.drop (y + k)))) :=
    List.perm_append_comm_assoc _ _ _
  refine step1.trans ?_
  have step3 : (slice p x (x + k) ++ (slice p (x + k) y ++
      (slice p y (y + k) ++ p.drop (y + k)))).Perm
      (slice p (x + k) y ++ (slice p x (x + k) ++ (slice p y (y + k) ++ p.drop (y + k)))) :=
    List.perm_append_comm_assoc _ _ _
  refine List.Perm.trans ?_ step3.symm
  refine List.Perm.append_left _ ?_
  have e1 : w1 ++ (w2 ++ p.drop (y + k)) = (w1 ++ w2) ++ p.drop (y + k) := by
    simp [List.append_assoc]
  have e2 : slice p x (x + k) ++ (slice p y (y + k) ++ p.drop (y + k)) =
      (slice p x (x + k) ++ slice p y (y + k)) ++ p.drop (y + k) := by
    simp [List.append_assoc]
  rw [e1, e2]
  exact hcore.append_right _

theorem posCmpSwap_perm {α : Type} [Inhabited α] (keyPred : List α → List α → List Bool)
    (key : List α) (p : List Nat) (x y k : Nat) (acc : Bool)
    (hwf : PredWidth keyPred) (hxy : x + k ≤ y) (hy : y + k ≤ p.length) :
    (posCmpSwap keyPred key p x y k acc).Perm p := by
  simp only [posCmpSwap]
  have hf0 : (slice p x (x + k)).length = k := slice_length_of_le p x k (by omega)
  have hs0 : (slice p y (y + k)).length = k := slice_length_of_le p y k (by omega)
  have hpk : (permute key p).length = p.length := permute_length key p
  have hpred : (keyPred (slice (permute key p) x (x + k))
      (slice (permute key p) y (y + k))).length = k := by
    rw [hwf, slice_length, slice_length, hpk]
    omega
  set pred := keyPred (slice (permute key p) x (x + k)) (slice (permute key p) y (y + k))
    with hpreddef
  have hg : (select pred (slice p x (x + k)) (slice p y (y + k))).length = k := by
    rw [select_length, hpred, hf0, hs0]
    omega
  have hl : (select pred (slice p y (y + k)) (slice p x (x + k))).length = k := by
    rw [select_length, hpred, hf0, hs0]
    omega
  have hswap := select_swap_perm pred (slice p x (x + k)) (slice p y (y + k))
    (by rw [hf0, hs0])
  rw [hpred, List.take_of_length_le (le_of_eq hf0), List.take_of_length_le (le_of_eq hs0)]
    at hswap
  cases acc with
  | true =>
    simp only [if_pos]
    exact writeWin_two_perm p _ _ x y k hg hl hxy hy hswap
  | false =>
    simp only [Bool.false_eq_true, if_false]
    refine writeWin_two_perm p _ _ x y k hl hg hxy hy ?_
    have hswap2 := select_swap_perm pred (slice p y (y + k)) (slice p x (x + k))
      (by rw [hf0, hs0])
    rw [hpred, List.take_of_length_le (le_of_eq hs0), List.take_of_length_le (le_of_eq hf0)]
      at hswap2
    exact hswap2.trans List.perm_append_comm

/-- The compare-exchange on operands already gathered through a common
position list is itself a common gather: it equals gathering every operand
through the position-level compare-exchange of the key. -/
theorem cmpSwap_sim {α : Type} [Inhabited α] (cmp : CompFn α)
    (keyPred : List α → List α → List Bool) (hk : KeyOnly cmp keyPred)
    (key : List α) (rest : List (List α)) (p : List Nat) (x y n : Nat) (acc : Bool) :
    cmpSwap cmp ((key :: rest).map (fun v => permute v p)) x y n acc =
      (key :: rest).map (fun v => permute v (posCmpSwap keyPred key p x y n acc)) := by
  simp only [cmpSwap, posCmpSwap]
  rw [hk]
  have hv0 : ((((key :: rest).map (fun v => permute v p)).map
      (fun v => [slice v x (x + n), slice v y (y + n)])).flatten).getD 0 [] =
      slice (permute key p) x (x + n) := by
    simp
  have hv1 : ((((key :: rest).map (fun v => permute v p)).map
      (fun v => [slice v x (x + n), slice v y (y + n)])).flatten).getD 1 [] =
      slice (permute key p) y (y + n) := by
    simp
  rw [hv0, hv1, List.map_map]
  apply List.map_congr_left
  intro v hv
  simp only [Function.comp]
  cases acc <;>
    simp only [if_pos, Bool.false_eq_true, if_false, slice_permute, select_permute,
      writeWin_permute]

end spu.kernel.hlo


namespace spu.kernel.hlo

theorem posSeqMerge_length {α : Type} [Inhabited α] (keyPred : List α → List α → List Bool)
    (key : List α) :
    ∀ (fuel : Nat) (p : List Nat) (lo n : Nat) (acc : Bool), lo + n ≤ p.length →
      (posSeqMerge keyPred key fuel p lo n acc).length = p.length := by
  intro fuel
  induction fuel with
  | zero => intro p lo n acc h; rfl
  | succ f ih =>
    intro p lo n acc h
    by_cases hn : 1 < n
    · obtain ⟨hm0, hmn, hnm⟩ := gptlt_facts n hn
      simp only [posSeqMerge, if_pos hn]
      have h1 : (posCmpSwap keyPred key p lo (lo + greatestPowerOfTwoLessThan n)
          (n - greatestPowerOfTwoLessThan n) acc).length = p.length :=
        posCmpSwap_length _ _ _ _ _ _ _ (by omega) (by omega)
      have h2 := ih (posCmpSwap keyPred key p lo (lo + greatestPowerOfTwoLessThan n)
          (n - greatestPowerOfTwoLessThan n) acc) lo (greatestPowerOfTwoLessThan n) acc
        (by omega)
      rw [ih _ (lo + greatestPowerOfTwoLessThan n) (n - greatestPowerOfTwoLessThan n) acc
        (by omega), h2, h1]
    · simp only [posSeqMerge, if_neg hn]

theorem posSeqMerge_perm {α : Type} [Inhabited α] (keyPred : List α → List α → List Bool)
    (key : List α) (hwf : PredWidth keyPred) :
    ∀ (fuel : Nat) (p : List Nat) (lo n : Nat) (acc : Bool), lo + n ≤ p.length →
      (posSeqMerge keyPred key fuel p lo n acc).Perm p := by
  intro fuel
  induction fuel with
  | zero => intro p lo n acc h; exact List.Perm.refl p
  | succ f ih =>
    intro p lo n acc h
    by_cases hn : 1 < n
    · obtain ⟨hm0, hmn, hnm⟩ := gptlt_facts n hn
      simp only [posSeqMerge, if_pos hn]
      have h1 : (posCmpSwap keyPred key p lo (lo + greatestPowerOfTwoLessThan n)
          (n - greatestPowerOfTwoLessThan n) acc).Perm p :=
        posCmpSwap_perm _ _ _ _ _ _ _ hwf (by omega) (by omega)
      have hl1 : (posCmpSwap keyPred key p lo (lo + greatestPowerOfTwoLessThan n)
          (n - greatestPowerOfTwoLessThan n) acc).length = p.length :=
        posCmpSwap_length _ _ _ _ _ _ _ (by omega) (by omega)
      have h2 := ih (posCmpSwap keyPred key p lo (lo + greatestPowerOfTwoLessThan n)
          (n - greatestPowerOfTwoLessThan n) acc) lo (greatestPowerOfTwoLessThan n) acc
        (by omega)
      have hl2 := posSeqMerge_length keyPred key f (posCmpSwap keyPred key p lo
          (lo + greatestPowerOfTwoLessThan n) (n - greatestPowerOfTwoLessThan n) acc) lo
        (greatestPowerOfTwoLessThan n) acc (by omega)
      have h3 := ih (posSeqMerge keyPred key f (posCmpSwap keyPred key p lo
          (lo + greatestPowerOfTwoLessThan n) (n - greatestPowerOfTwoLessThan n) acc) lo
          (greatestPowerOfTwoLessThan n) acc) (lo + greatestPowerOfTwoLessThan n)
        (n - greatestPowerOfTwoLessThan n) acc (by omega)
      exact (h3.trans h2).trans h1
    · simp only [posSeqMerge, if_neg hn]
      exact List.Perm.refl p

theorem posSeqSort_length {α : Type} [Inhabited α] (keyPred : List α → List α → List Bool)
    (key : List α) :
    ∀ (fuel : Nat) (p : List Nat) (lo n : Nat) (acc : Bool), lo + n ≤ p.length →
      (posSeqSort keyPred key fuel p lo n acc).length = p.length := by
  intro fuel
  induction fuel with
  | zero => intro p lo n acc h; rfl
  | succ f ih =>
    intro p lo n acc h
    by_cases hn : 1 < n
    · simp only [posSeqSort, if_pos hn]
      have hm : n >>> 1 = n / 2 := Nat.shiftRight_one n
      have h1 := ih p lo (n >>> 1) (!acc) (by rw [hm]; omega)
      have h2 := ih (posSeqSort keyPred key f p lo (n >>> 1) (!acc)) (lo + n >>> 1)
        (n - n >>> 1) acc (by rw [hm] at h1 ⊢; omega)
      have h3 := posSeqMerge_length keyPred key (f + 1)
        (posSeqSort keyPred key f (posSeqSort keyPred key f p lo (n >>> 1) (!acc))
          (lo + n >>> 1) (n - n >>> 1) acc) lo n acc (by omega)
      rw [h3, h2, h1]
    · simp only [posSeqSort, if_neg hn]

theorem posSeqSort_perm {α : Type} [Inhabited α] (keyPred : List α → List α → List Bool)
    (key : List α) (hwf : PredWidth keyPred) :
    ∀ (fuel : Nat) (p : List Nat) (lo n : Nat) (acc : Bool), lo + n ≤ p.length →
      (posSeqSort keyPred key fuel p lo n acc).Perm p := by
  intro fuel
  induction fuel with
  | zero => intro p lo n acc h; exact List.Perm.refl p
  | succ f ih =>
    intro p lo n acc h
    by_cases hn : 1 < n
    · simp only [posSeqSort, if_pos hn]
      have hm : n >>> 1 = n / 2 := Nat.shiftRight_one n
      have h1p := ih p lo (n >>> 1) (!acc) (by rw [hm]; omega)
      have h1l := posSeqSort_length keyPred key f p lo (n >>> 1) (!acc) (by rw [hm]; omega)
      have h2p := ih (posSeqSort keyPred key f p lo (n >>> 1) (!acc)) (lo + n >>> 1)
        (n - n >>> 1) acc (by rw [hm] at h1l ⊢; omega)
      have h2l := posSeqSort_length keyPred key f (posSeqSort keyPred key f p lo (n >>> 1)
        (!acc)) (lo + n >>> 1) (n - n >>> 1) acc (by rw [hm] at h1l ⊢; omega)
      have h3p := posSeqMerge_perm keyPred key hwf (f + 1)
        (posSeqSort keyPred key f (posSeqSort keyPred key f p lo (n >>> 1) (!acc))
          (lo + n >>> 1) (n - n >>> 1) acc) lo n acc (by omega)
      exact (h3p.trans h2p).trans h1p
    · simp only [posSeqSort, if_neg hn]
      exact List.Perm.refl p

theorem seqMerge_sim {α : Type} [Inhabited α] (cmp : CompFn α)
    (keyPred : List α → List α → List Bool) (hk : KeyOnly cmp keyPred)
    (key : List α) (rest : List (List α)) :
    ∀ (fuel : Nat) (p : List Nat) (lo n : Nat) (acc : Bool),
      sequentialBitonicMerge cmp fuel ((key :: rest).map (fun v => permute v p)) lo n acc =
        (key :: rest).map (fun v => permute v (posSeqMerge keyPred key fuel p lo n acc)) := by
  intro fuel
  induction fuel with
  | zero => intro p lo n acc; rfl
  | succ f ih =>
    intro p lo n acc
    by_cases hn : 1 < n
    · simp only [sequentialBitonicMerge, posSeqMerge, if_pos hn]
      rw [cmpSwap_sim cmp keyPred hk key rest, ih, ih]
    · simp only [sequentialBitonicMerge, posSeqMerge, if_neg hn]

theorem seqSort_sim {α : Type} [Inhabited α] (cmp : CompFn α)
    (keyPred : List α → List α → List Bool) (hk : KeyOnly cmp keyPred)
    (key : List α) (rest : List (List α)) :
    ∀ (fuel : Nat) (p : List Nat) (lo n : Nat) (acc : Bool),
      sequentialBitonicSort cmp fuel ((key :: rest).map (fun v => permute v p)) lo n acc =
        (key :: rest).map (fun v => permute v (posSeqSort keyPred key fuel p lo n acc)) := by
  intro fuel
  induction fuel with
  | zero => intro p lo n acc; rfl
  | succ f ih =>
    intro p lo n acc
    by_cases hn : 1 < n
    · simp only [sequentialBitonicSort, posSeqSort, if_pos hn]
      rw [ih, ih, seqMerge_sim cmp keyPred hk key rest]
    · simp only [sequentialBitonicSort, posSeqSort, if_neg hn]

/-- Every index list in the concatenated bitonic schedule is a permutation of
`range n`. -/
theorem bitonicIndices_perm_range (n : Nat) :
    ∀ idx ∈ generateBitonicMergeIndex n ++ generateBitonicSortIndex n,
      idx.Perm (List.range n) := by
  intro idx hidx
  rw [List.mem_append] at hidx
  have hpart : ∀ (f : Nat → Bool),
      (((List.range n).partition f).1 ++ ((List.range n).partition f).2).Perm
        (List.range n) := by
    intro f
    rw [List.partition_eq_filter_filter]
    exact List.filter_append_perm f (List.range n)
  rcases hidx with h | h
  · simp only [generateBitonicMergeIndex, List.mem_flatMap, List.mem_map] at h
    obtain ⟨s, _, t, _, rfl⟩ := h
    exact hpart _
  · simp only [generateBitonicSortIndex, List.mem_map] at h
    obtain ⟨k, _, rfl⟩ := h
    exact hpart _

theorem inversePermutation_perm_range (idx : List Nat) :
    (inversePermutation idx).Perm (List.range idx.length) :=
  List.perm_insertionSort _ _

/-- One parallel stage on commonly gathered operands is a common gather
through the position-level stage. -/
theorem parallel_stage_sim {α : Type} [Inhabited α] (cmp : CompFn α)
    (keyPred : List α → List α → List Bool) (hk : KeyOnly cmp keyPred)
    (key : List α) (rest : List (List α)) (n : Nat) (p : List Nat) (index : List Nat)
    (hp : p.length = n) (hidx : index.Perm (List.range n)) :
    (cmpSwap cmp (((key :: rest).map (fun v => permute v p)).map
        (fun v => permute v index)) 0 (n / 2) (n / 2) true).map
      (fun v => permute v (inversePermutation index)) =
    (key :: rest).map (fun v => permute v
      (permute (posCmpSwap keyPred key (permute p index) 0 (n / 2) (n / 2) true)
        (inversePermutation index))) := by
  have hidxlen : index.length = n := by
    have := hidx.length_eq
    simpa using this
  have hidxmem : ∀ i ∈ index, i < n := by
    intro i hi
    have := hidx.mem_iff.mp hi
    simpa using this
  have hcomp1 : ((key :: rest).map (fun v => permute v p)).map (fun v => permute v index) =
      (key :: rest).map (fun v => permute v (permute p index)) := by
    rw [List.map_map]
    apply List.map_congr_left
    intro v hv
    exact permute_comp v p index (by intro i hi; rw [hp]; exact hidxmem i hi)
  rw [hcomp1, cmpSwap_sim cmp keyPred hk key rest, List.map_map]
  apply List.map_congr_left
  intro v hv
  simp only [Function.comp]
  have hqlen : (posCmpSwap keyPred key (permute p index) 0 (n / 2) (n / 2) true).length = n := by
    rw [posCmpSwap_length _ _ _ _ _ _ _ (by omega)
      (by rw [permute_length, hidxlen]; omega), permute_length, hidxlen]
  apply permute_comp
  intro i hi
  rw [hqlen]
  have := (inversePermutation_perm_range index).mem_iff.mp hi
  rw [hidxlen] at this
  simpa using this

theorem posParallel_stage_perm {α : Type} [Inhabited α]
    (keyPred : List α → List α → List Bool) (key : List α) (hwf : PredWidth keyPred)
    (n : Nat) (p : List Nat) (index : List Nat)
    (hp : p.length = n) (hidx : index.Perm (List.range n)) :
    (permute (posCmpSwap keyPred key (permute p index) 0 (n / 2) (n / 2) true)
        (inversePermutation index)).Perm p ∧
    (permute (posCmpSwap keyPred key (permute p index) 0 (n / 2) (n / 2) true)
        (inversePermutation index)).length = n := by
  have hidxlen : index.length = n := by simpa using hidx.length_eq
  have hperm1 : (permute p index).Perm p := by
    apply permute_perm_of_perm_range
    rw [hp]
    exact hidx
  have hlen1 : (permute p index).length = n := by rw [permute_length, hidxlen]
  have hperm2 : (posCmpSwap keyPred key (permute p index) 0 (n / 2) (n / 2) true).Perm
      (permute p index) :=
    posCmpSwap_perm _ _ _ _ _ _ _ hwf (by omega) (by rw [hlen1]; omega)
  have hlen2 : (posCmpSwap keyPred key (permute p index) 0 (n / 2) (n / 2) true).length = n := by
    rw [posCmpSwap_length _ _ _ _ _ _ _ (by omega) (by rw [hlen1]; omega), hlen1]
  have hperm3 : (permute (posCmpSwap keyPred key (permute p index) 0 (n / 2) (n / 2) true)
      (inversePermutation index)).Perm
      (posCmpSwap keyPred key (permute p index) 0 (n / 2) (n / 2) true) := by
    apply permute_perm_of_perm_range
    rw [hlen2, ← hidxlen]
    exact inversePermutation_perm_range index
  refine ⟨(hperm3.trans hperm2).trans hperm1, ?_⟩
  rw [permute_length]
  have := (inversePermutation_perm_range index).length_eq
  simp at this
  omega

end spu.kernel.hlo


namespace spu.kernel.hlo

/-- The whole parallel bitonic execution on commonly gathered operands is a
common gather through `posParallel`. -/
theorem parallel_fold_sim {α : Type} [Inhabited α] (cmp : CompFn α)
    (keyPred : List α → List α → List Bool) (hk : KeyOnly cmp keyPred)
    (hwf : PredWidth keyPred) (key : List α) (rest : List (List α)) (n : Nat) :
    ∀ (idxs : List (List Nat)) (p : List Nat), p.length = n →
      (∀ idx ∈ idxs, idx.Perm (List.range n)) →
      idxs.foldl (fun target index =>
        (cmpSwap cmp (target.map (fun v => permute v index)) 0 (n / 2) (n / 2) true).map
          (fun v => permute v (inversePermutation index)))
        ((key :: rest).map (fun v => permute v p)) =
      (key :: rest).map (fun v => permute v (idxs.foldl (fun q index =>
        permute (posCmpSwap keyPred key (permute q index) 0 (n / 2) (n / 2) true)
          (inversePermutation index)) p)) := by
  intro idxs
  induction idxs with
  | nil => intro p hp hall; rfl
  | cons index rest2 ih =>
    intro p hp hall
    have hidx : index.Perm (List.range n) := hall index (List.mem_cons_self _ _)
    simp only [List.foldl_cons]
    rw [parallel_stage_sim cmp keyPred hk key rest n p index hp hidx]
    exact ih _ (posParallel_stage_perm keyPred key hwf n p index hp hidx).2
      (fun idx h => hall idx (List.mem_cons_of_mem _ h))

theorem posParallel_fold_perm {α : Type} [Inhabited α]
    (keyPred : List α → List α → List Bool) (key : List α) (hwf : PredWidth keyPred)
    (n : Nat) :
    ∀ (idxs : List (List Nat)) (p : List Nat), p.length = n →
      (∀ idx ∈ idxs, idx.Perm (List.range n)) →
      (idxs.foldl (fun q index =>
        permute (posCmpSwap keyPred key (permute q index) 0 (n / 2) (n / 2) true)
          (inversePermutation index)) p).Perm p := by
  intro idxs
  induction idxs with
  | nil => intro p hp hall; exact List.Perm.refl p
  | cons index rest2 ih =>
    intro p hp hall
    have hidx : index.Perm (List.range n) := hall index (List.mem_cons_self _ _)
    obtain ⟨hperm, hlen⟩ := posParallel_stage_perm keyPred key hwf n p index hp hidx
    simp only [List.foldl_cons]
    exact (ih _ hlen (fun idx h => hall idx (List.mem_cons_of_mem _ h))).trans hperm

theorem orderedInsert_congr {α : Type} (r r2 : α → α → Prop) [DecidableRel r]
    [DecidableRel r2] (hrr : ∀ a b, r a b ↔ r2 a b) :
    ∀ (l : List α) (a : α), l.orderedInsert r a = l.orderedInsert r2 a := by
  intro l
  induction l with
  | nil => intro a; rfl
  | cons b t ih =>
    intro a
    simp only [List.orderedInsert]
    rw [if_congr (hrr a b) rfl rfl, ih a]

theorem insertionSort_congr {α : Type} (r r2 : α → α → Prop) [DecidableRel r]
    [DecidableRel r2] (hrr : ∀ a b, r a b ↔ r2 a b) :
    ∀ (l : List α), l.insertionSort r = l.insertionSort r2 := by
  intro l
  induction l with
  | nil => rfl
  | cons a t ih =>
    simp only [List.insertionSort]
    rw [ih, orderedInsert_congr r r2 hrr]

/-- The public row path on a non-empty operand list is a common gather
through `posPublicIdx`, a function of the key row only. -/
theorem sortRowPublic_sim {α : Type} [Inhabited α] (cmp : CompFn α)
    (keyPred : List α → List α → List Bool) (hk : KeyOnly cmp keyPred)
    (is_stable : Bool) (key : List α) (rest : List (List α)) (n : Nat) :
    sortRowPublic cmp is_stable (key :: rest) n =
      (key :: rest).map (fun v => permute v (posPublicIdx keyPred key n)) := by
  unfold sortRowPublic posPublicIdx
  have hcomp : ∀ a b : Nat, publicComparator cmp (key :: rest) a b =
      getConditionValue (keyPred [key.getD a default] [key.getD b default]) := by
    intro a b
    unfold publicComparator
    rw [hk]
    simp
  have hcong := insertionSort_congr
    (fun a b => publicComparator cmp (key :: rest) b a = false)
    (fun a b => getConditionValue (keyPred [key.getD b default] [key.getD a default]) = false)
    (by intro a b; dsimp only; rw [hcomp b a]) (List.range n)
  cases is_stable <;> simp only [if_pos, Bool.false_eq_true, if_false] <;> rw [hcong]

/-- Claim C4: for every sort row (a non-empty operand list whose rows all have
the sort-axis length) and a comparator that only reads the designated key
operand, there is a single permutation of `range n` — computed from the key
row alone — by which *every* operand moves, on the public path and on the
oblivious path alike. -/
theorem sortRow_common_permutation {α : Type} [Inhabited α] (cmp : CompFn α)
    (keyPred : List α → List α → List Bool) (hk : KeyOnly cmp keyPred)
    (hwf : PredWidth keyPred) (key : List α) (rest : List (List α)) (n : Nat)
    (hrows : ∀ v ∈ key :: rest, v.length = n) (is_stable : Bool) :
    (sortRowPublic cmp is_stable (key :: rest) n =
        (key :: rest).map (fun v => permute v (posPublicIdx keyPred key n)) ∧
      (posPublicIdx keyPred key n).Perm (List.range n)) ∧
    (nonPublicSortPath cmp (key :: rest) n =
        (key :: rest).map (fun v => permute v (posNonPublicPath keyPred key n)) ∧
      (posNonPublicPath keyPred key n).Perm (List.range n)) := by
  have hbridge : (key :: rest) = (key :: rest).map (fun v => permute v (List.range n)) := by
    conv_lhs => rw [← List.map_id (key :: rest)]
    apply List.map_congr_left
    intro v hv
    rw [id_eq, ← hrows v hv, permute_range_self]
  constructor
  · exact ⟨sortRowPublic_sim cmp keyPred hk is_stable key rest n,
      List.perm_insertionSort _ _⟩
  · unfold nonPublicSortPath posNonPublicPath
    by_cases hbit : hasSingleBit n
    · simp only [hbit, if_pos]
      unfold parallelBitonicSort posParallel
      constructor
      · conv_lhs => rw [hbridge]
        exact parallel_fold_sim cmp keyPred hk hwf key rest n _ (List.range n)
          (by simp) (bitonicIndices_perm_range n)
      · exact posParallel_fold_perm keyPred key hwf n _ (List.range n) (by simp)
          (bitonicIndices_perm_range n)
    · simp only [hbit, Bool.false_eq_true, if_false]
      constructor
      · conv_lhs => rw [hbridge]
        exact seqSort_sim cmp keyPred hk key rest n (List.range n) 0 n true
      · exact posSeqSort_perm keyPred key hwf n (List.range n) 0 n true (by simp)


theorem sortRow_common_permutation_witness :
    (sortRowPublic intLtComparator false [[3, 1], [10, 20]] 2 =
        [[3, 1], [10, 20]].map (fun v => permute v (posPublicIdx intLtKeyPred [3, 1] 2)) ∧
      (posPublicIdx intLtKeyPred [3, 1] 2).Perm (List.range 2)) ∧
    (nonPublicSortPath intLtComparator [[3, 1], [10, 20]] 2 =
        [[3, 1], [10, 20]].map (fun v => permute v (posNonPublicPath intLtKeyPred [3, 1] 2)) ∧
      (posNonPublicPath intLtKeyPred [3, 1] 2).Perm (List.range 2)) :=
  sortRow_common_permutation intLtComparator intLtKeyPred (fun _ => rfl)
    (fun a b => by simp [intLtKeyPred]) [3, 1] [[10, 20]] 2 (by decide) false

end spu.kernel.hlo


namespace spu.kernel.hlo

theorem zipWith_getElem? {α β γ : Type} (f : α → β → γ) :
    ∀ (a : List α) (b : List β) (i : Nat) (x : α) (y : β),
      a[i]? = some x → b[i]? = some y → (List.zipWith f a b)[i]? = some (f x y) := by
  intro a
  induction a with
  | nil => intro b i x y hx; simp at hx
  | cons a0 as1 ih =>
    intro b i x y hx hy
    cases b with
    | nil => simp at hy
    | cons b0 bs1 =>
      cases i with
      | zero =>
        simp at hx hy
        subst hx; subst hy
        simp
      | succ j =>
        simp at hx hy
        simpa using ih bs1 j x y hx hy

theorem if_lt_eq_min {α : Type} [LinearOrder α] (a b : α) :
    (if a < b then a else b) = min a b := by
  rcases lt_or_ge a b with h | h
  · simp [h, min_eq_left h.le]
  · rw [if_neg (not_lt_of_ge h), min_eq_right h]

theorem if_lt_eq_max {α : Type} [LinearOrder α] (a b : α) :
    (if a < b then b else a) = max a b := by
  rcases lt_or_ge a b with h | h
  · simp [h, max_eq_right h.le]
  · rw [if_neg (not_lt_of_ge h), max_eq_left h]

theorem hcStep_length {α : Type} [LinearOrder α] (w : List α) (x y k : Nat) (acc : Bool)
    (hxy : x + k ≤ y) (hy : y + k ≤ w.length) :
    (hcStep w x y k acc).length = w.length := by
  simp only [hcStep]
  have hf : (slice w x (x + k)).length = k := slice_length_of_le w x k (by omega)
  have hs : (slice w y (y + k)).length = k := slice_length_of_le w y k (by omega)
  have hg : (select (List.zipWith (fun a b => decide (a < b)) (slice w x (x + k))
      (slice w y (y + k))) (slice w x (x + k)) (slice w y (y + k))).length ≤ k := by
    have := select_length_le (List.zipWith (fun a b => decide (a < b)) (slice w x (x + k))
      (slice w y (y + k))) (slice w x (x + k)) (slice w y (y + k))
    omega
  have hl : (select (List.zipWith (fun a b => decide (a < b)) (slice w x (x + k))
      (slice w y (y + k))) (slice w y (y + k)) (slice w x (x + k))).length ≤ k := by
    have := select_length_le (List.zipWith (fun a b => decide (a < b)) (slice w x (x + k))
      (slice w y (y + k))) (slice w y (y + k)) (slice w x (x + k))
    omega
  cases acc with
  | true =>
    simp only [if_pos]
    rw [writeWin_length _ _ _ (by rw [writeWin_length _ _ _ (by omega)]; omega),
      writeWin_length _ _ _ (by omega)]
  | false =>
    simp only [Bool.false_eq_true, if_false]
    rw [writeWin_length _ _ _ (by rw [writeWin_length _ _ _ (by omega)]; omega),
      writeWin_length _ _ _ (by omega)]

/-- Elementwise description of `hcStep`: with the less-than comparator, the
`x`-window receives pointwise minima (ascending) or maxima (descending), the
`y`-window the complements, and all other positions are untouched. -/
theorem hcStep_at {α : Type} [LinearOrder α] [Inhabited α] (w : List α) (x y k : Nat)
    (acc : Bool) (hxy : x + k ≤ y) (hy : y + k ≤ w.length) (j : Nat) (hj : j < w.length) :
    wAt (hcStep w x y k acc) j =
      if x ≤ j ∧ j < x + k then
        (if acc then min (wAt w j) (wAt w (j - x + y)) else max (wAt w j) (wAt w (j - x + y)))
      else if y ≤ j ∧ j < y + k then
        (if acc then max (wAt w (j - y + x)) (wAt w j) else min (wAt w (j - y + x)) (wAt w j))
      else wAt w j := by
  have hf : (slice w x (x + k)).length = k := slice_length_of_le w x k (by omega)
  have hs : (slice w y (y + k)).length = k := slice_length_of_le w y k (by omega)
  set pred := List.zipWith (fun a b => decide (a < b)) (slice w x (x + k))
    (slice w y (y + k)) with hpreddef
  set g := select pred (slice w x (x + k)) (slice w y (y + k)) with hgdef
  set l := select pred (slice w y (y + k)) (slice w x (x + k)) with hldef
  have hgl : g.length ≤ k := by
    rw [hgdef]
    have := select_length_le pred (slice w x (x + k)) (slice w y (y + k))
    omega
  have hll : l.length ≤ k := by
    rw [hldef]
    have := select_length_le pred (slice w y (y + k)) (slice w x (x + k))
    omega
  have hwindow : ∀ i, i < k →
      pred[i]? = some (decide (wAt w (x + i) < wAt w (y + i))) ∧
      (slice w x (x + k))[i]? = some (wAt w (x + i)) ∧
      (slice w y (y + k))[i]? = some (wAt w (y + i)) := by
    intro i hi
    have hx1 : (slice w x (x + k))[i]? = w[x + i]? := slice_getElem? w x (x + k) i (by omega)
    have hy1 : (slice w y (y + k))[i]? = w[y + i]? := slice_getElem? w y (y + k) i (by omega)
    have hxw : w[x + i]? = some (wAt w (x + i)) := by
      rw [List.getElem?_eq_getElem (by omega)]
      simp [wAt, List.getD_eq_getElem?_getD, List.getElem?_eq_getElem (show x + i < w.length by omega)]
    have hyw : w[y + i]? = some (wAt w (y + i)) := by
      rw [List.getElem?_eq_getElem (by omega)]
      simp [wAt, List.getD_eq_getElem?_getD, List.getElem?_eq_getElem (show y + i < w.length by omega)]
    refine ⟨?_, by rw [hx1, hxw], by rw [hy1, hyw]⟩
    rw [hpreddef]
    exact zipWith_getElem? _ _ _ i _ _ (by rw [hx1, hxw]) (by rw [hy1, hyw])
  have hgat : ∀ i, i < k → g[i]? = some (min (wAt w (x + i)) (wAt w (y + i))) := by
    intro i hi
    obtain ⟨hp, hxx, hyy⟩ := hwindow i hi
    rw [hgdef]
    rw [select_getElem? pred _ _ i _ _ _ hp hxx hyy]
    congr 1
    rw [show (if decide (wAt w (x + i) < wAt w (y + i)) = true then wAt w (x + i)
      else wAt w (y + i)) = if wAt w (x + i) < wAt w (y + i) then wAt w (x + i)
      else wAt w (y + i) by simp, if_lt_eq_min]
  have hlat : ∀ i, i < k → l[i]? = some (max (wAt w (x + i)) (wAt w (y + i))) := by
    intro i hi
    obtain ⟨hp, hxx, hyy⟩ := hwindow i hi
    rw [hldef]
    rw [select_getElem? pred _ _ i _ _ _ hp hyy hxx]
    congr 1
    rw [show (if decide (wAt w (x + i) < wAt w (y + i)) = true then wAt w (y + i)
      else wAt w (x + i)) = if wAt w (x + i) < wAt w (y + i) then wAt w (y + i)
      else wAt w (x + i) by simp, if_lt_eq_max]
  have hglen : g.length = k := by
    rw [hgdef, select_length, hpreddef, List.length_zipWith, hf, hs]
    omega
  have hllen : l.length = k := by
    rw [hldef, select_length, hpreddef, List.length_zipWith, hf, hs]
    omega
  have hwj : w[j]? = some (wAt w j) := by
    rw [List.getElem?_eq_getElem hj]
    simp [wAt, List.getD_eq_getElem?_getD, List.getElem?_eq_getElem hj]
  cases acc with
  | true =>
    simp only [hcStep, if_pos]
    rw [wAt, List.getD_eq_getElem?_getD]
    rw [writeWin_getElem? _ _ _ _ (by rw [hllen, writeWin_length _ _ _ (by rw [hglen]; omega)]; omega)]
    rw [hllen]
    by_cases h1 : j < y
    · rw [if_pos h1]
      rw [writeWin_getElem? _ _ _ _ (by rw [hglen]; omega), hglen]
      by_cases h2 : j < x
      · rw [if_pos h2, hwj]
        simp only [Option.getD_some]
        rw [if_neg (by omega), if_neg (by omega)]
      · rw [if_neg h2]
        by_cases h3 : j < x + k
        · rw [if_pos h3, hgat (j - x) (by omega)]
          simp only [Option.getD_some]
          rw [if_pos (by omega)]
          congr 2 <;> omega
        · rw [if_neg h3, hwj]
          simp only [Option.getD_some]
          rw [if_neg (by omega), if_neg (by omega)]
    · rw [if_neg h1]
      by_cases h4 : j < y + k
      · rw [if_pos h4, hlat (j - y) (by omega)]
        simp only [Option.getD_some]
        rw [if_neg (by omega), if_pos (by omega)]
        congr 2 <;> omega
      · rw [if_neg h4]
        rw [writeWin_getElem? _ _ _ _ (by rw [hglen]; omega), hglen,
          if_neg (by omega), if_neg (by omega), hwj]
        simp only [Option.getD_some]
        rw [if_neg (by omega), if_neg (by omega)]
  | false =>
    simp only [hcStep, Bool.false_eq_true, if_false]
    rw [wAt, List.getD_eq_getElem?_getD]
    rw [writeWin_getElem? _ _ _ _ (by rw [hglen, writeWin_length _ _ _ (by rw [hllen]; omega)]; omega)]
    rw [hglen]
    by_cases h1 : j < y
    · rw [if_pos h1]
      rw [writeWin_getElem? _ _ _ _ (by rw [hllen]; omega), hllen]
      by_cases h2 : j < x
      · rw [if_pos h2, hwj]
        simp only [Option.getD_some]
        rw [if_neg (by omega), if_neg (by omega)]
      · rw [if_neg h2]
        by_cases h3 : j < x + k
        · rw [if_pos h3, hlat (j - x) (by omega)]
          simp only [Option.getD_some]
          rw [if_pos (by omega)]
          congr 2 <;> omega
        · rw [if_neg h3, hwj]
          simp only [Option.getD_some]
          rw [if_neg (by omega), if_neg (by omega)]
    · rw [if_neg h1]
      by_cases h4 : j < y + k
      · rw [if_pos h4, hgat (j - y) (by omega)]
        simp only [Option.getD_some]
        rw [if_neg (by omega), if_pos (by omega)]
        congr 2 <;> omega
      · rw [if_neg h4]
        rw [writeWin_getElem? _ _ _ _ (by rw [hllen]; omega), hllen,
          if_neg (by omega), if_neg (by omega), hwj]
        simp only [Option.getD_some]
        rw [if_neg (by omega), if_neg (by omega)]

end spu.kernel.hlo


namespace spu.kernel.hlo

theorem wAt_eq_getElem {α : Type} [Inhabited α] (w : List α) (j : Nat) (hj : j < w.length) :
    wAt w j = w[j] := by
  simp [wAt, List.getD_eq_getElem?_getD, List.getElem?_eq_getElem hj]

theorem wAt_map {α β : Type} [Inhabited α] [Inhabited β] (g : α → β) (w : List α) (j : Nat)
    (hj : j < w.length) : wAt (w.map g) j = g (wAt w j) := by
  rw [wAt_eq_getElem (w.map g) j (by simpa using hj), wAt_eq_getElem w j hj]
  simp

theorem hcStep_at_outside {α : Type} [LinearOrder α] [Inhabited α] (w : List α)
    (x y k : Nat) (acc : Bool) (hxy : x + k ≤ y) (hy : y + k ≤ w.length) (j : Nat)
    (hout : ¬(x ≤ j ∧ j < x + k) ∧ ¬(y ≤ j ∧ j < y + k)) :
    wAt (hcStep w x y k acc) j = wAt w j := by
  by_cases hj : j < w.length
  · rw [hcStep_at w x y k acc hxy hy j hj, if_neg hout.1, if_neg hout.2]
  · rw [wAt, wAt, List.getD_eq_getElem?_getD, List.getD_eq_getElem?_getD,
      List.getElem?_eq_none (by rw [hcStep_length w x y k acc hxy hy]; omega),
      List.getElem?_eq_none (by omega)]

/-- `cmpSwap` with the less-than comparator on a single operand is
`hcStep`. -/
theorem cmpSwap_ltCompFn_singleton {α : Type} [LinearOrder α] (w : List α) (x y k : Nat)
    (acc : Bool) :
    cmpSwap (ltCompFn α) [w] x y k acc = [hcStep w x y k acc] := rfl

theorem seqMergeK_spec {α : Type} [LinearOrder α] :
    ∀ (fuel : Nat) (w : List α) (lo n : Nat) (acc : Bool),
      sequentialBitonicMerge (ltCompFn α) fuel [w] lo n acc =
        [seqMergeK fuel w lo n acc] := by
  intro fuel
  induction fuel with
  | zero => intro w lo n acc; rfl
  | succ f ih =>
    intro w lo n acc
    by_cases hn : 1 < n
    · simp only [sequentialBitonicMerge, seqMergeK, if_pos hn,
        cmpSwap_ltCompFn_singleton, ih]
    · simp only [sequentialBitonicMerge, seqMergeK, if_neg hn]

theorem seqSortK_spec {α : Type} [LinearOrder α] :
    ∀ (fuel : Nat) (w : List α) (lo n : Nat) (acc : Bool),
      sequentialBitonicSort (ltCompFn α) fuel [w] lo n acc = [seqSortK fuel w lo n acc] := by
  intro fuel
  induction fuel with
  | zero => intro w lo n acc; rfl
  | succ f ih =>
    intro w lo n acc
    by_cases hn : 1 < n
    · simp only [sequentialBitonicSort, seqSortK, if_pos hn, ih, seqMergeK_spec]
    · simp only [sequentialBitonicSort, seqSortK, if_neg hn]

theorem seqMergeK_length {α : Type} [LinearOrder α] :
    ∀ (fuel : Nat) (w : List α) (lo n : Nat) (acc : Bool), lo + n ≤ w.length →
      (seqMergeK fuel w lo n acc).length = w.length := by
  intro fuel
  induction fuel with
  | zero => intro w lo n acc h; rfl
  | succ f ih =>
    intro w lo n acc h
    by_cases hn : 1 < n
    · obtain ⟨hm0, hmn, hnm⟩ := gptlt_facts n hn
      simp only [seqMergeK, if_pos hn]
      have h1 : (hcStep w lo (lo + greatestPowerOfTwoLessThan n)
          (n - greatestPowerOfTwoLessThan n) acc).length = w.length :=
        hcStep_length _ _ _ _ _ (by omega) (by omega)
      have h2 := ih (hcStep w lo (lo + greatestPowerOfTwoLessThan n)
          (n - greatestPowerOfTwoLessThan n) acc) lo (greatestPowerOfTwoLessThan n) acc
        (by omega)
      rw [ih _ (lo + greatestPowerOfTwoLessThan n) (n - greatestPowerOfTwoLessThan n) acc
        (by omega), h2, h1]
    · simp only [seqMergeK, if_neg hn]

theorem seqMergeK_frame {α : Type} [LinearOrder α] [Inhabited α] :
    ∀ (fuel : Nat) (w : List α) (lo n : Nat) (acc : Bool) (j : Nat), lo + n ≤ w.length →
      (j < lo ∨ lo + n ≤ j) → wAt (seqMergeK fuel w lo n acc) j = wAt w j := by
  intro fuel
  induction fuel with
  | zero => intro w lo n acc j h hj; rfl
  | succ f ih =>
    intro w lo n acc j h hj
    by_cases hn : 1 < n
    · obtain ⟨hm0, hmn, hnm⟩ := gptlt_facts n hn
      simp only [seqMergeK, if_pos hn]
      have h1 : (hcStep w lo (lo + greatestPowerOfTwoLessThan n)
          (n - greatestPowerOfTwoLessThan n) acc).length = w.length :=
        hcStep_length _ _ _ _ _ (by omega) (by omega)
      have h2 := seqMergeK_length f (hcStep w lo (lo + greatestPowerOfTwoLessThan n)
          (n - greatestPowerOfTwoLessThan n) acc) lo (greatestPowerOfTwoLessThan n) acc
        (by omega)
      rw [ih _ (lo + greatestPowerOfTwoLessThan n) (n - greatestPowerOfTwoLessThan n) acc j
        (by omega) (by omega),
        ih _ lo (greatestPowerOfTwoLessThan n) acc j (by omega) (by omega),
        hcStep_at_outside _ _ _ _ _ (by omega) (by omega) j (by omega)]
    · simp only [seqMergeK, if_neg hn]

theorem seqSortK_length {α : Type} [LinearOrder α] :
    ∀ (fuel : Nat) (w : List α) (lo n : Nat) (acc : Bool), lo + n ≤ w.length →
      (seqSortK fuel w lo n acc).length = w.length := by
  intro fuel
  induction fuel with
  | zero => intro w lo n acc h; rfl
  | succ f ih =>
    intro w lo n acc h
    by_cases hn : 1 < n
    · simp only [seqSortK, if_pos hn]
      have hm : n >>> 1 = n / 2 := Nat.shiftRight_one n
      have h1 := ih w lo (n >>> 1) (!acc) (by rw [hm]; omega)
      have h2 := ih (seqSortK f w lo (n >>> 1) (!acc)) (lo + n >>> 1) (n - n >>> 1) acc
        (by rw [hm] at h1 ⊢; omega)
      rw [seqMergeK_length (f + 1) _ lo n acc (by omega), h2, h1]
    · simp only [seqSortK, if_neg hn]

theorem seqSortK_frame {α : Type} [LinearOrder α] [Inhabited α] :
    ∀ (fuel : Nat) (w : List α) (lo n : Nat) (acc : Bool) (j : Nat), lo + n ≤ w.length →
      (j < lo ∨ lo + n ≤ j) → wAt (seqSortK fuel w lo n acc) j = wAt w j := by
  intro fuel
  induction fuel with
  | zero => intro w lo n acc j h hj; rfl
  | succ f ih =>
    intro w lo n acc j h hj
    by_cases hn : 1 < n
    · simp only [seqSortK, if_pos hn]
      have hm : n >>> 1 = n / 2 := Nat.shiftRight_one n
      have h1 := seqSortK_length f w lo (n >>> 1) (!acc) (by rw [hm]; omega)
      have h2 := seqSortK_length f (seqSortK f w lo (n >>> 1) (!acc)) (lo + n >>> 1)
        (n - n >>> 1) acc (by rw [hm] at h1 ⊢; omega)
      rw [seqMergeK_frame (f + 1) _ lo n acc j (by omega) hj,
        ih _ (lo + n >>> 1) (n - n >>> 1) acc j (by rw [hm] at h1 ⊢; omega)
          (by rw [hm]; omega),
        ih _ lo (n >>> 1) (!acc) j (by rw [hm]; omega) (by rw [hm]; omega)]
    · simp only [seqSortK, if_neg hn]

theorem hcStep_map_mono {α β : Type} [LinearOrder α] [LinearOrder β] [Inhabited α]
    [Inhabited β] (g : α → β)
    (hg : Monotone g) (w : List α) (x y k : Nat) (acc : Bool)
    (hxy : x + k ≤ y) (hy : y + k ≤ w.length) :
    hcStep (w.map g) x y k acc = (hcStep w x y k acc).map g := by
  have hylen : y + k ≤ (w.map g).length := by simpa using hy
  have hlen1 : (hcStep (w.map g) x y k acc).length = w.length := by
    rw [hcStep_length _ _ _ _ _ hxy hylen]
    simp
  have hlen2 : ((hcStep w x y k acc).map g).length = w.length := by
    rw [List.length_map, hcStep_length _ _ _ _ _ hxy hy]
  apply List.ext_getElem (by omega)
  intro j hj1 hj2
  rw [← wAt_eq_getElem _ j hj1, ← wAt_eq_getElem _ j hj2]
  rw [wAt_map g _ j (by rw [hcStep_length _ _ _ _ _ hxy hy]; omega)]
  rw [hcStep_at _ x y k acc hxy hylen j (by simpa using (by omega : j < w.length)),
    hcStep_at w x y k acc hxy hy j (by omega)]
  have hmap : ∀ i, i < w.length → wAt (w.map g) i = g (wAt w i) := fun i hi => wAt_map g w i hi
  by_cases h1 : x ≤ j ∧ j < x + k
  · rw [if_pos h1, if_pos h1]
    rw [hmap j (by omega), hmap (j - x + y) (by omega)]
    cases acc <;> simp [hg.map_min, hg.map_max]
  · rw [if_neg h1, if_neg h1]
    by_cases h2 : y ≤ j ∧ j < y + k
    · rw [if_pos h2, if_pos h2]
      rw [hmap j (by omega), hmap (j - y + x) (by omega)]
      cases acc <;> simp [hg.map_min, hg.map_max]
    · rw [if_neg h2, if_neg h2, hmap j (by omega)]

theorem seqMergeK_map_mono {α β : Type} [LinearOrder α] [LinearOrder β] [Inhabited α]
    [Inhabited β] (g : α → β)
    (hg : Monotone g) :
    ∀ (fuel : Nat) (w : List α) (lo n : Nat) (acc : Bool), lo + n ≤ w.length →
      seqMergeK fuel (w.map g) lo n acc = (seqMergeK fuel w lo n acc).map g := by
  intro fuel
  induction fuel with
  | zero => intro w lo n acc h; rfl
  | succ f ih =>
    intro w lo n acc h
    by_cases hn : 1 < n
    · obtain ⟨hm0, hmn, hnm⟩ := gptlt_facts n hn
      simp only [seqMergeK, if_pos hn]
      rw [hcStep_map_mono g hg w _ _ _ _ (by omega) (by omega)]
      have h1 : (hcStep w lo (lo + greatestPowerOfTwoLessThan n)
          (n - greatestPowerOfTwoLessThan n) acc).length = w.length :=
        hcStep_length _ _ _ _ _ (by omega) (by omega)
      rw [ih _ lo (greatestPowerOfTwoLessThan n) acc (by omega)]
      have h2 := seqMergeK_length f (hcStep w lo (lo + greatestPowerOfTwoLessThan n)
          (n - greatestPowerOfTwoLessThan n) acc) lo (greatestPowerOfTwoLessThan n) acc
        (by omega)
      rw [ih _ (lo + greatestPowerOfTwoLessThan n) (n - greatestPowerOfTwoLessThan n) acc
        (by omega)]
    · simp only [seqMergeK, if_neg hn]

theorem seqSortK_map_mono {α β : Type} [LinearOrder α] [LinearOrder β] [Inhabited α]
    [Inhabited β] (g : α → β)
    (hg : Monotone g) :
    ∀ (fuel : Nat) (w : List α) (lo n : Nat) (acc : Bool), lo + n ≤ w.length →
      seqSortK fuel (w.map g) lo n acc = (seqSortK fuel w lo n acc).map g := by
  intro fuel
  induction fuel with
  | zero => intro w lo n acc h; rfl
  | succ f ih =>
    intro w lo n acc h
    by_cases hn : 1 < n
    · simp only [seqSortK, if_pos hn]
      have hm : n >>> 1 = n / 2 := Nat.shiftRight_one n
      rw [ih w lo (n >>> 1) (!acc) (by rw [hm]; omega)]
      have h1 := seqSortK_length f w lo (n >>> 1) (!acc) (by rw [hm]; omega)
      rw [ih _ (lo + n >>> 1) (n - n >>> 1) acc (by rw [hm] at h1 ⊢; omega)]
      have h2 := seqSortK_length f (seqSortK f w lo (n >>> 1) (!acc)) (lo + n >>> 1)
        (n - n >>> 1) acc (by rw [hm] at h1 ⊢; omega)
      rw [seqMergeK_map_mono g hg (f + 1) _ lo n acc (by omega)]
    · simp only [seqSortK, if_neg hn]

end spu.kernel.hlo


namespace spu.kernel.hlo

/-! Boolean window tools for the bitonic correctness proofs. -/

theorem bool_min_true (a b : Bool) : min a b = true ↔ a = true ∧ b = true := by
  cases a <;> cases b <;> decide

theorem bool_max_true (a b : Bool) : max a b = true ↔ a = true ∨ b = true := by
  cases a <;> cases b <;> decide

theorem bool_le_iff (a b : Bool) : a ≤ b ↔ (a = true → b = true) := by
  cases a <;> cases b <;> decide

/-- In a valley window, every position strictly between two zeros is zero. -/
theorem valley_zero_between (w : List Bool) (lo n : Nat) (hv : ValleyWin w lo n)
    (a b : Nat) (hla : lo ≤ a) (hab : a < b) (hbn : b < lo + n)
    (ha : wAt w a = false) (hb : wAt w b = false) :
    ∀ t, a < t → t < b → wAt w t = false := by
  intro t hat htb
  by_contra hne
  have ht : wAt w t = true := by
    cases hw : wAt w t
    · exact absurd hw hne
    · rfl
  exact hv a t b hla hat htb hbn ⟨ha, ht, hb⟩

theorem valleyWin_congr (w1 w2 : List Bool) (lo n : Nat)
    (h : ∀ p, lo ≤ p → p < lo + n → wAt w2 p = wAt w1 p) :
    ValleyWin w1 lo n → ValleyWin w2 lo n := by
  intro hv i j k h1 h2 h3 h4 hc
  refine hv i j k h1 h2 h3 h4 ?_
  rw [← h i h1 (by omega), ← h j (by omega) (by omega), ← h k (by omega) h4]
  exact hc

theorem mountWin_congr (w1 w2 : List Bool) (lo n : Nat)
    (h : ∀ p, lo ≤ p → p < lo + n → wAt w2 p = wAt w1 p) :
    MountWin w1 lo n → MountWin w2 lo n := by
  intro hv i j k h1 h2 h3 h4 hc
  refine hv i j k h1 h2 h3 h4 ?_
  rw [← h i h1 (by omega), ← h j (by omega) (by omega), ← h k (by omega) h4]
  exact hc

theorem bit4Win_congr (w1 w2 : List Bool) (lo n : Nat)
    (h : ∀ p, lo ≤ p → p < lo + n → wAt w2 p = wAt w1 p) :
    Bit4Win w1 lo n → Bit4Win w2 lo n := by
  intro hv a b c d h1 h2 h3 h4 h5 hc
  refine hv a b c d h1 h2 h3 h4 h5 ?_
  rw [← h a h1 (by omega), ← h b (by omega) (by omega), ← h c (by omega) (by omega),
    ← h d (by omega) h5]
  exact hc

theorem sortedWinA_congr (w1 w2 : List Bool) (lo n : Nat)
    (h : ∀ p, lo ≤ p → p < lo + n → wAt w2 p = wAt w1 p) :
    SortedWinA w1 lo n → SortedWinA w2 lo n := by
  intro hv i j h1 h2 h3
  rw [h i h1 (by omega), h j (by omega) h3]
  exact hv i j h1 h2 h3

theorem sortedWinD_congr (w1 w2 : List Bool) (lo n : Nat)
    (h : ∀ p, lo ≤ p → p < lo + n → wAt w2 p = wAt w1 p) :
    SortedWinD w1 lo n → SortedWinD w2 lo n := by
  intro hv i j h1 h2 h3
  rw [h i h1 (by omega), h j (by omega) h3]
  exact hv i j h1 h2 h3

/-- Descending then ascending halves form a valley window. -/
theorem sortedD_A_valley (w : List Bool) (lo m n : Nat) (hm : m ≤ n)
    (hd : SortedWinD w lo m) (ha : SortedWinA w (lo + m) (n - m)) :
    ValleyWin w lo n := by
  intro i j k h1 h2 h3 h4 hc
  obtain ⟨hi, hj, hk⟩ := hc
  by_cases hjm : j < lo + m
  · have := hd i j h1 (by omega) (by omega)
    rw [hi, hj] at this
    exact absurd this (by decide)
  · have := ha j k (by omega) (by omega) (by omega)
    rw [hj, hk] at this
    exact absurd this (by decide)

/-- Ascending then descending halves form a mountain window. -/
theorem sortedA_D_mount (w : List Bool) (lo m n : Nat) (hm : m ≤ n)
    (ha : SortedWinA w lo m) (hd : SortedWinD w (lo + m) (n - m)) :
    MountWin w lo n := by
  intro i j k h1 h2 h3 h4 hc
  obtain ⟨hi, hj, hk⟩ := hc
  by_cases hjm : j < lo + m
  · have := ha i j h1 (by omega) (by omega)
    rw [hi, hj] at this
    exact absurd this (by decide)
  · have := hd j k (by omega) (by omega) (by omega)
    rw [hj, hk] at this
    exact absurd this (by decide)

/-- The boolean values an `hcStep` of the merge shape writes: minima on the
`x`-window, untouched middle, maxima on the `y`-window. -/
theorem hcStep_merge_cases (w : List Bool) (lo m k : Nat) (hk : k ≤ m)
    (hb : lo + m + k ≤ w.length) :
    (∀ p, lo ≤ p → p < lo + k →
      wAt (hcStep w lo (lo + m) k true) p = min (wAt w p) (wAt w (p + m))) ∧
    (∀ p, lo + k ≤ p → p < lo + m → wAt (hcStep w lo (lo + m) k true) p = wAt w p) ∧
    (∀ p, lo + m ≤ p → p < lo + m + k →
      wAt (hcStep w lo (lo + m) k true) p = max (wAt w (p - m)) (wAt w p)) := by
  refine ⟨?_, ?_, ?_⟩
  · intro p h1 h2
    rw [hcStep_at w lo (lo + m) k true (by omega) (by omega) p (by omega),
      if_pos (by omega)]
    simp only [if_pos]
    congr 2
    omega
  · intro p h1 h2
    exact hcStep_at_outside w lo (lo + m) k true (by omega) (by omega) p
      ⟨by omega, by omega⟩
  · intro p h1 h2
    rw [hcStep_at w lo (lo + m) k true (by omega) (by omega) p (by omega),
      if_neg (by omega), if_pos (by omega)]
    simp only [if_pos]
    congr 2
    omega

/-- `seqMergeK` keeps an all-true window all true. -/
theorem seqMergeK_ones {α : Type} : ∀ (fuel : Nat) (w : List Bool) (lo n : Nat) (acc : Bool),
    lo + n ≤ w.length → (∀ p, lo ≤ p → p < lo + n → wAt w p = true) →
    ∀ p, lo ≤ p → p < lo + n → wAt (seqMergeK fuel w lo n acc) p = true := by
  intro fuel
  induction fuel with
  | zero => intro w lo n acc h hall p h1 h2; exact hall p h1 h2
  | succ f ih =>
    intro w lo n acc h hall p h1 h2
    by_cases hn : 1 < n
    · obtain ⟨hm0, hmn, hnm⟩ := gptlt_facts n hn
      set m := greatestPowerOfTwoLessThan n with hmdef
      simp only [seqMergeK, if_pos hn, ← hmdef]
      have hstep : ∀ q, lo ≤ q → q < lo + n →
          wAt (hcStep w lo (lo + m) (n - m) acc) q = true := by
        intro q hq1 hq2
        by_cases hin : (lo ≤ q ∧ q < lo + (n - m)) ∨ (lo + m ≤ q ∧ q < lo + n)
        · rw [hcStep_at w lo (lo + m) (n - m) acc (by omega) (by omega) q (by omega)]
          rcases hin with hx | hyy
          · rw [if_pos (by omega)]
            have e1 := hall q hq1 hq2
            have e2 := hall (q - lo + (lo + m)) (by omega) (by omega)
            cases acc <;> simp only [if_pos, Bool.false_eq_true, if_false] <;>
              rw [e1, e2] <;> decide
          · rw [if_neg (by omega), if_pos (by omega)]
            have e1 := hall q hq1 hq2
            have e2 := hall (q - (lo + m) + lo) (by omega) (by omega)
            cases acc <;> simp only [if_pos, Bool.false_eq_true, if_false] <;>
              rw [e1, e2] <;> decide
        · rw [hcStep_at_outside w lo (lo + m) (n - m) acc (by omega) (by omega) q
            (by constructor <;> omega)]
          exact hall q hq1 hq2
      have hl1 : (hcStep w lo (lo + m) (n - m) acc).length = w.length :=
        hcStep_length _ _ _ _ _ (by omega) (by omega)
      have hmid : ∀ q, lo ≤ q → q < lo + m →
          wAt (seqMergeK f (hcStep w lo (lo + m) (n - m) acc) lo m acc) q = true := by
        intro q hq1 hq2
        exact ih (hcStep w lo (lo + m) (n - m) acc) lo m acc (by omega)
          (fun q2 a b => hstep q2 a (by omega)) q hq1 hq2
      have hl2 := seqMergeK_length f (hcStep w lo (lo + m) (n - m) acc) lo m acc (by omega)
      have hfin : ∀ q, lo ≤ q → q < lo + n →
          wAt (seqMergeK f (seqMergeK f (hcStep w lo (lo + m) (n - m) acc) lo m acc)
            (lo + m) (n - m) acc) q = true := by
        intro q hq1 hq2
        by_cases hq : q < lo + m
        · rw [seqMergeK_frame f _ (lo + m) (n - m) acc q (by omega) (by omega)]
          exact hmid q hq1 hq
        · refine ih _ (lo + m) (n - m) acc (by omega) ?_ q (by omega) (by omega)
          intro q2 a b
          rw [seqMergeK_frame f _ lo m acc q2 (by omega) (by omega)]
          exact hstep q2 (by omega) (by omega)
      exact hfin p h1 h2
    · simp only [seqMergeK, if_neg hn]
      exact hall p h1 h2

/-- `seqMergeK` keeps an all-false window all false. -/
theorem seqMergeK_zeros {α : Type} : ∀ (fuel : Nat) (w : List Bool) (lo n : Nat) (acc : Bool),
    lo + n ≤ w.length → (∀ p, lo ≤ p → p < lo + n → wAt w p = false) →
    ∀ p, lo ≤ p → p < lo + n → wAt (seqMergeK fuel w lo n acc) p = false := by
  intro fuel
  induction fuel with
  | zero => intro w lo n acc h hall p h1 h2; exact hall p h1 h2
  | succ f ih =>
    intro w lo n acc h hall p h1 h2
    by_cases hn : 1 < n
    · obtain ⟨hm0, hmn, hnm⟩ := gptlt_facts n hn
      set m := greatestPowerOfTwoLessThan n with hmdef
      simp only [seqMergeK, if_pos hn, ← hmdef]
      have hstep : ∀ q, lo ≤ q → q < lo + n →
          wAt (hcStep w lo (lo + m) (n - m) acc) q = false := by
        intro q hq1 hq2
        by_cases hin : (lo ≤ q ∧ q < lo + (n - m)) ∨ (lo + m ≤ q ∧ q < lo + n)
        · rw [hcStep_at w lo (lo + m) (n - m) acc (by omega) (by omega) q (by omega)]
          rcases hin with hx | hyy
          · rw [if_pos (by omega)]
            have e1 := hall q hq1 hq2
            have e2 := hall (q - lo + (lo + m)) (by omega) (by omega)
            cases acc <;> simp only [if_pos, Bool.false_eq_true, if_false] <;>
              rw [e1, e2] <;> decide
          · rw [if_neg (by omega), if_pos (by omega)]
            have e1 := hall q hq1 hq2
            have e2 := hall (q - (lo + m) + lo) (by omega) (by omega)
            cases acc <;> simp only [if_pos, Bool.false_eq_true, if_false] <;>
              rw [e1, e2] <;> decide
        · rw [hcStep_at_outside w lo (lo + m) (n - m) acc (by omega) (by omega) q
            (by constructor <;> omega)]
          exact hall q hq1 hq2
      have hl1 : (hcStep w lo (lo + m) (n - m) acc).length = w.length :=
        hcStep_length _ _ _ _ _ (by omega) (by omega)
      have hmid : ∀ q, lo ≤ q → q < lo + m →
          wAt (seqMergeK f (hcStep w lo (lo + m) (n - m) acc) lo m acc) q = false := by
        intro q hq1 hq2
        exact ih (hcStep w lo (lo + m) (n - m) acc) lo m acc (by omega)
          (fun q2 a b => hstep q2 a (by omega)) q hq1 hq2
      have hl2 := seqMergeK_length f (hcStep w lo (lo + m) (n - m) acc) lo m acc (by omega)
      have hfin : ∀ q, lo ≤ q → q < lo + n →
          wAt (seqMergeK f (seqMergeK f (hcStep w lo (lo + m) (n - m) acc) lo m acc)
            (lo + m) (n - m) acc) q = false := by
        intro q hq1 hq2
        by_cases hq : q < lo + m
        · rw [seqMergeK_frame f _ (lo + m) (n - m) acc q (by omega) (by omega)]
          exact hmid q hq1 hq
        · refine ih _ (lo + m) (n - m) acc (by omega) ?_ q (by omega) (by omega)
          intro q2 a b
          rw [seqMergeK_frame f _ lo m acc q2 (by omega) (by omega)]
          exact hstep q2 (by omega) (by omega)
      exact hfin p h1 h2
    · simp only [seqMergeK, if_neg hn]
      exact hall p h1 h2

end spu.kernel.hlo


namespace spu.kernel.hlo

theorem bool_min_false (a b : Bool) : min a b = false ↔ a = false ∨ b = false := by
  cases a <;> cases b <;> decide

theorem bool_max_false (a b : Bool) : max a b = false ↔ a = false ∧ b = false := by
  cases a <;> cases b <;> decide

theorem bool_alt4 (x y z u : Bool) (hxy : x ≠ y) (hyz : y ≠ z) (hzu : z ≠ u) :
    (x = false ∧ y = true ∧ z = false ∧ u = true) ∨
      (x = true ∧ y = false ∧ z = true ∧ u = false) := by
  revert hxy hyz hzu
  cases x <;> cases y <;> cases z <;> cases u <;> decide

/-!
The half-cleaner lemmas.  Throughout, `w1 = hcStep w lo (lo+m) k true` is the
first compare-exchange of an ascending `sequentialBitonicMerge` window
`[lo, lo+m+k)` with `k ≤ m`: positions `[lo, lo+k)` receive minima, the middle
`[lo+k, lo+m)` is untouched, and `[lo+m, lo+m+k)` receive maxima.
-/

/-- Half-cleaning a valley window leaves the upper part a valley. -/
theorem hc_valley_upper (w : List Bool) (lo m k : Nat) (hk : k ≤ m)
    (hb : lo + m + k ≤ w.length) (hv : ValleyWin w lo (m + k)) :
    ValleyWin (hcStep w lo (lo + m) k true) (lo + m) k := by
  obtain ⟨hmin, hmid, hmax⟩ := hcStep_merge_cases w lo m k hk hb
  intro i j l h1 h2 h3 h4 hc
  obtain ⟨hi, hj, hl⟩ := hc
  rw [hmax i (by omega) (by omega)] at hi
  rw [hmax j (by omega) (by omega)] at hj
  rw [hmax l (by omega) (by omega)] at hl
  obtain ⟨hi1, hi2⟩ := (bool_max_false _ _).mp hi
  obtain ⟨hl1, hl2⟩ := (bool_max_false _ _).mp hl
  rcases (bool_max_true _ _).mp hj with hj1 | hj2
  · exact hv (i - m) (j - m) (l - m) (by omega) (by omega) (by omega) (by omega)
      ⟨hi1, hj1, hl1⟩
  · exact hv i j l (by omega) (by omega) (by omega) (by omega) ⟨hi2, hj2, hl2⟩

/-- Half-cleaning a valley window: a `true` anywhere in the lower part forces
the whole upper part `true`. -/
theorem hc_valley_cross (w : List Bool) (lo m k : Nat) (hk : k ≤ m)
    (hb : lo + m + k ≤ w.length) (hv : ValleyWin w lo (m + k)) :
    ∀ i j, lo ≤ i → i < lo + m → lo + m ≤ j → j < lo + m + k →
      wAt (hcStep w lo (lo + m) k true) i = true →
      wAt (hcStep w lo (lo + m) k true) j = true := by
  obtain ⟨hmin, hmid, hmax⟩ := hcStep_merge_cases w lo m k hk hb
  intro i j h1 h2 h3 h4 hi
  by_cases hj : wAt (hcStep w lo (lo + m) k true) j = true
  · exact hj
  · exfalso
    have hjf : wAt (hcStep w lo (lo + m) k true) j = false := by
      cases hw : wAt (hcStep w lo (lo + m) k true) j
      · rfl
      · exact absurd hw hj
    rw [hmax j (by omega) (by omega)] at hjf
    obtain ⟨hz1, hz2⟩ := (bool_max_false _ _).mp hjf
    have hzb := valley_zero_between w lo (m + k) hv (j - m) j (by omega) (by omega)
      (by omega) hz1 hz2
    by_cases hp : i < lo + k
    · rw [hmin i (by omega) hp] at hi
      obtain ⟨ho1, ho2⟩ := (bool_min_true _ _).mp hi
      rcases Nat.lt_trichotomy i (j - m) with hlt | heq | hgt
      · have : wAt w (i + m) = false := hzb (i + m) (by omega) (by omega)
        rw [ho2] at this
        exact absurd this (by decide)
      · rw [heq, hz1] at ho1
        exact absurd ho1 (by decide)
      · have : wAt w i = false := hzb i (by omega) (by omega)
        rw [ho1] at this
        exact absurd this (by decide)
    · rw [hmid i (by omega) (by omega)] at hi
      have : wAt w i = false := hzb i (by omega) (by omega)
      rw [hi] at this
      exact absurd this (by decide)

/-- Half-cleaning a valley window leaves the lower part cyclically bitonic. -/
theorem hc_valley_lower (w : List Bool) (lo m k : Nat) (hk : k ≤ m)
    (hb : lo + m + k ≤ w.length) (hv : ValleyWin w lo (m + k)) :
    Bit4Win (hcStep w lo (lo + m) k true) lo m := by
  obtain ⟨hmin, hmid, hmax⟩ := hcStep_merge_cases w lo m k hk hb
  intro a b c d h1 h2 h3 h4 h5 hc
  obtain ⟨hab, hbc, hcd⟩ := hc
  set w1 := hcStep w lo (lo + m) k true with hw1
  have hone : ∀ p, lo ≤ p → p < lo + m → wAt w1 p = true →
      wAt w p = true ∧ (p < lo + k → wAt w (p + m) = true) := by
    intro p hp1 hp2 hp
    by_cases hpk : p < lo + k
    · rw [hw1, hmin p hp1 hpk] at hp
      obtain ⟨u1, u2⟩ := (bool_min_true _ _).mp hp
      exact ⟨u1, fun _ => u2⟩
    · rw [hw1, hmid p (by omega) hp2] at hp
      exact ⟨hp, fun hcon => absurd hcon hpk⟩
  have hzero : ∀ p, lo ≤ p → p < lo + m → wAt w1 p = false →
      wAt w p = false ∨ (p < lo + k ∧ wAt w (p + m) = false) := by
    intro p hp1 hp2 hp
    by_cases hpk : p < lo + k
    · rw [hw1, hmin p hp1 hpk] at hp
      rcases (bool_min_false _ _).mp hp with u | u
      · exact Or.inl u
      · exact Or.inr ⟨hpk, u⟩
    · rw [hw1, hmid p (by omega) hp2] at hp
      exact Or.inl hp
  rcases bool_alt4 _ _ _ _ hab hbc hcd with ⟨ha, hbv, hcv, hd⟩ | ⟨ha, hbv, hcv, hd⟩
  · -- pattern 0 1 0 1
    obtain ⟨hb1, _⟩ := hone b (by omega) (by omega) hbv
    obtain ⟨hd1, _⟩ := hone d (by omega) (by omega) hd
    rcases hzero a h1 (by omega) ha with ha1 | ⟨hak, ha2⟩
    · rcases hzero c (by omega) (by omega) hcv with hc1 | ⟨hck, hc2⟩
      · exact hv a b c h1 h2 h3 (by omega) ⟨ha1, hb1, hc1⟩
      · exact hv a b (c + m) h1 h2 (by omega) (by omega) ⟨ha1, hb1, hc2⟩
    · rcases hzero c (by omega) (by omega) hcv with hc1 | ⟨hck, hc2⟩
      · have hzb := valley_zero_between w lo (m + k) hv c (a + m) (by omega) (by omega)
          (by omega) hc1 ha2
        have : wAt w d = false := hzb d (by omega) (by omega)
        rw [hd1] at this
        exact absurd this (by decide)
      · by_cases hbk : b < lo + k
        · obtain ⟨_, hb2⟩ := hone b (by omega) (by omega) hbv
          have hzb := valley_zero_between w lo (m + k) hv (a + m) (c + m) (by omega)
            (by omega) (by omega) ha2 hc2
          have : wAt w (b + m) = false := hzb (b + m) (by omega) (by omega)
          rw [hb2 hbk] at this
          exact absurd this (by decide)
        · omega
  · -- pattern 1 0 1 0
    obtain ⟨ha1, _⟩ := hone a h1 (by omega) ha
    obtain ⟨hc1, _⟩ := hone c (by omega) (by omega) hcv
    rcases hzero b (by omega) (by omega) hbv with hb1 | ⟨hbk, hb2⟩
    · rcases hzero d (by omega) (by omega) hd with hd1 | ⟨hdk, hd2⟩
      · exact hv b c d (by omega) h3 h4 (by omega) ⟨hb1, hc1, hd1⟩
      · exact hv b c (d + m) (by omega) h3 (by omega) (by omega) ⟨hb1, hc1, hd2⟩
    · rcases hzero d (by omega) (by omega) hd with hd1 | ⟨hdk, hd2⟩
      · have hak : a < lo + k := by omega
        obtain ⟨_, ha2⟩ := hone a h1 (by omega) ha
        exact hv d (a + m) (b + m) (by omega) (by omega) (by omega) (by omega)
          ⟨hd1, ha2 hak, hb2⟩
      · have hck : c < lo + k := by omega
        obtain ⟨_, hc2⟩ := hone c (by omega) (by omega) hcv
        exact hv (b + m) (c + m) (d + m) (by omega) (by omega) (by omega) (by omega)
          ⟨hb2, hc2 hck, hd2⟩

/-- Half-cleaning a cyclically bitonic window of even width `2m` leaves the
lower half cyclically bitonic. -/
theorem hc_bit4_lower (w : List Bool) (lo m : Nat) (hm : 0 < m)
    (hb : lo + m + m ≤ w.length) (hv : Bit4Win w lo (m + m)) :
    Bit4Win (hcStep w lo (lo + m) m true) lo m := by
  obtain ⟨hmin, hmid, hmax⟩ := hcStep_merge_cases w lo m m (le_refl m) hb
  intro a b c d h1 h2 h3 h4 h5 hc
  obtain ⟨hab, hbc, hcd⟩ := hc
  set w1 := hcStep w lo (lo + m) m true with hw1
  have hone : ∀ p, lo ≤ p → p < lo + m → wAt w1 p = true →
      wAt w p = true ∧ wAt w (p + m) = true := by
    intro p hp1 hp2 hp
    rw [hw1, hmin p hp1 (by omega)] at hp
    exact (bool_min_true _ _).mp hp
  have hzero : ∀ p, lo ≤ p → p < lo + m → wAt w1 p = false →
      wAt w p = false ∨ wAt w (p + m) = false := by
    intro p hp1 hp2 hp
    rw [hw1, hmin p hp1 (by omega)] at hp
    exact (bool_min_false _ _).mp hp
  rcases bool_alt4 _ _ _ _ hab hbc hcd with ⟨ha, hbv, hcv, hd⟩ | ⟨ha, hbv, hcv, hd⟩
  · -- 0 1 0 1
    obtain ⟨hb1, hb2⟩ := hone b (by omega) (by omega) hbv
    obtain ⟨hd1, hd2⟩ := hone d (by omega) (by omega) hd
    rcases hzero a h1 (by omega) ha with ha1 | ha2 <;>
      rcases hzero c (by omega) (by omega) hcv with hc1 | hc2
    · exact hv a b c d h1 h2 h3 h4 (by omega)
        ⟨by rw [ha1, hb1]; decide, by rw [hb1, hc1]; decide, by rw [hc1, hd1]; decide⟩
    · exact hv a b (c + m) (d + m) h1 h2 (by omega) (by omega) (by omega)
        ⟨by rw [ha1, hb1]; decide, by rw [hb1, hc2]; decide, by rw [hc2, hd2]; decide⟩
    · exact hv b c d (a + m) (by omega) h3 h4 (by omega) (by omega)
        ⟨by rw [hb1, hc1]; decide, by rw [hc1, hd1]; decide, by rw [hd1, ha2]; decide⟩
    · exact hv (a + m) (b + m) (c + m) (d + m) (by omega) (by omega) (by omega) (by omega)
        (by omega)
        ⟨by rw [ha2, hb2]; decide, by rw [hb2, hc2]; decide, by rw [hc2, hd2]; decide⟩
  · -- 1 0 1 0
    obtain ⟨ha1, ha2⟩ := hone a h1 (by omega) ha
    obtain ⟨hc1, hc2⟩ := hone c (by omega) (by omega) hcv
    rcases hzero b (by omega) (by omega) hbv with hb1 | hb2 <;>
      rcases hzero d (by omega) (by omega) hd with hd1 | hd2
    · exact hv a b c d h1 h2 h3 h4 (by omega)
        ⟨by rw [ha1, hb1]; decide, by rw [hb1, hc1]; decide, by rw [hc1, hd1]; decide⟩
    · exact hv a b c (d + m) h1 h2 h3 (by omega) (by omega)
        ⟨by rw [ha1, hb1]; decide, by rw [hb1, hc1]; decide, by rw [hc1, hd2]; decide⟩
    · exact hv a d (a + m) (b + m) h1 (by omega) (by omega) (by omega) (by omega)
        ⟨by rw [ha1, hd1]; decide, by rw [hd1, ha2]; decide, by rw [ha2, hb2]; decide⟩
    · exact hv (a + m) (b + m) (c + m) (d + m) (by omega) (by omega) (by omega) (by omega)
        (by omega)
        ⟨by rw [ha2, hb2]; decide, by rw [hb2, hc2]; decide, by rw [hc2, hd2]; decide⟩

/-- Half-cleaning a cyclically bitonic window of even width `2m` leaves the
upper half cyclically bitonic. -/
theorem hc_bit4_upper (w : List Bool) (lo m : Nat) (hm : 0 < m)
    (hb : lo + m + m ≤ w.length) (hv : Bit4Win w lo (m + m)) :
    Bit4Win (hcStep w lo (lo + m) m true) (lo + m) m := by
  obtain ⟨hmin, hmid, hmax⟩ := hcStep_merge_cases w lo m m (le_refl m) hb
  intro a b c d h1 h2 h3 h4 h5 hc
  obtain ⟨hab, hbc, hcd⟩ := hc
  set w1 := hcStep w lo (lo + m) m true with hw1
  have hone : ∀ p, lo + m ≤ p → p < lo + m + m → wAt w1 p = true →
      wAt w (p - m) = true ∨ wAt w p = true := by
    intro p hp1 hp2 hp
    rw [hw1, hmax p hp1 (by omega)] at hp
    exact (bool_max_true _ _).mp hp
  have hzero : ∀ p, lo + m ≤ p → p < lo + m + m → wAt w1 p = false →
      wAt w (p - m) = false ∧ wAt w p = false := by
    intro p hp1 hp2 hp
    rw [hw1, hmax p hp1 (by omega)] at hp
    exact (bool_max_false _ _).mp hp
  rcases bool_alt4 _ _ _ _ hab hbc hcd with ⟨ha, hbv, hcv, hd⟩ | ⟨ha, hbv, hcv, hd⟩
  · -- 0 1 0 1
    obtain ⟨ha1, ha2⟩ := hzero a h1 (by omega) ha
    obtain ⟨hc1, hc2⟩ := hzero c (by omega) (by omega) hcv
    rcases hone b (by omega) (by omega) hbv with hb1 | hb2 <;>
      rcases hone d (by omega) (by omega) hd with hd1 | hd2
    · exact hv (a - m) (b - m) (c - m) (d - m) (by omega) (by omega) (by omega) (by omega)
        (by omega)
        ⟨by rw [ha1, hb1]; decide, by rw [hb1, hc1]; decide, by rw [hc1, hd1]; decide⟩
    · exact hv (a - m) (b - m) c d (by omega) (by omega) (by omega) (by omega) (by omega)
        ⟨by rw [ha1, hb1]; decide, by rw [hb1, hc2]; decide, by rw [hc2, hd2]; decide⟩
    · exact hv (d - m) a b c (by omega) (by omega) (by omega) (by omega) (by omega)
        ⟨by rw [hd1, ha2]; decide, by rw [ha2, hb2]; decide, by rw [hb2, hc2]; decide⟩
    · exact hv a b c d (by omega) h2 h3 h4 (by omega)
        ⟨by rw [ha2, hb2]; decide, by rw [hb2, hc2]; decide, by rw [hc2, hd2]; decide⟩
  · -- 1 0 1 0
    obtain ⟨hb1, hb2⟩ := hzero b (by omega) (by omega) hbv
    obtain ⟨hd1, hd2⟩ := hzero d (by omega) (by omega) hd
    rcases hone a h1 (by omega) ha with ha1 | ha2 <;>
      rcases hone c (by omega) (by omega) hcv with hc1 | hc2
    · exact hv (a - m) (b - m) (c - m) (d - m) (by omega) (by omega) (by omega) (by omega)
        (by omega)
        ⟨by rw [ha1, hb1]; decide, by rw [hb1, hc1]; decide, by rw [hc1, hd1]; decide⟩
    · exact hv (a - m) (b - m) c d (by omega) (by omega) (by omega) (by omega) (by omega)
        ⟨by rw [ha1, hb1]; decide, by rw [hb1, hc2]; decide, by rw [hc2, hd2]; decide⟩
    · exact hv (b - m) (c - m) (d - m) a (by omega) (by omega) (by omega) (by omega)
        (by omega)
        ⟨by rw [hb1, hc1]; decide, by rw [hc1, hd1]; decide, by rw [hd1, ha2]; decide⟩
    · exact hv (d - m) a b c (by omega) (by omega) (by omega) (by omega) (by omega)
        ⟨by rw [hd1, ha2]; decide, by rw [ha2, hb2]; decide, by rw [hb2, hc2]; decide⟩

/-- Half-cleaning a cyclically bitonic window of even width `2m`: a `true`
in the lower half forces the whole upper half `true`. -/
theorem hc_bit4_cross (w : List Bool) (lo m : Nat) (hm : 0 < m)
    (hb : lo + m + m ≤ w.length) (hv : Bit4Win w lo (m + m)) :
    ∀ i j, lo ≤ i → i < lo + m → lo + m ≤ j → j < lo + m + m →
      wAt (hcStep w lo (lo + m) m true) i = true →
      wAt (hcStep w lo (lo + m) m true) j = true := by
  obtain ⟨hmin, hmid, hmax⟩ := hcStep_merge_cases w lo m m (le_refl m) hb
  intro i j h1 h2 h3 h4 hi
  by_cases hj : wAt (hcStep w lo (lo + m) m true) j = true
  · exact hj
  · exfalso
    have hjf : wAt (hcStep w lo (lo + m) m true) j = false := by
      cases hw : wAt (hcStep w lo (lo + m) m true) j
      · rfl
      · exact absurd hw hj
    rw [hmax j (by omega) (by omega)] at hjf
    obtain ⟨hz1, hz2⟩ := (bool_max_false _ _).mp hjf
    rw [hmin i (by omega) (by omega)] at hi
    obtain ⟨ho1, ho2⟩ := (bool_min_true _ _).mp hi
    rcases Nat.lt_trichotomy i (j - m) with hlt | heq | hgt
    · exact hv i (j - m) (i + m) j h1 (by omega) (by omega) (by omega) (by omega)
        ⟨by rw [ho1, hz1]; decide, by rw [hz1, ho2]; decide, by rw [ho2, hz2]; decide⟩
    · rw [heq, hz1] at ho1
      exact absurd ho1 (by decide)
    · exact hv (j - m) i j (i + m) (by omega) (by omega) (by omega) (by omega) (by omega)
        ⟨by rw [hz1, ho1]; decide, by rw [ho1, hz2]; decide, by rw [hz2, ho2]; decide⟩

end spu.kernel.hlo


namespace spu.kernel.hlo

/-- Ascending bitonic merge of a power-of-two window sorts any cyclically
bitonic boolean window. -/
theorem seqMergeK_pow2_sorted :
    ∀ (p fuel : Nat) (w : List Bool) (lo : Nat), 2 ^ p ≤ fuel →
      lo + 2 ^ p ≤ w.length → Bit4Win w lo (2 ^ p) →
      SortedWinA (seqMergeK fuel w lo (2 ^ p) true) lo (2 ^ p) := by
  intro p
  induction p with
  | zero =>
    intro fuel w lo hf hb hv i j h1 h2 h3
    have he : (2 : Nat) ^ 0 = 1 := rfl
    have hij : i = j := by omega
    rw [hij]
  | succ p ih =>
    intro fuel w lo hf hb hv
    have hp2 : (2 : Nat) ^ (p + 1) = 2 ^ p + 2 ^ p := by rw [pow_succ]; ring
    have hppos : 0 < (2 : Nat) ^ p := Nat.pos_pow_of_pos _ (by omega)
    obtain ⟨f, rfl⟩ : ∃ f, fuel = f + 1 := ⟨fuel - 1, by omega⟩
    set m := (2 : Nat) ^ p with hm
    have hn : 1 < 2 ^ (p + 1) := by omega
    have hgp : greatestPowerOfTwoLessThan (2 ^ (p + 1)) = m :=
      gptlt_two_pow (p + 1) (by omega)
    have hnm : 2 ^ (p + 1) - m = m := by omega
    simp only [seqMergeK, if_pos hn, hgp, hnm]
    set w1 := hcStep w lo (lo + m) m true with hw1
    have hl1 : w1.length = w.length := hcStep_length _ _ _ _ _ (by omega) (by omega)
    have hbmm : lo + m + m ≤ w.length := by omega
    have hv2 : Bit4Win w lo (m + m) := hp2 ▸ hv
    have hL : Bit4Win w1 lo m := hc_bit4_lower w lo m hppos hbmm hv2
    have hR : Bit4Win w1 (lo + m) m := hc_bit4_upper w lo m hppos hbmm hv2
    have hcross := hc_bit4_cross w lo m hppos hbmm hv2
    have hfm : 2 ^ p ≤ f := by omega
    set w2 := seqMergeK f w1 lo m true with hw2
    have hl2 : w2.length = w.length := by
      rw [hw2, seqMergeK_length f w1 lo m true (by omega), hl1]
    have hLs : SortedWinA w2 lo m := ih f w1 lo hfm (by omega) hL
    set w3 := seqMergeK f w2 (lo + m) m true with hw3
    have hl3 : w3.length = w.length := by
      rw [hw3, seqMergeK_length f w2 (lo + m) m true (by omega), hl2]
    have hfr2 : ∀ q, (q < lo ∨ lo + m ≤ q) → wAt w2 q = wAt w1 q := fun q hq =>
      seqMergeK_frame f w1 lo m true q (by omega) hq
    have hfr3 : ∀ q, (q < lo + m ∨ lo + m + m ≤ q) → wAt w3 q = wAt w2 q := fun q hq =>
      seqMergeK_frame f w2 (lo + m) m true q (by omega) hq
    have hLs3 : SortedWinA w3 lo m := by
      intro i j h1 h2 h3
      rw [hfr3 i (Or.inl (by omega)), hfr3 j (Or.inl (by omega))]
      exact hLs i j h1 h2 h3
    by_cases hex : ∃ i0, lo ≤ i0 ∧ i0 < lo + m ∧ wAt w1 i0 = true
    · obtain ⟨i0, hi01, hi02, hi03⟩ := hex
      have hR1 : ∀ q, lo + m ≤ q → q < lo + m + m → wAt w1 q = true := fun q a b =>
        hcross i0 q hi01 hi02 a b hi03
      have hR2a : ∀ q, lo + m ≤ q → q < lo + m + m → wAt w2 q = true := by
        intro q a b
        rw [hfr2 q (Or.inr a)]
        exact hR1 q a b
      have hR3 : ∀ q, lo + m ≤ q → q < lo + m + m → wAt w3 q = true := by
        intro q a b
        refine @seqMergeK_ones Bool f w2 (lo + m) m true (by omega) ?_ q a b
        intro q2 a2 b2
        exact hR2a q2 a2 b2
      intro i j h1 h2 h3
      by_cases hj : j < lo + m
      · exact hLs3 i j h1 h2 hj
      · rw [hR3 j (by omega) (by omega)]
        exact Bool.le_true _
    · push_neg at hex
      have hL1 : ∀ q, lo ≤ q → q < lo + m → wAt w1 q = false := by
        intro q a b
        cases hwq : wAt w1 q
        · rfl
        · exact absurd hwq (hex q a b)
      have hL2 : ∀ q, lo ≤ q → q < lo + m → wAt w2 q = false := fun q a b =>
        @seqMergeK_zeros Bool f w1 lo m true (by omega) hL1 q a b
      have hL3 : ∀ q, lo ≤ q → q < lo + m → wAt w3 q = false := by
        intro q a b
        rw [hfr3 q (Or.inl b)]
        exact hL2 q a b
      have hR2b : Bit4Win w2 (lo + m) m := by
        refine bit4Win_congr w1 w2 (lo + m) m ?_ hR
        intro q a b
        exact hfr2 q (Or.inr a)
      have hRs3 : SortedWinA w3 (lo + m) m := ih f w2 (lo + m) hfm (by omega) hR2b
      intro i j h1 h2 h3
      by_cases hi : i < lo + m
      · rw [hL3 i h1 hi]
        exact Bool.false_le _
      · exact hRs3 i j (by omega) h2 (by omega)

/-- Ascending bitonic merge of an arbitrary-width window sorts any valley
window. -/
theorem seqMergeK_valley_sorted :
    ∀ (fuel : Nat) (w : List Bool) (lo n : Nat), n ≤ fuel → lo + n ≤ w.length →
      ValleyWin w lo n → SortedWinA (seqMergeK fuel w lo n true) lo n := by
  intro fuel
  induction fuel with
  | zero =>
    intro w lo n hf hb hv i j h1 h2 h3
    exfalso
    omega
  | succ f ih =>
    intro w lo n hf hb hv
    by_cases hn : 1 < n
    · obtain ⟨hm0, hmn, hnm⟩ := gptlt_facts n hn
      set m := greatestPowerOfTwoLessThan n with hmdef
      simp only [seqMergeK, if_pos hn, ← hmdef]
      have hmp : m = 2 ^ log2floor (n - 1) := by
        rw [hmdef]
        unfold greatestPowerOfTwoLessThan
        rw [if_neg (by omega)]
      set w1 := hcStep w lo (lo + m) (n - m) true with hw1
      have hl1 : w1.length = w.length := hcStep_length _ _ _ _ _ (by omega) (by omega)
      have hv2 : ValleyWin w lo (m + (n - m)) := by
        rw [show m + (n - m) = n from by omega]
        exact hv
      have hbmk : lo + m + (n - m) ≤ w.length := by omega
      have hL : Bit4Win w1 lo m := hc_valley_lower w lo m (n - m) (by omega) hbmk hv2
      have hR : ValleyWin w1 (lo + m) (n - m) :=
        hc_valley_upper w lo m (n - m) (by omega) hbmk hv2
      have hcross := hc_valley_cross w lo m (n - m) (by omega) hbmk hv2
      set w2 := seqMergeK f w1 lo m true with hw2
      have hl2 : w2.length = w.length := by
        rw [hw2, seqMergeK_length f w1 lo m true (by omega), hl1]
      have hfm : 2 ^ log2floor (n - 1) ≤ f := by omega
      have hLs : SortedWinA w2 lo m := by
        have hLs2 := seqMergeK_pow2_sorted (log2floor (n - 1)) f w1 lo hfm (by omega)
          (by rw [← hmp]; exact hL)
        rw [hw2, hmp]
        exact hLs2
      set w3 := seqMergeK f w2 (lo + m) (n - m) true with hw3
      have hl3 : w3.length = w.length := by
        rw [hw3, seqMergeK_length f w2 (lo + m) (n - m) true (by omega), hl2]
      have hfr2 : ∀ q, (q < lo ∨ lo + m ≤ q) → wAt w2 q = wAt w1 q := fun q hq =>
        seqMergeK_frame f w1 lo m true q (by omega) hq
      have hfr3 : ∀ q, (q < lo + m ∨ lo + m + (n - m) ≤ q) → wAt w3 q = wAt w2 q :=
        fun q hq => seqMergeK_frame f w2 (lo + m) (n - m) true q (by omega) hq
      have hLs3 : SortedWinA w3 lo m := by
        intro i j h1 h2 h3
        rw [hfr3 i (Or.inl (by omega)), hfr3 j (Or.inl (by omega))]
        exact hLs i j h1 h2 h3
      have hR2 : ValleyWin w2 (lo + m) (n - m) := by
        refine valleyWin_congr w1 w2 (lo + m) (n - m) ?_ hR
        intro q a b
        exact hfr2 q (Or.inr a)
      have hRs3 : SortedWinA w3 (lo + m) (n - m) :=
        ih w2 (lo + m) (n - m) (by omega) (by omega) hR2
      by_cases hex : ∃ i0, lo ≤ i0 ∧ i0 < lo + m ∧ wAt w1 i0 = true
      · obtain ⟨i0, hi01, hi02, hi03⟩ := hex
        have hR1 : ∀ q, lo + m ≤ q → q < lo + m + (n - m) → wAt w1 q = true :=
          fun q a b => hcross i0 q hi01 hi02 a b hi03
        have hR2a : ∀ q, lo + m ≤ q → q < lo + m + (n - m) → wAt w2 q = true := by
          intro q a b
          rw [hfr2 q (Or.inr a)]
          exact hR1 q a b
        have hR3 : ∀ q, lo + m ≤ q → q < lo + m + (n - m) → wAt w3 q = true :=
          fun q a b => @seqMergeK_ones Bool f w2 (lo + m) (n - m) true (by omega) hR2a q a b
        intro i j h1 h2 h3
        by_cases hj : j < lo + m
        · exact hLs3 i j h1 h2 hj
        · rw [hR3 j (by omega) (by omega)]
          exact Bool.le_true _
      · push_neg at hex
        have hL1 : ∀ q, lo ≤ q → q < lo + m → wAt w1 q = false := by
          intro q a b
          cases hwq : wAt w1 q
          · rfl
          · exact absurd hwq (hex q a b)
        have hL3 : ∀ q, lo ≤ q → q < lo + m → wAt w3 q = false := by
          intro q a b
          rw [hfr3 q (Or.inl b)]
          exact @seqMergeK_zeros Bool f w1 lo m true (by omega) hL1 q a b
        intro i j h1 h2 h3
        by_cases hi : i < lo + m
        · rw [hL3 i h1 hi]
          exact Bool.false_le _
        · exact hRs3 i j (by omega) h2 (by omega)
    · simp only [seqMergeK, if_neg hn]
      intro i j h1 h2 h3
      have hij : i = j := by omega
      rw [hij]

end spu.kernel.hlo


namespace spu.kernel.hlo

theorem notL_length (w : List Bool) : (notL w).length = w.length := by simp [notL]

theorem notL_notL (w : List Bool) : notL (notL w) = w := by
  simp [notL, List.map_map, Function.comp_def]

theorem wAt_notL (w : List Bool) (i : Nat) (h : i < w.length) :
    wAt (notL w) i = !(wAt w i) := wAt_map _ w i h

theorem bool_not_min (a b : Bool) : !(min a b) = max (!a) (!b) := by
  cases a <;> cases b <;> decide

theorem bool_not_max (a b : Bool) : !(max a b) = min (!a) (!b) := by
  cases a <;> cases b <;> decide

theorem bool_not_le_not (a b : Bool) : (!a) ≤ (!b) ↔ b ≤ a := by
  cases a <;> cases b <;> decide

/-- Compare-exchange anticommutes with pointwise negation: negating the row
flips the direction. -/
theorem hcStep_notL (w : List Bool) (x y k : Nat) (acc : Bool) (hxy : x + k ≤ y)
    (hy : y + k ≤ w.length) :
    hcStep (notL w) x y k acc = notL (hcStep w x y k (!acc)) := by
  have hyn : y + k ≤ (notL w).length := by rw [notL_length]; exact hy
  have hl1 : (hcStep (notL w) x y k acc).length = w.length := by
    rw [hcStep_length _ _ _ _ _ hxy hyn, notL_length]
  have hl2 : (notL (hcStep w x y k (!acc))).length = w.length := by
    rw [notL_length, hcStep_length _ _ _ _ _ hxy hy]
  apply List.ext_getElem (by omega)
  intro j hj1 hj2
  rw [← wAt_eq_getElem _ j hj1, ← wAt_eq_getElem _ j hj2]
  rw [wAt_notL _ j (by rw [hcStep_length _ _ _ _ _ hxy hy]; omega)]
  rw [hcStep_at (notL w) x y k acc hxy hyn j (by rw [notL_length]; omega),
    hcStep_at w x y k (!acc) hxy hy j (by omega)]
  by_cases hx : x ≤ j ∧ j < x + k
  · rw [if_pos hx, if_pos hx,
      wAt_notL w j (by omega), wAt_notL w (j - x + y) (by omega)]
    cases acc <;> cases hA : wAt w j <;> cases hB : wAt w (j - x + y) <;> decide
  · rw [if_neg hx, if_neg hx]
    by_cases hyy : y ≤ j ∧ j < y + k
    · rw [if_pos hyy, if_pos hyy,
        wAt_notL w (j - y + x) (by omega), wAt_notL w j (by omega)]
      cases acc <;> cases hA : wAt w j <;> cases hB : wAt w (j - y + x) <;> decide
    · rw [if_neg hyy, if_neg hyy, wAt_notL w j (by omega)]

/-- The sequential merge anticommutes with pointwise negation. -/
theorem seqMergeK_notL :
    ∀ (fuel : Nat) (w : List Bool) (lo n : Nat) (acc : Bool), lo + n ≤ w.length →
      seqMergeK fuel (notL w) lo n acc = notL (seqMergeK fuel w lo n (!acc)) := by
  intro fuel
  induction fuel with
  | zero => intro w lo n acc h; rfl
  | succ f ih =>
    intro w lo n acc h
    by_cases hn : 1 < n
    · obtain ⟨hm0, hmn, hnm⟩ := gptlt_facts n hn
      set m := greatestPowerOfTwoLessThan n with hmdef
      simp only [seqMergeK, if_pos hn, ← hmdef]
      rw [hcStep_notL w lo (lo + m) (n - m) acc (by omega) (by omega)]
      have hl1 : (hcStep w lo (lo + m) (n - m) (!acc)).length = w.length :=
        hcStep_length _ _ _ _ _ (by omega) (by omega)
      rw [ih (hcStep w lo (lo + m) (n - m) (!acc)) lo m acc (by omega)]
      have hl2 : (seqMergeK f (hcStep w lo (lo + m) (n - m) (!acc)) lo m (!acc)).length =
          w.length := by
        rw [seqMergeK_length f _ lo m (!acc) (by omega), hl1]
      rw [ih (seqMergeK f (hcStep w lo (lo + m) (n - m) (!acc)) lo m (!acc)) (lo + m)
        (n - m) acc (by omega)]
    · simp only [seqMergeK, if_neg hn]

theorem mountWin_notL (w : List Bool) (lo n : Nat) (hb : lo + n ≤ w.length)
    (hv : MountWin w lo n) : ValleyWin (notL w) lo n := by
  intro i j k h1 h2 h3 h4 hc
  obtain ⟨hi, hj, hk⟩ := hc
  rw [wAt_notL w i (by omega)] at hi
  rw [wAt_notL w j (by omega)] at hj
  rw [wAt_notL w k (by omega)] at hk
  refine hv i j k h1 h2 h3 h4 ⟨?_, ?_, ?_⟩
  · cases hw : wAt w i
    · rw [hw] at hi; exact absurd hi (by decide)
    · rfl
  · cases hw : wAt w j
    · rfl
    · rw [hw] at hj; exact absurd hj (by decide)
  · cases hw : wAt w k
    · rw [hw] at hk; exact absurd hk (by decide)
    · rfl

theorem sortedWinA_notL (w : List Bool) (lo n : Nat) (hb : lo + n ≤ w.length)
    (hs : SortedWinA w lo n) : SortedWinD (notL w) lo n := by
  intro i j h1 h2 h3
  rw [wAt_notL w i (by omega), wAt_notL w j (by omega), bool_not_le_not]
  exact hs i j h1 h2 h3

/-- Descending bitonic merge of a mountain window sorts it descending. -/
theorem seqMergeK_mount_sortedD (fuel : Nat) (w : List Bool) (lo n : Nat) (hf : n ≤ fuel)
    (hb : lo + n ≤ w.length) (hv : MountWin w lo n) :
    SortedWinD (seqMergeK fuel w lo n false) lo n := by
  have h1 : ValleyWin (notL w) lo n := mountWin_notL w lo n hb hv
  have h2 : SortedWinA (seqMergeK fuel (notL w) lo n true) lo n :=
    seqMergeK_valley_sorted fuel (notL w) lo n hf (by rw [notL_length]; exact hb) h1
  have h3 : seqMergeK fuel (notL w) lo n true = notL (seqMergeK fuel w lo n false) := by
    have := seqMergeK_notL fuel w lo n true hb
    simpa using this
  rw [h3] at h2
  have h4 : SortedWinD (notL (notL (seqMergeK fuel w lo n false))) lo n := by
    refine sortedWinA_notL _ lo n ?_ h2
    rw [notL_length, seqMergeK_length fuel w lo n false hb]
    exact hb
  rw [notL_notL] at h4
  exact h4

/-- The sequential bitonic sort sorts any boolean window, ascending or
descending according to `acc`. -/
theorem seqSortK_sorted :
    ∀ (fuel : Nat) (w : List Bool) (lo n : Nat) (acc : Bool), n ≤ fuel →
      lo + n ≤ w.length →
      (acc = true → SortedWinA (seqSortK fuel w lo n acc) lo n) ∧
      (acc = false → SortedWinD (seqSortK fuel w lo n acc) lo n) := by
  intro fuel
  induction fuel with
  | zero =>
    intro w lo n acc hf hb
    constructor
    · intro _ i j h1 h2 h3
      exfalso
      omega
    · intro _ i j h1 h2 h3
      exfalso
      omega
  | succ f ih =>
    intro w lo n acc hf hb
    by_cases hn : 1 < n
    · have hm : n >>> 1 = n / 2 := Nat.shiftRight_one n
      simp only [seqSortK, if_pos hn]
      set m := n >>> 1 with hmdef
      have hm2 : m = n / 2 := hm
      have hl1 : (seqSortK f w lo m (!acc)).length = w.length :=
        seqSortK_length f w lo m (!acc) (by omega)
      set w1 := seqSortK f w lo m (!acc) with hw1
      have hl2 : (seqSortK f w1 (lo + m) (n - m) acc).length = w.length := by
        rw [seqSortK_length f w1 (lo + m) (n - m) acc (by omega), hl1]
      set w2 := seqSortK f w1 (lo + m) (n - m) acc with hw2
      have hfr : ∀ q, lo ≤ q → q < lo + m → wAt w2 q = wAt w1 q := by
        intro q a b
        exact seqSortK_frame f w1 (lo + m) (n - m) acc q (by omega) (by omega)
      constructor
      · intro hacc
        subst hacc
        have hD : SortedWinD w1 lo m :=
          (ih w lo m (!true) (by omega) (by omega)).2 (by decide)
        have hD2 : SortedWinD w2 lo m := sortedWinD_congr w1 w2 lo m hfr hD
        have hA2 : SortedWinA w2 (lo + m) (n - m) :=
          (ih w1 (lo + m) (n - m) true (by omega) (by omega)).1 rfl
        have hval : ValleyWin w2 lo n := sortedD_A_valley w2 lo m n (by omega) hD2 hA2
        exact seqMergeK_valley_sorted (f + 1) w2 lo n (by omega) (by omega) hval
      · intro hacc
        subst hacc
        have hA : SortedWinA w1 lo m :=
          (ih w lo m (!false) (by omega) (by omega)).1 (by decide)
        have hA2 : SortedWinA w2 lo m := sortedWinA_congr w1 w2 lo m hfr hA
        have hD2 : SortedWinD w2 (lo + m) (n - m) :=
          (ih w1 (lo + m) (n - m) false (by omega) (by omega)).2 rfl
        have hmnt : MountWin w2 lo n := sortedA_D_mount w2 lo m n (by omega) hA2 hD2
        exact seqMergeK_mount_sortedD (f + 1) w2 lo n (by omega) (by omega) hmnt
    · simp only [seqSortK, if_neg hn]
      constructor
      · intro _ i j h1 h2 h3
        have hij : i = j := by omega
        rw [hij]
      · intro _ i j h1 h2 h3
        have hij : i = j := by omega
        rw [hij]

end spu.kernel.hlo


namespace spu.kernel.hlo

/-- Zero-one-principle transfer: the sequential bitonic sort leaves the whole
row pairwise nondecreasing over any linear order. -/
theorem seqSortK_sorted_le {α : Type} [LinearOrder α] [Inhabited α] (fuel n : Nat)
    (w : List α) (hf : n ≤ fuel) (hw : w.length = n) :
    ∀ i j, i ≤ j → j < n →
      wAt (seqSortK fuel w 0 n true) i ≤ wAt (seqSortK fuel w 0 n true) j := by
  intro i j hij hj
  by_contra hlt0
  have hlt : wAt (seqSortK fuel w 0 n true) j < wAt (seqSortK fuel w 0 n true) i :=
    not_le.mp hlt0
  set r := seqSortK fuel w 0 n true with hr
  have hmono : Monotone (fun x => decide (wAt r i ≤ x)) := by
    intro a b hab
    show decide (wAt r i ≤ a) ≤ decide (wAt r i ≤ b)
    rw [bool_le_iff]
    intro ha
    rw [decide_eq_true_eq] at ha ⊢
    exact le_trans ha hab
  have hmap := seqSortK_map_mono (fun x => decide (wAt r i ≤ x)) hmono fuel w 0 n true
    (by omega)
  have hrlen : r.length = n := by
    rw [hr, seqSortK_length fuel w 0 n true (by omega), hw]
  have hbool := (seqSortK_sorted fuel (w.map (fun x => decide (wAt r i ≤ x))) 0 n true
    (by omega) (by rw [List.length_map]; omega)).1 rfl
  rw [hmap, ← hr] at hbool
  have hcmp := hbool i j (by omega) hij (by omega)
  rw [wAt_map (fun x => decide (wAt r i ≤ x)) r i (by omega),
    wAt_map (fun x => decide (wAt r i ≤ x)) r j (by omega)] at hcmp
  have h1 : decide (wAt r i ≤ wAt r i) = true := decide_eq_true_eq.mpr (le_refl _)
  have h2 : decide (wAt r i ≤ wAt r j) = false := decide_eq_false (not_le.mpr hlt)
  rw [h1, h2] at hcmp
  exact absurd hcmp (by decide)

/-- The sequential bitonic sort permutes the row. -/
theorem seqSortK_perm {α : Type} [LinearOrder α] [Inhabited α] (fuel n : Nat)
    (w : List α) (hw : w.length = n) : (seqSortK fuel w 0 n true).Perm w := by
  have hk : KeyOnly (ltCompFn α)
      (fun a b => List.zipWith (fun x y => decide (x < y)) a b) := fun vs => rfl
  have hwf : PredWidth (fun a b : List α => List.zipWith (fun x y => decide (x < y)) a b) := by
    intro a b
    simp [List.length_zipWith]
  have hsim := seqSort_sim (ltCompFn α)
    (fun a b => List.zipWith (fun x y => decide (x < y)) a b) hk w [] fuel
    (List.range n) 0 n true
  have hself : permute w (List.range n) = w := by
    rw [← hw]
    exact permute_range_self w
  rw [show ([w] : List (List α)).map (fun v => permute v (List.range n)) = [w] from by
    simp [hself]] at hsim
  rw [seqSortK_spec fuel w 0 n true] at hsim
  simp only [List.map_cons, List.map_nil, List.cons.injEq, and_true] at hsim
  rw [hsim]
  refine permute_perm_of_perm_range w _ ?_
  rw [hw]
  exact posSeqSort_perm _ w hwf fuel (List.range n) 0 n true (by simp)

/-- The sequential bitonic sort over a full row computes exactly the sorted
permutation of the row. -/
theorem seqSort_eq_insertionSort {α : Type} [LinearOrder α] [Inhabited α] (n : Nat)
    (w : List α) (hw : w.length = n) :
    sequentialBitonicSort (ltCompFn α) n [w] 0 n true =
      [w.insertionSort (fun a b => a ≤ b)] := by
  rw [seqSortK_spec]
  congr 1
  have hrlen : (seqSortK n w 0 n true).length = n := by
    rw [seqSortK_length n w 0 n true (by omega), hw]
  have hsorted : List.Sorted (fun a b => a ≤ b) (seqSortK n w 0 n true) := by
    refine List.pairwise_iff_getElem.mpr ?_
    intro i j hi hj hij
    have h := seqSortK_sorted_le n n w (le_refl n) hw i j (by omega) (by omega)
    rw [wAt_eq_getElem _ i (by omega), wAt_eq_getElem _ j (by omega)] at h
    exact h
  have hperm : (seqSortK n w 0 n true).Perm (w.insertionSort (fun a b => a ≤ b)) :=
    (seqSortK_perm n n w hw).trans (List.perm_insertionSort _ w).symm
  exact List.eq_of_perm_of_sorted hperm hsorted (List.sorted_insertionSort _ w)

end spu.kernel.hlo


namespace spu.kernel.hlo

/-- Claim C8: for every non-power-of-two row length `n` in `{3,5,6,7,9}` and
every input ordering, `sequentialBitonicSort` over `[0, n)` (ascending, with
the less-than comparator; each merge step compares position `i` with `i+m`
for `m` the greatest power of two strictly less than the window width and
recurses on the two halves) produces correctly sorted output: it returns
exactly the sorted permutation of the row. -/
theorem sequentialBitonicSort_nonpow2_sorts {α : Type} [LinearOrder α] [Inhabited α]
    (n : Nat) (hn : n = 3 ∨ n = 5 ∨ n = 6 ∨ n = 7 ∨ n = 9) (w : List α)
    (hw : w.length = n) :
    sequentialBitonicSort (ltCompFn α) n [w] 0 n true =
      [w.insertionSort (fun a b => a ≤ b)] :=
  seqSort_eq_insertionSort n w hw

/-- Witness for C8: the sequential network on the length-5 row
`[4, 2, 5, 1, 3]` returns the sorted row `[1, 2, 3, 4, 5]`. -/
theorem sequentialBitonicSort_nonpow2_sorts_witness :
    (sequentialBitonicSort (ltCompFn Int) 5 [[4, 2, 5, 1, 3]] 0 5 true =
      [([4, 2, 5, 1, 3] : List Int).insertionSort (fun a b => a ≤ b)]) ∧
    sequentialBitonicSort (ltCompFn Int) 5 [[4, 2, 5, 1, 3]] 0 5 true =
      [[1, 2, 3, 4, 5]] :=
  ⟨sequentialBitonicSort_nonpow2_sorts 5 (Or.inr (Or.inl rfl)) [4, 2, 5, 1, 3] rfl,
    by decide⟩

end spu.kernel.hlo


namespace spu.kernel.hlo

/-- Inserting a fresh smallest-position element into a stably-ordered list
keeps the list stably ordered: `orderedInsert` places it before the first
element it does not strictly follow. -/
theorem orderedInsert_stable_pairwise {α : Type} [LinearOrder α] (k : Nat → α)
    (r : Nat → Nat → Prop) [DecidableRel r] (hr : ∀ a b, r a b ↔ k a ≤ k b) (a : Nat) :
    ∀ L : List Nat,
      L.Pairwise (fun p q => k p < k q ∨ (k p = k q ∧ p < q)) → (∀ b ∈ L, a < b) →
      (List.orderedInsert r a L).Pairwise
        (fun p q => k p < k q ∨ (k p = k q ∧ p < q)) := by
  intro L
  induction L with
  | nil =>
    intro hL ha
    simp [List.orderedInsert]
  | cons b L2 ih =>
    intro hL ha
    rw [List.pairwise_cons] at hL
    obtain ⟨hbL, hL2⟩ := hL
    by_cases hrab : r a b
    · rw [List.orderedInsert, if_pos hrab]
      refine List.pairwise_cons.mpr ⟨?_, List.pairwise_cons.mpr ⟨hbL, hL2⟩⟩
      intro c hc
      have hab : k a ≤ k b := (hr a b).mp hrab
      rcases List.mem_cons.mp hc with rfl | hcL
      · rcases lt_or_eq_of_le hab with hlt | heq
        · exact Or.inl hlt
        · exact Or.inr ⟨heq, ha c (List.mem_cons_self _ _)⟩
      · have hbc := hbL c hcL
        have hkbc : k b ≤ k c := by
          rcases hbc with h1 | h2
          · exact le_of_lt h1
          · exact le_of_eq h2.1
        rcases lt_or_eq_of_le (le_trans hab hkbc) with hlt | heq
        · exact Or.inl hlt
        · exact Or.inr ⟨heq, ha c (List.mem_cons_of_mem _ hcL)⟩
    · rw [List.orderedInsert, if_neg hrab]
      refine List.pairwise_cons.mpr ⟨?_, ih hL2 (fun c hc => ha c (List.mem_cons_of_mem _ hc))⟩
      intro c hc
      rcases (List.mem_orderedInsert r).mp hc with rfl | hcL
      · have : ¬ k c ≤ k b := fun hcb => hrab ((hr c b).mpr hcb)
        exact Or.inl (not_le.mp this)
      · exact hbL c hcL

/-- `insertionSort` by a total key preorder is stable: starting from a
strictly increasing position list, the result is ordered by the lexicographic
(key, original position) order. -/
theorem insertionSort_stable_pairwise {α : Type} [LinearOrder α] (k : Nat → α)
    (r : Nat → Nat → Prop) [DecidableRel r] (hr : ∀ a b, r a b ↔ k a ≤ k b) :
    ∀ l : List Nat, l.Pairwise (fun p q => p < q) →
      (l.insertionSort r).Pairwise (fun p q => k p < k q ∨ (k p = k q ∧ p < q)) := by
  intro l
  induction l with
  | nil => intro h; simp [List.insertionSort]
  | cons a l2 ih =>
    intro h
    rw [List.pairwise_cons] at h
    obtain ⟨hal, hl2⟩ := h
    rw [List.insertionSort]
    refine orderedInsert_stable_pairwise k r hr a (l2.insertionSort r) (ih hl2) ?_
    intro b hb
    exact hal b ((List.mem_insertionSort r).mp hb)

end spu.kernel.hlo


namespace spu.kernel.hlo

/-- Claim C9: on the public path with `isStable = true`, `Sort` of keys
`3,1,2,4` (digit characters) with parallel payload `c,a,b,d` returns the
sorted keys `1,2,3,4` and the payload `a,b,c,d` permuted identically; and in
general the public row path applies one index permutation (computed from the
key row alone) to every operand, and that permutation is stable: it is
ordered by the key with ties broken by the original position. -/
theorem hloSort_public_stable :
    (hloSort [['3', '1', '2', '4'], ['c', 'a', 'b', 'd']] 0 true (ltCompFn Char)
        Visibility.VIS_PUBLIC =
      Except.ok [['1', '2', '3', '4'], ['a', 'b', 'c', 'd']]) ∧
    (∀ (w : List Int) (n : Nat) (ops : List (List Int)), w.length = n →
      sortRowPublic (ltCompFn Int) true (w :: ops) n =
        (w :: ops).map (fun v => permute v (posPublicIdx intLtKeyPred w n)) ∧
      (posPublicIdx intLtKeyPred w n).Pairwise (fun a b =>
        w.getD a 0 < w.getD b 0 ∨ (w.getD a 0 = w.getD b 0 ∧ a < b))) := by
  constructor
  · decide
  · intro w n ops hw
    constructor
    · exact sortRowPublic_sim (ltCompFn Int) intLtKeyPred (fun vs => rfl) true w ops n
    · have hr : ∀ a b : Nat,
          (getConditionValue (intLtKeyPred [w.getD b default] [w.getD a default]) = false) ↔
            w.getD a 0 ≤ w.getD b 0 := by
        intro a b
        have he : getConditionValue (intLtKeyPred [w.getD b default] [w.getD a default]) =
            decide (w.getD b 0 < w.getD a 0) := rfl
        rw [he, decide_eq_false_iff_not, not_lt]
      unfold posPublicIdx
      exact insertionSort_stable_pairwise (fun i => w.getD i 0)
        (fun a b =>
          getConditionValue (intLtKeyPred [w.getD b default] [w.getD a default]) = false)
        hr (List.range n) (List.pairwise_lt_range n)

/-- Witness for C9: the general public-path conjunct at the tied key row
`[7, 7]` with payload `[1, 2]` — the stable permutation keeps the original
order. -/
theorem hloSort_public_stable_witness :
    sortRowPublic (ltCompFn Int) true [[7, 7], [1, 2]] 2 =
        [[7, 7], [1, 2]].map (fun v => permute v (posPublicIdx intLtKeyPred [7, 7] 2)) ∧
      (posPublicIdx intLtKeyPred [7, 7] 2).Pairwise (fun a b =>
        ([7, 7] : List Int).getD a 0 < ([7, 7] : List Int).getD b 0 ∨
          (([7, 7] : List Int).getD a 0 = ([7, 7] : List Int).getD b 0 ∧ a < b)) :=
  hloSort_public_stable.2 [7, 7] 2 [[1, 2]] rfl

end spu.kernel.hlo


namespace spu.kernel.hlo

theorem bitAt_le_one (t j : Nat) : bitAt t j ≤ 1 := by
  have h : j / 2 ^ t % 2 < 2 := Nat.mod_lt _ (by omega)
  have he : bitAt t j = j / 2 ^ t % 2 := rfl
  omega

theorem two_pow_succ_eq (t : Nat) : 2 ^ (t + 1) = 2 ^ t + 2 ^ t := by
  rw [pow_succ]
  ring

theorem two_pow_pos (t : Nat) : 0 < 2 ^ t := Nat.pos_pow_of_pos t (by omega)

theorem bitAt_mod_two_pow (t j : Nat) : j % 2 ^ (t + 1) / 2 ^ t = bitAt t j := by
  have h : j % (2 ^ t * 2) / 2 ^ t = j / 2 ^ t % 2 := Nat.mod_mul_right_div_self j (2 ^ t) 2
  have he : (2 : Nat) ^ (t + 1) = 2 ^ t * 2 := pow_succ 2 t
  rw [he, h]
  rfl

theorem bitAt_zero_iff (t j : Nat) : bitAt t j = 0 ↔ j % 2 ^ (t + 1) < 2 ^ t := by
  rw [← bitAt_mod_two_pow]
  constructor
  · intro h
    by_contra hc
    push_neg at hc
    have : 0 < j % 2 ^ (t + 1) / 2 ^ t := Nat.div_pos hc (two_pow_pos t)
    omega
  · intro h
    exact Nat.div_eq_of_lt h

theorem bitAt_partnerAt_self (t j : Nat) : bitAt t (partnerAt t j) = 1 - bitAt t j := by
  by_cases h0 : bitAt t j = 0
  · rw [h0]
    unfold partnerAt
    rw [if_pos h0]
    have h0a : j / 2 ^ t % 2 = 0 := h0
    have he : bitAt t (j + 2 ^ t) = (j + 2 ^ t) / 2 ^ t % 2 := rfl
    rw [he, Nat.add_div_right _ (two_pow_pos t)]
    omega
  · have h1 : bitAt t j = 1 := by have := bitAt_le_one t j; omega
    rw [h1]
    unfold partnerAt
    rw [if_neg h0]
    have h1a : j / 2 ^ t % 2 = 1 := h1
    have hj : 2 ^ t ≤ j := by
      by_contra hc
      push_neg at hc
      have : j / 2 ^ t = 0 := Nat.div_eq_of_lt hc
      omega
    have h2 := Nat.add_div_right (j - 2 ^ t) (two_pow_pos t)
    rw [show j - 2 ^ t + 2 ^ t = j from by omega] at h2
    have he : bitAt t (j - 2 ^ t) = (j - 2 ^ t) / 2 ^ t % 2 := rfl
    rw [he]
    omega

theorem partnerAt_div (t u j : Nat) (htu : t < u) : partnerAt t j / 2 ^ u = j / 2 ^ u := by
  have hpos : 0 < 2 ^ (t + 1) := two_pow_pos (t + 1)
  have hdm := Nat.div_add_mod j (2 ^ (t + 1))
  have hr : j % 2 ^ (t + 1) < 2 ^ (t + 1) := Nat.mod_lt _ hpos
  have hsplit : (2 : Nat) ^ u = 2 ^ (t + 1) * 2 ^ (u - (t + 1)) := by
    rw [← pow_add]
    congr 1
    omega
  have hkey : ∀ x, partnerAt t j = 2 ^ (t + 1) * (j / 2 ^ (t + 1)) + x → x < 2 ^ (t + 1) →
      partnerAt t j / 2 ^ u = j / 2 ^ u := by
    intro x hx hxlt
    have h1 : partnerAt t j / 2 ^ (t + 1) = j / 2 ^ (t + 1) := by
      rw [hx, Nat.mul_add_div hpos, Nat.div_eq_of_lt hxlt]
      omega
    rw [hsplit, ← Nat.div_div_eq_div_mul, ← Nat.div_div_eq_div_mul, h1]
  by_cases h0 : bitAt t j = 0
  · have hrt : j % 2 ^ (t + 1) < 2 ^ t := (bitAt_zero_iff t j).mp h0
    refine hkey (j % 2 ^ (t + 1) + 2 ^ t) ?_ ?_
    · unfold partnerAt
      rw [if_pos h0]
      have h2 := two_pow_succ_eq t
      omega
    · have h2 := two_pow_succ_eq t
      omega
  · have hrt : 2 ^ t ≤ j % 2 ^ (t + 1) := by
      by_contra hc
      push_neg at hc
      exact h0 ((bitAt_zero_iff t j).mpr hc)
    refine hkey (j % 2 ^ (t + 1) - 2 ^ t) ?_ ?_
    · unfold partnerAt
      rw [if_neg h0]
      have h2 := two_pow_succ_eq t
      omega
    · have h2 := two_pow_succ_eq t
      omega

theorem bitAt_partnerAt_higher (t u j : Nat) (htu : t < u) :
    bitAt u (partnerAt t j) = bitAt u j := by
  have he1 : bitAt u (partnerAt t j) = partnerAt t j / 2 ^ u % 2 := rfl
  have he2 : bitAt u j = j / 2 ^ u % 2 := rfl
  rw [he1, he2, partnerAt_div t u j htu]

theorem partnerAt_partnerAt (t j : Nat) : partnerAt t (partnerAt t j) = j := by
  have hself := bitAt_partnerAt_self t j
  have houter : partnerAt t (partnerAt t j) =
      if bitAt t (partnerAt t j) = 0 then partnerAt t j + 2 ^ t
      else partnerAt t j - 2 ^ t := rfl
  by_cases h0 : bitAt t j = 0
  · have hp : partnerAt t j = j + 2 ^ t := by
      unfold partnerAt
      rw [if_pos h0]
    have hb : bitAt t (partnerAt t j) = 1 := by
      rw [hself, h0]
    rw [houter, if_neg (by rw [hb]; omega), hp]
    omega
  · have h1 : bitAt t j = 1 := by have := bitAt_le_one t j; omega
    have hj : 2 ^ t ≤ j := by
      by_contra hc
      push_neg at hc
      have hd : j / 2 ^ t = 0 := Nat.div_eq_of_lt hc
      have h1a : j / 2 ^ t % 2 = 1 := h1
      omega
    have hp : partnerAt t j = j - 2 ^ t := by
      unfold partnerAt
      rw [if_neg h0]
    have hb : bitAt t (partnerAt t j) = 0 := by
      rw [hself, h1]
    rw [houter, if_pos hb, hp]
    omega

theorem partnerAt_lt (t e j : Nat) (hte : t < e) (hj : j < 2 ^ e) :
    partnerAt t j < 2 ^ e := by
  have hA : 0 < 2 ^ (t + 1) := two_pow_pos (t + 1)
  have hQ := partnerAt_div t (t + 1) j (by omega)
  have hdm := Nat.div_add_mod (partnerAt t j) (2 ^ (t + 1))
  have hR : partnerAt t j % 2 ^ (t + 1) < 2 ^ (t + 1) := Nat.mod_lt _ hA
  have hsplit : (2 : Nat) ^ e = 2 ^ (t + 1) * 2 ^ (e - (t + 1)) := by
    rw [← pow_add]
    congr 1
    omega
  have hq : j / 2 ^ (t + 1) < 2 ^ (e - (t + 1)) := by
    rw [Nat.div_lt_iff_lt_mul hA, mul_comm]
    rw [← hsplit]
    exact hj
  calc partnerAt t j
      = 2 ^ (t + 1) * (partnerAt t j / 2 ^ (t + 1)) + partnerAt t j % 2 ^ (t + 1) :=
        hdm.symm
    _ < 2 ^ (t + 1) * (partnerAt t j / 2 ^ (t + 1)) + 2 ^ (t + 1) := by omega
    _ = 2 ^ (t + 1) * (partnerAt t j / 2 ^ (t + 1) + 1) := by ring
    _ = 2 ^ (t + 1) * (j / 2 ^ (t + 1) + 1) := by rw [hQ]
    _ ≤ 2 ^ (t + 1) * 2 ^ (e - (t + 1)) := Nat.mul_le_mul_left _ (by omega)
    _ = 2 ^ e := hsplit.symm

theorem div_pow_succ_le (t i j : Nat) (h : i / 2 ^ t < j / 2 ^ t) :
    i / 2 ^ (t + 1) ≤ j / 2 ^ (t + 1) := by
  have h1 : i / 2 ^ (t + 1) = i / 2 ^ t / 2 := by
    rw [Nat.div_div_eq_div_mul, ← pow_succ]
  have h2 : j / 2 ^ (t + 1) = j / 2 ^ t / 2 := by
    rw [Nat.div_div_eq_div_mul, ← pow_succ]
  rw [h1, h2]
  exact Nat.div_le_div_right (by omega)

theorem div_pow_le_of_le (t u i j : Nat) (htu : t ≤ u) (h : i / 2 ^ t = j / 2 ^ t) :
    i / 2 ^ u = j / 2 ^ u := by
  have hsplit : (2 : Nat) ^ u = 2 ^ t * 2 ^ (u - t) := by
    rw [← pow_add]
    congr 1
    omega
  rw [hsplit, ← Nat.div_div_eq_div_mul, ← Nat.div_div_eq_div_mul, h]

theorem wAt_permute {α : Type} [Inhabited α] (v : List α) (p : List Nat) (i : Nat)
    (h : i < p.length) : wAt (permute v p) i = v.getD (p.getD i 0) default := by
  unfold permute
  rw [wAt_map _ p i h]
  rfl

end spu.kernel.hlo


namespace spu.kernel.hlo

/-- The `std::sort`-of-iota inverse permutation is a right inverse: gathering
`idx` through it yields `range n` again. -/
theorem inversePermutation_getD (idx : List Nat) (n : Nat)
    (hperm : idx.Perm (List.range n)) :
    ∀ r, r < n → idx.getD ((inversePermutation idx).getD r 0) 0 = r := by
  have hlen : idx.length = n := by rw [hperm.length_eq, List.length_range]
  set q := inversePermutation idx with hq
  have hqperm : q.Perm (List.range n) := by
    rw [← hlen]
    exact inversePermutation_perm_range idx
  have hqlen : q.length = n := by rw [hqperm.length_eq, List.length_range]
  haveI hT : IsTotal Nat (fun a b => idx.getD a 0 ≤ idx.getD b 0) :=
    ⟨fun a b => le_total _ _⟩
  haveI hTr : IsTrans Nat (fun a b => idx.getD a 0 ≤ idx.getD b 0) :=
    ⟨fun a b c hab hbc => le_trans hab hbc⟩
  have hsorted : List.Pairwise (fun a b => idx.getD a 0 ≤ idx.getD b 0) q := by
    rw [hq]
    unfold inversePermutation
    exact List.sorted_insertionSort _ _
  have hmap : q.map (fun a => idx.getD a 0) = List.range n := by
    have hp2 : (q.map (fun a => idx.getD a 0)).Perm (List.range n) := by
      have h1 : q.Perm (List.range idx.length) := by
        rw [hlen]
        exact hqperm
      have h2 := h1.map (fun a => idx.getD a 0)
      rw [show (List.range idx.length).map (fun a => idx.getD a 0) = idx from
        getD_range_map idx] at h2
      exact h2.trans hperm
    have hs2 : List.Sorted (fun a b : Nat => a ≤ b) (q.map (fun a => idx.getD a 0)) :=
      List.Pairwise.map _ (fun a b h => h) hsorted
    have hs3 : List.Sorted (fun a b : Nat => a ≤ b) (List.range n) :=
      (List.pairwise_lt_range n).imp (fun h => le_of_lt h)
    exact List.eq_of_perm_of_sorted hp2 hs2 hs3
  intro r hr
  have h5 : (q.map (fun a => idx.getD a 0))[r]? = (List.range n)[r]? := by rw [hmap]
  rw [List.getElem?_map, List.getElem?_range hr,
    List.getElem?_eq_getElem (show r < q.length by omega)] at h5
  have h6 : idx.getD q[r] 0 = r := by
    exact Option.some.inj (by simpa using h5)
  have h7 : q.getD r 0 = q[r] := by
    rw [List.getD_eq_getElem?_getD, List.getElem?_eq_getElem (show r < q.length by omega)]
    rfl
  rw [h7]
  exact h6

/-- Positions listed by the inverse permutation are in range. -/
theorem inversePermutation_getD_lt (idx : List Nat) (n : Nat)
    (hperm : idx.Perm (List.range n)) (hn : 0 < n) :
    ∀ r, r < n → (inversePermutation idx).getD r 0 < n := by
  have hlen : idx.length = n := by rw [hperm.length_eq, List.length_range]
  have hqperm : (inversePermutation idx).Perm (List.range n) := by
    rw [← hlen]
    exact inversePermutation_perm_range idx
  have hqlen : (inversePermutation idx).length = n := by
    rw [hqperm.length_eq, List.length_range]
  intro r hr
  have hmem : (inversePermutation idx).getD r 0 ∈ inversePermutation idx := by
    rw [List.getD_eq_getElem?_getD,
      List.getElem?_eq_getElem (show r < (inversePermutation idx).length by omega)]
    exact List.getElem_mem _
  have := hqperm.mem_iff.mp hmem
  exact List.mem_range.mp this

end spu.kernel.hlo


namespace spu.kernel.hlo

theorem phaseStepVal_length (s t n : Nat) (w : List Bool) :
    (phaseStepVal s t n w).length = n := by
  simp [phaseStepVal]

theorem wAt_range (n j : Nat) (hj : j < n) : wAt (List.range n) j = j := by
  rw [wAt_eq_getElem _ j (by simpa using hj)]
  simp

theorem phaseStepVal_at (s t n : Nat) (w : List Bool) (j : Nat) (hj : j < n) :
    wAt (phaseStepVal s t n w) j =
      if bitAt (s + 1) j = bitAt t j then min (wAt w j) (wAt w (partnerAt t j))
      else max (wAt w (partnerAt t j)) (wAt w j) := by
  unfold phaseStepVal
  rw [wAt_map _ (List.range n) j (by simpa using hj), wAt_range n j hj]

theorem permute_map_g {α β : Type} [Inhabited α] [Inhabited β] (g : α → β) (v : List α)
    (p : List Nat) (h : ∀ i ∈ p, i < v.length) :
    permute (v.map g) p = (permute v p).map g := by
  unfold permute
  rw [List.map_map]
  apply List.map_congr_left
  intro i hi
  have hiv := h i hi
  simp only [Function.comp]
  rw [List.getD_eq_getElem?_getD, List.getElem?_map, List.getElem?_eq_getElem hiv,
    List.getD_eq_getElem?_getD, List.getElem?_eq_getElem hiv]
  rfl

theorem parStepK_length {α : Type} [LinearOrder α] [Inhabited α] (n : Nat) (v : List α)
    (idx : List Nat) (hidx : idx.Perm (List.range n)) : (parStepK n v idx).length = n := by
  unfold parStepK
  rw [permute_length]
  have h1 : (inversePermutation idx).length = idx.length :=
    (inversePermutation_perm_range idx).length_eq.trans (List.length_range _)
  rw [h1, hidx.length_eq, List.length_range]

theorem phaseList_mem_le (e : Nat) : ∀ pr ∈ phaseList e, pr.2 ≤ pr.1 := by
  intro pr hpr
  unfold phaseList at hpr
  rw [List.mem_flatMap] at hpr
  obtain ⟨s, hs, hpr2⟩ := hpr
  rw [List.mem_map] at hpr2
  obtain ⟨t, ht, rfl⟩ := hpr2
  rw [List.mem_reverse, List.mem_range] at ht
  simpa using Nat.lt_succ_iff.mp ht

/-- A generated stage that passes `stageOk` acts on a boolean row exactly as
the canonical substage `(s, t)`: permuting, half-swapping and permuting back
computes the pointwise min/max with the bit-`t` partner. -/
theorem parStepK_eq_phaseStep (n s t : Nat) (idx : List Nat)
    (hok : stageOk n s t idx = true) (hts : t ≤ s) (heven : n % 2 = 0) (hn : 0 < n)
    (w : List Bool) (hw : w.length = n) : parStepK n w idx = phaseStepVal s t n w := by
  unfold stageOk at hok
  rw [Bool.and_eq_true] at hok
  obtain ⟨hperm0, hall0⟩ := hok
  have hperm : idx.Perm (List.range n) := List.isPerm_iff.mp hperm0
  have hlen : idx.length = n := by rw [hperm.length_eq, List.length_range]
  have hall : ∀ p, p < n / 2 →
      bitAt (s + 1) (idx.getD p 0) = bitAt t (idx.getD p 0) ∧
      idx.getD (n / 2 + p) 0 = partnerAt t (idx.getD p 0) := by
    intro p hp
    have h := List.all_eq_true.mp hall0 p (List.mem_range.mpr hp)
    rw [Bool.and_eq_true, beq_iff_eq, beq_iff_eq] at h
    exact h
  have hinv := inversePermutation_getD idx n hperm
  have hqlt := inversePermutation_getD_lt idx n hperm hn
  have hqlen : (inversePermutation idx).length = n := by
    rw [(inversePermutation_perm_range idx).length_eq, List.length_range, hlen]
  have hplen : (permute w idx).length = n := by rw [permute_length, hlen]
  have hhc : (hcStep (permute w idx) 0 (n / 2) (n / 2) true).length = n := by
    rw [hcStep_length _ _ _ _ _ (by omega) (by omega), hplen]
  have hup : ∀ x, x < n → wAt (permute w idx) x = wAt w (idx.getD x 0) := by
    intro x hx
    rw [wAt_permute w idx x (by omega)]
    rfl
  apply List.ext_getElem
  · rw [phaseStepVal_length]
    unfold parStepK
    rw [permute_length, hqlen]
  intro j hj1 hj2
  have hjn : j < n := by
    rw [phaseStepVal_length] at hj2
    exact hj2
  rw [← wAt_eq_getElem _ j hj1, ← wAt_eq_getElem _ j hj2,
    phaseStepVal_at s t n w j hjn]
  unfold parStepK
  rw [wAt_permute _ (inversePermutation idx) j (by omega)]
  set p := (inversePermutation idx).getD j 0 with hp
  have hpn : p < n := hqlt j hjn
  have hpj : idx.getD p 0 = j := hinv j hjn
  have hL : (hcStep (permute w idx) 0 (n / 2) (n / 2) true).getD p default =
      wAt (hcStep (permute w idx) 0 (n / 2) (n / 2) true) p := rfl
  rw [hL, hcStep_at (permute w idx) 0 (n / 2) (n / 2) true (by omega) (by omega) p
    (by omega)]
  by_cases hcase : p < n / 2
  · rw [if_pos (by omega)]
    obtain ⟨hbit, hpart⟩ := hall p hcase
    rw [hpj] at hbit hpart
    have hidx2 : p - 0 + n / 2 = n / 2 + p := by omega
    rw [hidx2, hup p (by omega), hup (n / 2 + p) (by omega), hpj, hpart]
    rw [if_pos hbit]
    simp only [if_pos]
  · rw [if_neg (by omega), if_pos (by omega)]
    set p2 := p - n / 2 with hp2
    have hp2lt : p2 < n / 2 := by omega
    obtain ⟨hbit, hpart⟩ := hall p2 hp2lt
    have hpp2 : n / 2 + p2 = p := by omega
    rw [hpp2] at hpart
    rw [hpj] at hpart
    set j2 := idx.getD p2 0 with hj2d
    have hjpart : partnerAt t j = j2 := by
      rw [hpart, partnerAt_partnerAt]
    have hbj : bitAt (s + 1) j = bitAt (s + 1) j2 := by
      rw [hpart, bitAt_partnerAt_higher t (s + 1) j2 (by omega)]
    have hbt : bitAt t j = 1 - bitAt t j2 := by
      rw [hpart, bitAt_partnerAt_self]
    have hne : ¬ (bitAt (s + 1) j = bitAt t j) := by
      have h1 := bitAt_le_one t j2
      have h2 : bitAt (s + 1) j2 = bitAt t j2 := hbit
      omega
    rw [if_neg hne]
    have hidx3 : p - n / 2 + 0 = p2 := by omega
    rw [hidx3, hup p2 (by omega), hup p (by omega), hpj, ← hj2d, hjpart]
    simp only [if_pos]

end spu.kernel.hlo


namespace spu.kernel.hlo

/-- `parallelBitonicSort` on a single operand is the single-operand fold. -/
theorem parK_spec {α : Type} [LinearOrder α] [Inhabited α] (n : Nat) (w : List α) :
    parallelBitonicSort (ltCompFn α) [w] n = [parK n w] := by
  have aux : ∀ (idxs : List (List Nat)) (v : List α),
      idxs.foldl (fun target index =>
        (cmpSwap (ltCompFn α) (target.map (fun u => permute u index)) 0 (n / 2) (n / 2)
          true).map (fun u => permute u (inversePermutation index))) [v] =
      [idxs.foldl (parStepK n) v] := by
    intro idxs
    induction idxs with
    | nil => intro v; rfl
    | cons idx rest ih =>
      intro v
      rw [List.foldl_cons, List.foldl_cons]
      have hstep : (cmpSwap (ltCompFn α) ([v].map (fun u => permute u idx)) 0 (n / 2)
          (n / 2) true).map (fun u => permute u (inversePermutation idx)) =
          [parStepK n v idx] := by
        simp only [List.map_cons, List.map_nil]
        rw [cmpSwap_ltCompFn_singleton]
        simp only [List.map_cons, List.map_nil]
        rfl
      rw [hstep, ih]
  exact aux (generateBitonicMergeIndex n ++ generateBitonicSortIndex n) w

theorem parStepK_map_mono {α β : Type} [LinearOrder α] [LinearOrder β] [Inhabited α]
    [Inhabited β] (g : α → β) (hg : Monotone g) (n : Nat) (v : List α)
    (hv : v.length = n) (idx : List Nat) (hidx : idx.Perm (List.range n)) :
    parStepK n (v.map g) idx = (parStepK n v idx).map g := by
  unfold parStepK
  have hlen : idx.length = n := by rw [hidx.length_eq, List.length_range]
  have hmem : ∀ i ∈ idx, i < v.length := by
    intro i hi
    have h2 := hidx.mem_iff.mp hi
    rw [hv]
    exact List.mem_range.mp h2
  rw [permute_map_g g v idx hmem]
  rw [hcStep_map_mono g hg (permute v idx) 0 (n / 2) (n / 2) true (by omega)
    (by rw [permute_length, hlen]; omega)]
  have hmem2 : ∀ i ∈ inversePermutation idx,
      i < (hcStep (permute v idx) 0 (n / 2) (n / 2) true).length := by
    intro i hi
    have h3 := (inversePermutation_perm_range idx).mem_iff.mp hi
    rw [List.mem_range, hlen] at h3
    rw [hcStep_length _ _ _ _ _ (by omega) (by rw [permute_length, hlen]; omega),
      permute_length, hlen]
    exact h3
  rw [permute_map_g g _ (inversePermutation idx) hmem2]

theorem parK_map_mono {α β : Type} [LinearOrder α] [LinearOrder β] [Inhabited α]
    [Inhabited β] (g : α → β) (hg : Monotone g) (n : Nat) (v : List α)
    (hv : v.length = n) : parK n (v.map g) = (parK n v).map g := by
  have aux : ∀ (idxs : List (List Nat)), (∀ idx ∈ idxs, idx.Perm (List.range n)) →
      ∀ (u : List α), u.length = n →
      idxs.foldl (parStepK n) (u.map g) = (idxs.foldl (parStepK n) u).map g := by
    intro idxs
    induction idxs with
    | nil => intro _ u _; rfl
    | cons idx rest ih =>
      intro hall u hul
      rw [List.foldl_cons, List.foldl_cons,
        parStepK_map_mono g hg n u hul idx (hall idx (List.mem_cons_self _ _)),
        ih (fun i hi => hall i (List.mem_cons_of_mem _ hi)) (parStepK n u idx)
          (parStepK_length n u idx (hall idx (List.mem_cons_self _ _)))]
  exact aux _ (bitonicIndices_perm_range n) v hv

/-- `parK` permutes the row. -/
theorem parK_perm {α : Type} [LinearOrder α] [Inhabited α] (n : Nat) (w : List α)
    (hw : w.length = n) : (parK n w).Perm w := by
  have hk : KeyOnly (ltCompFn α)
      (fun a b : List α => List.zipWith (fun x y => decide (x < y)) a b) := fun vs => rfl
  have hwf : PredWidth
      (fun a b : List α => List.zipWith (fun x y => decide (x < y)) a b) := by
    intro a b
    simp [List.length_zipWith]
  have hsim := parallel_fold_sim (ltCompFn α)
    (fun a b : List α => List.zipWith (fun x y => decide (x < y)) a b) hk hwf w [] n
    (generateBitonicMergeIndex n ++ generateBitonicSortIndex n) (List.range n) (by simp)
    (bitonicIndices_perm_range n)
  rw [show ([w] : List (List α)).map (fun v => permute v (List.range n)) = [w] from by
    simp [show permute w (List.range n) = w from by rw [← hw]; exact permute_range_self w]]
    at hsim
  have hpar : parallelBitonicSort (ltCompFn α) [w] n =
      [w].map (fun v => permute v
        ((generateBitonicMergeIndex n ++ generateBitonicSortIndex n).foldl
          (fun q index => permute (posCmpSwap
            (fun a b : List α => List.zipWith (fun x y => decide (x < y)) a b) w
            (permute q index) 0 (n / 2) (n / 2) true) (inversePermutation index))
          (List.range n))) := hsim
  rw [parK_spec n w] at hpar
  simp only [List.map_cons, List.map_nil, List.cons.injEq, and_true] at hpar
  rw [hpar]
  refine permute_perm_of_perm_range w _ ?_
  rw [hw]
  exact posParallel_fold_perm _ w hwf n _ (List.range n) (by simp)
    (bitonicIndices_perm_range n)

theorem foldl_phaseList_eq_phasesRun (n : Nat) : ∀ (e : Nat) (w : List Bool),
    (phaseList e).foldl (fun w st => phaseStepVal st.1 st.2 n w) w = phasesRun n e w := by
  intro e
  induction e with
  | zero => intro w; rfl
  | succ e ih =>
    intro w
    have hsplit : phaseList (e + 1) = phaseList e ++
        ((List.range (e + 1)).reverse).map (fun t => (e, t)) := by
      unfold phaseList
      rw [List.range_succ]
      simp [List.range_succ]
    rw [hsplit, List.foldl_append, ih]
    have aux : ∀ (t : Nat) (v : List Bool),
        (((List.range (t + 1)).reverse).map (fun u => (e, u))).foldl
          (fun w st => phaseStepVal st.1 st.2 n w) v = phaseRun e n t v := by
      intro t
      induction t with
      | zero => intro v; rfl
      | succ t iht =>
        intro v
        have hr : (List.range (t + 1 + 1)).reverse =
            (t + 1) :: (List.range (t + 1)).reverse := by
          rw [List.range_succ, List.reverse_append]
          simp
        rw [hr]
        simp only [List.map_cons, List.foldl_cons]
        rw [iht]
        rfl
    exact aux e _

theorem canonParallel_eq_phasesRun (e : Nat) (w : List Bool) :
    canonParallel e w = phasesRun (2 ^ e) e w :=
  foldl_phaseList_eq_phasesRun (2 ^ e) e w

end spu.kernel.hlo


namespace spu.kernel.hlo

/-- A mountain window is cyclically bitonic. -/
theorem mount_bit4 (w : List Bool) (lo n : Nat) (hm : MountWin w lo n) :
    Bit4Win w lo n := by
  intro a b c d h1 h2 h3 h4 h5 hc
  obtain ⟨hab, hbc, hcd⟩ := hc
  rcases bool_alt4 _ _ _ _ hab hbc hcd with ⟨ha, hb, hcv, hd⟩ | ⟨ha, hb, hcv, hd⟩
  · exact hm b c d (by omega) h3 h4 h5 ⟨hb, hcv, hd⟩
  · exact hm a b c h1 h2 h3 (by omega) ⟨ha, hb, hcv⟩

theorem bit4Win_notL (w : List Bool) (lo n : Nat) (hb : lo + n ≤ w.length)
    (hv : Bit4Win w lo n) : Bit4Win (notL w) lo n := by
  intro a b c d h1 h2 h3 h4 h5 hc
  obtain ⟨hab, hbc, hcd⟩ := hc
  rw [wAt_notL w a (by omega), wAt_notL w b (by omega)] at hab
  rw [wAt_notL w b (by omega), wAt_notL w c (by omega)] at hbc
  rw [wAt_notL w c (by omega), wAt_notL w d (by omega)] at hcd
  refine hv a b c d h1 h2 h3 h4 h5 ⟨?_, ?_, ?_⟩
  · intro he
    exact hab (by rw [he])
  · intro he
    exact hbc (by rw [he])
  · intro he
    exact hcd (by rw [he])

/-- `Bit4Win` transfers along pointwise negation of the window values. -/
theorem bit4Win_neg_congr (w1 w2 : List Bool) (lo n : Nat)
    (h : ∀ p, lo ≤ p → p < lo + n → wAt w2 p = !(wAt w1 p)) :
    Bit4Win w1 lo n → Bit4Win w2 lo n := by
  intro hv a b c d h1 h2 h3 h4 h5 hc
  obtain ⟨hab, hbc, hcd⟩ := hc
  rw [h a h1 (by omega), h b (by omega) (by omega)] at hab
  rw [h b (by omega) (by omega), h c (by omega) (by omega)] at hbc
  rw [h c (by omega) (by omega), h d (by omega) h5] at hcd
  refine hv a b c d h1 h2 h3 h4 h5 ⟨?_, ?_, ?_⟩
  · intro he
    exact hab (by rw [he])
  · intro he
    exact hbc (by rw [he])
  · intro he
    exact hcd (by rw [he])

theorem div_bounds (x q X : Nat) (hX : 0 < X) (h : x / X = q) :
    q * X ≤ x ∧ x < q * X + X := by
  constructor
  · rw [← h]
    exact Nat.div_mul_le_self x X
  · by_contra hc
    push_neg at hc
    have h2 : (q + 1) * X ≤ x := by
      have : q * X + X = (q + 1) * X := by ring
      omega
    have h3 : q + 1 ≤ x / X := (Nat.le_div_iff_mul_le hX).mpr h2
    omega

theorem div_eq_of_range (x q X : Nat) (hX : 0 < X) (h1 : q * X ≤ x)
    (h2 : x < q * X + X) : x / X = q := by
  have h3 : x / X ≥ q := by
    refine (Nat.le_div_iff_mul_le hX).mpr ?_
    omega
  have h4 : x / X < q + 1 := by
    rw [Nat.div_lt_iff_lt_mul hX]
    have : (q + 1) * X = q * X + X := by ring
    omega
  omega

/-- Every output position of one canonical substage takes its value from its
own `2 ^ (t+1)`-aligned block. -/
theorem phaseStep_mem (e s t : Nat) (hte : t < e) (v : List Bool) (hv : v.length = 2 ^ e) :
    ∀ p, p < 2 ^ e → ∃ a, a / 2 ^ (t + 1) = p / 2 ^ (t + 1) ∧ a < 2 ^ e ∧
      wAt (phaseStepVal s t (2 ^ e) v) p = wAt v a := by
  intro p hp
  rw [phaseStepVal_at s t (2 ^ e) v p hp]
  by_cases hcond : bitAt (s + 1) p = bitAt t p
  · rw [if_pos hcond]
    rcases min_choice (wAt v p) (wAt v (partnerAt t p)) with hm | hm
    · exact ⟨p, rfl, hp, hm⟩
    · exact ⟨partnerAt t p, partnerAt_div t (t + 1) p (by omega), partnerAt_lt t e p hte hp,
        hm⟩
  · rw [if_neg hcond]
    rcases max_choice (wAt v (partnerAt t p)) (wAt v p) with hm | hm
    · exact ⟨partnerAt t p, partnerAt_div t (t + 1) p (by omega), partnerAt_lt t e p hte hp,
        hm⟩
    · exact ⟨p, rfl, hp, hm⟩

end spu.kernel.hlo


namespace spu.kernel.hlo

/-- Inside an ascending `2 ^ (t+1)`-aligned block, one canonical substage is
exactly the ascending compare-exchange of the block's two halves. -/
theorem phaseStep_block_asc (e s t : Nat) (hts : t ≤ s) (hse : s + 1 ≤ e) (v : List Bool)
    (hv : v.length = 2 ^ e) (c : Nat) (hc : (c + 1) * 2 ^ (t + 1) ≤ 2 ^ e)
    (hdir : bitAt (s + 1) (c * 2 ^ (t + 1)) = 0) :
    ∀ p, c * 2 ^ (t + 1) ≤ p → p < c * 2 ^ (t + 1) + 2 ^ (t + 1) →
      wAt (phaseStepVal s t (2 ^ e) v) p =
        wAt (hcStep v (c * 2 ^ (t + 1)) (c * 2 ^ (t + 1) + 2 ^ t) (2 ^ t) true) p := by
  intro p hp1 hp2
  have h2t := two_pow_succ_eq t
  have hcc : (c + 1) * 2 ^ (t + 1) = c * 2 ^ (t + 1) + 2 ^ (t + 1) := by ring
  have hpe : p < 2 ^ e := by omega
  have hpdiv : p / 2 ^ (t + 1) = c :=
    div_eq_of_range p c (2 ^ (t + 1)) (two_pow_pos _) (by omega) (by omega)
  have hlodiv : (c * 2 ^ (t + 1)) / 2 ^ (t + 1) = c :=
    div_eq_of_range _ c (2 ^ (t + 1)) (two_pow_pos _) (by omega) (by omega)
  have hsup : p / 2 ^ (s + 1) = (c * 2 ^ (t + 1)) / 2 ^ (s + 1) :=
    div_pow_le_of_le (t + 1) (s + 1) p _ (by omega) (by rw [hpdiv, hlodiv])
  have hbs : bitAt (s + 1) p = 0 := by
    have he1 : bitAt (s + 1) p = p / 2 ^ (s + 1) % 2 := rfl
    have he2 : bitAt (s + 1) (c * 2 ^ (t + 1)) = (c * 2 ^ (t + 1)) / 2 ^ (s + 1) % 2 := rfl
    rw [he1, hsup, ← he2, hdir]
  have hrw : c * 2 ^ (t + 1) = 2 * c * 2 ^ t := by rw [h2t]; ring
  rw [phaseStepVal_at s t (2 ^ e) v p hpe,
    hcStep_at v (c * 2 ^ (t + 1)) (c * 2 ^ (t + 1) + 2 ^ t) (2 ^ t) true (by omega)
      (by omega) p (by omega)]
  by_cases hlow : p < c * 2 ^ (t + 1) + 2 ^ t
  · have hbt : bitAt t p = 0 := by
      have hq : p / 2 ^ t = 2 * c := div_eq_of_range p (2 * c) (2 ^ t) (two_pow_pos _)
        (by omega) (by omega)
      have he : bitAt t p = p / 2 ^ t % 2 := rfl
      rw [he, hq]
      omega
    have hpart : partnerAt t p = p + 2 ^ t := by
      unfold partnerAt
      rw [if_pos hbt]
    rw [if_pos (by rw [hbs, hbt]), hpart, if_pos ⟨by omega, by omega⟩]
    simp only [if_pos]
    congr 2
    omega
  · have hbt : bitAt t p = 1 := by
      have hub : (2 * c + 1) * 2 ^ t = c * 2 ^ (t + 1) + 2 ^ t := by rw [h2t]; ring
      have hq : p / 2 ^ t = 2 * c + 1 := div_eq_of_range p (2 * c + 1) (2 ^ t)
        (two_pow_pos _) (by omega) (by omega)
      have he : bitAt t p = p / 2 ^ t % 2 := rfl
      rw [he, hq]
      omega
    have hpart : partnerAt t p = p - 2 ^ t := by
      unfold partnerAt
      rw [if_neg (by rw [hbt]; omega)]
    rw [if_neg (by rw [hbs, hbt]; omega), hpart,
      if_neg (by omega), if_pos ⟨by omega, by omega⟩]
    simp only [if_pos]
    congr 2
    omega

/-- Inside a descending `2 ^ (t+1)`-aligned block, one canonical substage is
the pointwise negation of the ascending compare-exchange of the negated
block. -/
theorem phaseStep_block_desc (e s t : Nat) (hts : t ≤ s) (hse : s + 1 ≤ e) (v : List Bool)
    (hv : v.length = 2 ^ e) (c : Nat) (hc : (c + 1) * 2 ^ (t + 1) ≤ 2 ^ e)
    (hdir : bitAt (s + 1) (c * 2 ^ (t + 1)) = 1) :
    ∀ p, c * 2 ^ (t + 1) ≤ p → p < c * 2 ^ (t + 1) + 2 ^ (t + 1) →
      wAt (phaseStepVal s t (2 ^ e) v) p =
        !(wAt (hcStep (notL v) (c * 2 ^ (t + 1)) (c * 2 ^ (t + 1) + 2 ^ t) (2 ^ t) true)
          p) := by
  intro p hp1 hp2
  have h2t := two_pow_succ_eq t
  have hcc : (c + 1) * 2 ^ (t + 1) = c * 2 ^ (t + 1) + 2 ^ (t + 1) := by ring
  have hpe : p < 2 ^ e := by omega
  have hnl : (notL v).length = 2 ^ e := by rw [notL_length, hv]
  have hpdiv : p / 2 ^ (t + 1) = c :=
    div_eq_of_range p c (2 ^ (t + 1)) (two_pow_pos _) (by omega) (by omega)
  have hlodiv : (c * 2 ^ (t + 1)) / 2 ^ (t + 1) = c :=
    div_eq_of_range _ c (2 ^ (t + 1)) (two_pow_pos _) (by omega) (by omega)
  have hsup : p / 2 ^ (s + 1) = (c * 2 ^ (t + 1)) / 2 ^ (s + 1) :=
    div_pow_le_of_le (t + 1) (s + 1) p _ (by omega) (by rw [hpdiv, hlodiv])
  have hbs : bitAt (s + 1) p = 1 := by
    have he1 : bitAt (s + 1) p = p / 2 ^ (s + 1) % 2 := rfl
    have he2 : bitAt (s + 1) (c * 2 ^ (t + 1)) = (c * 2 ^ (t + 1)) / 2 ^ (s + 1) % 2 := rfl
    rw [he1, hsup, ← he2, hdir]
  have hrw : c * 2 ^ (t + 1) = 2 * c * 2 ^ t := by rw [h2t]; ring
  rw [phaseStepVal_at s t (2 ^ e) v p hpe,
    hcStep_at (notL v) (c * 2 ^ (t + 1)) (c * 2 ^ (t + 1) + 2 ^ t) (2 ^ t) true (by omega)
      (by omega) p (by omega)]
  by_cases hlow : p < c * 2 ^ (t + 1) + 2 ^ t
  · have hbt : bitAt t p = 0 := by
      have hq : p / 2 ^ t = 2 * c := div_eq_of_range p (2 * c) (2 ^ t) (two_pow_pos _)
        (by omega) (by omega)
      have he : bitAt t p = p / 2 ^ t % 2 := rfl
      rw [he, hq]
      omega
    have hpart : partnerAt t p = p + 2 ^ t := by
      unfold partnerAt
      rw [if_pos hbt]
    rw [if_neg (by rw [hbs, hbt]; omega), hpart, if_pos ⟨by omega, by omega⟩]
    simp only [if_pos]
    have hidx : p - c * 2 ^ (t + 1) + (c * 2 ^ (t + 1) + 2 ^ t) = p + 2 ^ t := by omega
    rw [hidx, wAt_notL v p (by omega), wAt_notL v (p + 2 ^ t) (by omega)]
    cases hA : wAt v p <;> cases hB : wAt v (p + 2 ^ t) <;> decide
  · have hbt : bitAt t p = 1 := by
      have hub : (2 * c + 1) * 2 ^ t = c * 2 ^ (t + 1) + 2 ^ t := by rw [h2t]; ring
      have hq : p / 2 ^ t = 2 * c + 1 := div_eq_of_range p (2 * c + 1) (2 ^ t)
        (two_pow_pos _) (by omega) (by omega)
      have he : bitAt t p = p / 2 ^ t % 2 := rfl
      rw [he, hq]
      omega
    have hpart : partnerAt t p = p - 2 ^ t := by
      unfold partnerAt
      rw [if_neg (by rw [hbt]; omega)]
    rw [if_pos (by rw [hbs, hbt]), hpart,
      if_neg (by omega), if_pos ⟨by omega, by omega⟩]
    simp only [if_pos]
    have hidx : p - (c * 2 ^ (t + 1) + 2 ^ t) + c * 2 ^ (t + 1) = p - 2 ^ t := by omega
    rw [hidx, wAt_notL v (p - 2 ^ t) (by omega), wAt_notL v p (by omega)]
    cases hA : wAt v p <;> cases hB : wAt v (p - 2 ^ t) <;> decide

end spu.kernel.hlo


namespace spu.kernel.hlo

/-- One canonical substage takes the phase invariant from granularity
`2 ^ (t+1)` to granularity `2 ^ t`. -/
theorem phaseStep_subinv (e s t : Nat) (hts : t ≤ s) (hse : s + 1 ≤ e) (v : List Bool)
    (hv : v.length = 2 ^ e) (h : SubInv e s (t + 1) v) :
    SubInv e s t (phaseStepVal s t (2 ^ e) v) := by
  obtain ⟨hB, hD⟩ := h
  have h2t := two_pow_succ_eq t
  have hte : t + 1 ≤ e := by omega
  constructor
  · intro b hb
    have hdvd : 2 ^ (t + 1) ∣ 2 ^ e := pow_dvd_pow 2 hte
    obtain ⟨M, hM⟩ := hdvd
    have hMe : 2 * M * 2 ^ t = 2 ^ e := by rw [hM, h2t]; ring
    have h1 : (b + 1) * 2 ^ t ≤ 2 * M * 2 ^ t := by omega
    have h2 : b + 1 ≤ 2 * M := Nat.le_of_mul_le_mul_right h1 (two_pow_pos t)
    have hcb : (b / 2 + 1) * 2 ^ (t + 1) ≤ 2 ^ e := by
      calc (b / 2 + 1) * 2 ^ (t + 1) ≤ M * 2 ^ (t + 1) :=
            Nat.mul_le_mul_right _ (by omega)
        _ = 2 ^ e := by rw [hM]; ring
    have hparentB : Bit4Win v (b / 2 * 2 ^ (t + 1)) (2 ^ t + 2 ^ t) := by
      rw [← h2t]
      exact hB (b / 2) hcb
    have hx3 : (b / 2 + 1) * 2 ^ (t + 1) = b / 2 * 2 ^ (t + 1) + 2 ^ (t + 1) := by ring
    have hlolen : b / 2 * 2 ^ (t + 1) + 2 ^ t + 2 ^ t ≤ v.length := by
      rw [hv]
      omega
    rcases Nat.mod_two_eq_zero_or_one b with hpar | hpar
    · have hb2 : b = 2 * (b / 2) := by omega
      have hbeq : b * 2 ^ t = b / 2 * 2 ^ (t + 1) := by
        calc b * 2 ^ t = 2 * (b / 2) * 2 ^ t := by rw [← hb2]
          _ = b / 2 * 2 ^ (t + 1) := by rw [h2t]; ring
      by_cases hdir : bitAt (s + 1) (b / 2 * 2 ^ (t + 1)) = 0
      · have hbr := phaseStep_block_asc e s t hts hse v hv (b / 2) hcb hdir
        have hlower := hc_bit4_lower v (b / 2 * 2 ^ (t + 1)) (2 ^ t) (two_pow_pos t)
          hlolen hparentB
        rw [hbeq]
        refine bit4Win_congr _ _ _ _ ?_ hlower
        intro p hp1 hp2
        exact hbr p hp1 (by omega)
      · have hdir1 : bitAt (s + 1) (b / 2 * 2 ^ (t + 1)) = 1 := by
          have := bitAt_le_one (s + 1) (b / 2 * 2 ^ (t + 1))
          omega
        have hbr := phaseStep_block_desc e s t hts hse v hv (b / 2) hcb hdir1
        have hparentBn : Bit4Win (notL v) (b / 2 * 2 ^ (t + 1)) (2 ^ t + 2 ^ t) :=
          bit4Win_notL v _ _ (by omega) hparentB
        have hlower := hc_bit4_lower (notL v) (b / 2 * 2 ^ (t + 1)) (2 ^ t)
          (two_pow_pos t) (by rw [notL_length]; exact hlolen) hparentBn
        rw [hbeq]
        refine bit4Win_neg_congr _ _ _ _ ?_ hlower
        intro p hp1 hp2
        exact hbr p hp1 (by omega)
    · have hb2 : b = 2 * (b / 2) + 1 := by omega
      have hbeq : b * 2 ^ t = b / 2 * 2 ^ (t + 1) + 2 ^ t := by
        calc b * 2 ^ t = (2 * (b / 2) + 1) * 2 ^ t := by rw [← hb2]
          _ = b / 2 * 2 ^ (t + 1) + 2 ^ t := by rw [h2t]; ring
      by_cases hdir : bitAt (s + 1) (b / 2 * 2 ^ (t + 1)) = 0
      · have hbr := phaseStep_block_asc e s t hts hse v hv (b / 2) hcb hdir
        have hupper := hc_bit4_upper v (b / 2 * 2 ^ (t + 1)) (2 ^ t) (two_pow_pos t)
          hlolen hparentB
        rw [hbeq]
        refine bit4Win_congr _ _ _ _ ?_ hupper
        intro p hp1 hp2
        exact hbr p (by omega) (by omega)
      · have hdir1 : bitAt (s + 1) (b / 2 * 2 ^ (t + 1)) = 1 := by
          have := bitAt_le_one (s + 1) (b / 2 * 2 ^ (t + 1))
          omega
        have hbr := phaseStep_block_desc e s t hts hse v hv (b / 2) hcb hdir1
        have hparentBn : Bit4Win (notL v) (b / 2 * 2 ^ (t + 1)) (2 ^ t + 2 ^ t) :=
          bit4Win_notL v _ _ (by omega) hparentB
        have hupper := hc_bit4_upper (notL v) (b / 2 * 2 ^ (t + 1)) (2 ^ t)
          (two_pow_pos t) (by rw [notL_length]; exact hlolen) hparentBn
        rw [hbeq]
        refine bit4Win_neg_congr _ _ _ _ ?_ hupper
        intro p hp1 hp2
        exact hbr p (by omega) (by omega)
  · intro i j hi hj hsup hlt
    have hbit_eq : bitAt (s + 1) i = bitAt (s + 1) j := by
      have he1 : bitAt (s + 1) i = i / 2 ^ (s + 1) % 2 := rfl
      have he2 : bitAt (s + 1) j = j / 2 ^ (s + 1) % 2 := rfl
      rw [he1, he2, hsup]
    by_cases hsame : i / 2 ^ (t + 1) = j / 2 ^ (t + 1)
    · have hq1 : i / 2 ^ (t + 1) = i / 2 ^ t / 2 := by
        rw [Nat.div_div_eq_div_mul, ← pow_succ]
      have hq2 : j / 2 ^ (t + 1) = j / 2 ^ t / 2 := by
        rw [Nat.div_div_eq_div_mul, ← pow_succ]
      have hieq : i / 2 ^ t = 2 * (i / 2 ^ (t + 1)) := by omega
      have hjeq : j / 2 ^ t = 2 * (i / 2 ^ (t + 1)) + 1 := by omega
      obtain ⟨hil, hir⟩ := div_bounds i (2 * (i / 2 ^ (t + 1))) (2 ^ t) (two_pow_pos t)
        hieq
      obtain ⟨hjl, hjr⟩ := div_bounds j (2 * (i / 2 ^ (t + 1)) + 1) (2 ^ t)
        (two_pow_pos t) hjeq
      have hx1 : (2 * (i / 2 ^ (t + 1)) + 1) * 2 ^ t =
          2 * (i / 2 ^ (t + 1)) * 2 ^ t + 2 ^ t := by ring
      have hx2 : i / 2 ^ (t + 1) * 2 ^ (t + 1) = 2 * (i / 2 ^ (t + 1)) * 2 ^ t := by
        rw [h2t]; ring
      have hx3 : (i / 2 ^ (t + 1) + 1) * 2 ^ (t + 1) =
          i / 2 ^ (t + 1) * 2 ^ (t + 1) + 2 ^ (t + 1) := by ring
      have hdvd : 2 ^ (t + 1) ∣ 2 ^ e := pow_dvd_pow 2 hte
      obtain ⟨M, hM⟩ := hdvd
      have hjC : j / 2 ^ (t + 1) < M := by
        rw [Nat.div_lt_iff_lt_mul (two_pow_pos (t + 1))]
        have hMM : M * 2 ^ (t + 1) = 2 ^ e := by rw [hM]; ring
        omega
      have hcb : (i / 2 ^ (t + 1) + 1) * 2 ^ (t + 1) ≤ 2 ^ e := by
        calc (i / 2 ^ (t + 1) + 1) * 2 ^ (t + 1) ≤ M * 2 ^ (t + 1) :=
              Nat.mul_le_mul_right _ (by omega)
          _ = 2 ^ e := by rw [hM]; ring
      have hparentB : Bit4Win v (i / 2 ^ (t + 1) * 2 ^ (t + 1)) (2 ^ t + 2 ^ t) := by
        rw [← h2t]
        exact hB (i / 2 ^ (t + 1)) hcb
      have hlodiv : (i / 2 ^ (t + 1) * 2 ^ (t + 1)) / 2 ^ (t + 1) = i / 2 ^ (t + 1) :=
        div_eq_of_range _ _ (2 ^ (t + 1)) (two_pow_pos _) (by omega) (by omega)
      have hdsup : i / 2 ^ (s + 1) = (i / 2 ^ (t + 1) * 2 ^ (t + 1)) / 2 ^ (s + 1) :=
        div_pow_le_of_le (t + 1) (s + 1) i _ (by omega) (by rw [hlodiv])
      have hdir_eq : bitAt (s + 1) (i / 2 ^ (t + 1) * 2 ^ (t + 1)) = bitAt (s + 1) i := by
        have he1 : bitAt (s + 1) i = i / 2 ^ (s + 1) % 2 := rfl
        have he2 : bitAt (s + 1) (i / 2 ^ (t + 1) * 2 ^ (t + 1)) =
            (i / 2 ^ (t + 1) * 2 ^ (t + 1)) / 2 ^ (s + 1) % 2 := rfl
        rw [he1, he2, hdsup]
      have hblen : i / 2 ^ (t + 1) * 2 ^ (t + 1) + 2 ^ t + 2 ^ t ≤ v.length := by
        rw [hv]
        omega
      constructor
      · intro hd0
        rw [bool_le_iff]
        intro hvi
        have hbr := phaseStep_block_asc e s t hts hse v hv (i / 2 ^ (t + 1)) hcb
          (by rw [hdir_eq, hd0])
        rw [hbr i (by omega) (by omega)] at hvi
        rw [hbr j (by omega) (by omega)]
        exact hc_bit4_cross v (i / 2 ^ (t + 1) * 2 ^ (t + 1)) (2 ^ t) (two_pow_pos t)
          hblen hparentB i j (by omega) (by omega) (by omega) (by omega) hvi
      · intro hd1
        rw [bool_le_iff]
        intro hvj
        have hbr := phaseStep_block_desc e s t hts hse v hv (i / 2 ^ (t + 1)) hcb
          (by rw [hdir_eq, hd1])
        rw [hbr j (by omega) (by omega)] at hvj
        rw [hbr i (by omega) (by omega)]
        have hparentBn : Bit4Win (notL v) (i / 2 ^ (t + 1) * 2 ^ (t + 1))
            (2 ^ t + 2 ^ t) := bit4Win_notL v _ _ (by omega) hparentB
        cases hci : wAt (hcStep (notL v) (i / 2 ^ (t + 1) * 2 ^ (t + 1))
            (i / 2 ^ (t + 1) * 2 ^ (t + 1) + 2 ^ t) (2 ^ t) true) i
        · simp [hci]
        · exfalso
          have hcj := hc_bit4_cross (notL v) (i / 2 ^ (t + 1) * 2 ^ (t + 1)) (2 ^ t)
            (two_pow_pos t) (by rw [notL_length]; exact hblen) hparentBn i j (by omega)
            (by omega) (by omega) (by omega) hci
          rw [hcj] at hvj
          exact absurd hvj (by decide)
    · have hple : i / 2 ^ (t + 1) ≤ j / 2 ^ (t + 1) := div_pow_succ_le t i j hlt
      have hplt : i / 2 ^ (t + 1) < j / 2 ^ (t + 1) := by omega
      obtain ⟨a, ha1, ha2, ha3⟩ := phaseStep_mem e s t (by omega) v hv i hi
      obtain ⟨a2, hb1, hb2, hb3⟩ := phaseStep_mem e s t (by omega) v hv j hj
      have hA : a / 2 ^ (s + 1) = i / 2 ^ (s + 1) :=
        div_pow_le_of_le (t + 1) (s + 1) a i (by omega) ha1
      have hB2 : a2 / 2 ^ (s + 1) = j / 2 ^ (s + 1) :=
        div_pow_le_of_le (t + 1) (s + 1) a2 j (by omega) hb1
      have hsup2 : a / 2 ^ (s + 1) = a2 / 2 ^ (s + 1) := by rw [hA, hB2, hsup]
      have hlt2 : a / 2 ^ (t + 1) < a2 / 2 ^ (t + 1) := by rw [ha1, hb1]; exact hplt
      have hbit_a : bitAt (s + 1) a = bitAt (s + 1) i := by
        have he1 : bitAt (s + 1) a = a / 2 ^ (s + 1) % 2 := rfl
        have he2 : bitAt (s + 1) i = i / 2 ^ (s + 1) % 2 := rfl
        rw [he1, he2, hA]
      have hdom := hD a a2 ha2 hb2 hsup2 hlt2
      rw [ha3, hb3]
      constructor
      · intro hd0
        exact hdom.1 (by rw [hbit_a, hd0])
      · intro hd1
        exact hdom.2 (by rw [hbit_a, hd1])

end spu.kernel.hlo


namespace spu.kernel.hlo

theorem phaseRun_length (s n : Nat) : ∀ (t : Nat) (v : List Bool),
    (phaseRun s n t v).length = n := by
  intro t
  induction t with
  | zero => intro v; exact phaseStepVal_length s 0 n v
  | succ t ih => intro v; exact ih _

theorem phasesRun_length (n : Nat) : ∀ (e : Nat) (v : List Bool), v.length = n →
    (phasesRun n e v).length = n := by
  intro e
  induction e with
  | zero => intro v hv; exact hv
  | succ e ih => intro v hv; exact phaseRun_length e n e _

theorem phaseRun_subinv (e s : Nat) (hse : s + 1 ≤ e) : ∀ t, t ≤ s → ∀ v : List Bool,
    v.length = 2 ^ e → SubInv e s (t + 1) v → SubInv e s 0 (phaseRun s (2 ^ e) t v) := by
  intro t
  induction t with
  | zero =>
    intro _ v hv h
    exact phaseStep_subinv e s 0 (by omega) hse v hv h
  | succ t ih =>
    intro hts v hv h
    have h2 := phaseStep_subinv e s (t + 1) hts hse v hv h
    exact ih (by omega) _ (phaseStepVal_length _ _ _ _) h2

theorem subinv_start (e : Nat) (v : List Bool) : SubInv e 0 1 v := by
  constructor
  · intro b hb a b2 c d h1 h2 h3 h4 h5 hc
    have h21 : (2 : Nat) ^ 1 = 2 := rfl
    omega
  · intro i j hi hj hsup hlt
    exfalso
    have h21 : (2 : Nat) ^ (0 + 1) = 2 := rfl
    have h22 : (2 : Nat) ^ 1 = 2 := rfl
    rw [h21] at hsup
    rw [h22] at hlt
    omega

theorem subinv_exit (e s : Nat) (hse : s + 1 ≤ e) (v : List Bool) (hv : v.length = 2 ^ e)
    (h : SubInv e s 0 v) :
    ∀ b, (b + 1) * 2 ^ (s + 1) ≤ 2 ^ e →
      (bitAt (s + 1) (b * 2 ^ (s + 1)) = 0 →
        SortedWinA v (b * 2 ^ (s + 1)) (2 ^ (s + 1))) ∧
      (bitAt (s + 1) (b * 2 ^ (s + 1)) = 1 →
        SortedWinD v (b * 2 ^ (s + 1)) (2 ^ (s + 1))) := by
  obtain ⟨_, hD⟩ := h
  intro b hb
  have hx : (b + 1) * 2 ^ (s + 1) = b * 2 ^ (s + 1) + 2 ^ (s + 1) := by ring
  have hib : ∀ i, b * 2 ^ (s + 1) ≤ i → i < b * 2 ^ (s + 1) + 2 ^ (s + 1) →
      i / 2 ^ (s + 1) = b ∧ i < 2 ^ e := by
    intro i h1 h2
    exact ⟨div_eq_of_range i b _ (two_pow_pos _) (by omega) (by omega), by omega⟩
  have hbit : ∀ i, b * 2 ^ (s + 1) ≤ i → i < b * 2 ^ (s + 1) + 2 ^ (s + 1) →
      bitAt (s + 1) i = bitAt (s + 1) (b * 2 ^ (s + 1)) := by
    intro i h1 h2
    have he1 : bitAt (s + 1) i = i / 2 ^ (s + 1) % 2 := rfl
    have he2 : bitAt (s + 1) (b * 2 ^ (s + 1)) = (b * 2 ^ (s + 1)) / 2 ^ (s + 1) % 2 := rfl
    rw [he1, he2, (hib i h1 h2).1,
      div_eq_of_range (b * 2 ^ (s + 1)) b _ (two_pow_pos _) (by omega) (by omega)]
  have hz : (2 : Nat) ^ 0 = 1 := rfl
  constructor
  · intro hd0 i j h1 h2 h3
    rcases Nat.eq_or_lt_of_le h2 with rfl | hij
    · exact le_refl _
    · have hdom := hD i j (hib i h1 (by omega)).2 (hib j (by omega) (by omega)).2
        (by rw [(hib i h1 (by omega)).1, (hib j (by omega) (by omega)).1])
        (by rw [hz, Nat.div_one, Nat.div_one]; exact hij)
      exact hdom.1 (by rw [hbit i h1 (by omega), hd0])
  · intro hd1 i j h1 h2 h3
    rcases Nat.eq_or_lt_of_le h2 with rfl | hij
    · exact le_refl _
    · have hdom := hD i j (hib i h1 (by omega)).2 (hib j (by omega) (by omega)).2
        (by rw [(hib i h1 (by omega)).1, (hib j (by omega) (by omega)).1])
        (by rw [hz, Nat.div_one, Nat.div_one]; exact hij)
      exact hdom.2 (by rw [hbit i h1 (by omega), hd1])

theorem subinv_next_entry (e s : Nat) (hse : s + 2 ≤ e) (v : List Bool)
    (hv : v.length = 2 ^ e)
    (hexit : ∀ b, (b + 1) * 2 ^ (s + 1) ≤ 2 ^ e →
      (bitAt (s + 1) (b * 2 ^ (s + 1)) = 0 →
        SortedWinA v (b * 2 ^ (s + 1)) (2 ^ (s + 1))) ∧
      (bitAt (s + 1) (b * 2 ^ (s + 1)) = 1 →
        SortedWinD v (b * 2 ^ (s + 1)) (2 ^ (s + 1)))) :
    SubInv e (s + 1) (s + 2) v := by
  constructor
  · intro b hb
    have h2s : (2 : Nat) ^ (s + 2) = 2 ^ (s + 1) + 2 ^ (s + 1) := two_pow_succ_eq (s + 1)
    have hx1 : b * 2 ^ (s + 2) = 2 * b * 2 ^ (s + 1) := by rw [h2s]; ring
    have hx2 : (b + 1) * 2 ^ (s + 2) = (2 * b + 2) * 2 ^ (s + 1) := by rw [h2s]; ring
    have hb1 : (2 * b + 1) * 2 ^ (s + 1) ≤ 2 ^ e := by
      have h3 : (2 * b + 1) * 2 ^ (s + 1) ≤ (2 * b + 2) * 2 ^ (s + 1) :=
        Nat.mul_le_mul_right _ (by omega)
      omega
    have hb2 : (2 * b + 1 + 1) * 2 ^ (s + 1) ≤ 2 ^ e := by
      have h3 : (2 * b + 1 + 1) * 2 ^ (s + 1) = (2 * b + 2) * 2 ^ (s + 1) := by ring
      omega
    have hp2 := two_pow_pos (s + 1)
    have hd1 : bitAt (s + 1) (2 * b * 2 ^ (s + 1)) = 0 := by
      have he : bitAt (s + 1) (2 * b * 2 ^ (s + 1)) =
          (2 * b * 2 ^ (s + 1)) / 2 ^ (s + 1) % 2 := rfl
      have hdd : (2 * b * 2 ^ (s + 1)) / 2 ^ (s + 1) = 2 * b :=
        div_eq_of_range (2 * b * 2 ^ (s + 1)) (2 * b) (2 ^ (s + 1)) hp2 (le_refl _)
          (by omega)
      rw [he, hdd]
      omega
    have hd2 : bitAt (s + 1) ((2 * b + 1) * 2 ^ (s + 1)) = 1 := by
      have he : bitAt (s + 1) ((2 * b + 1) * 2 ^ (s + 1)) =
          ((2 * b + 1) * 2 ^ (s + 1)) / 2 ^ (s + 1) % 2 := rfl
      have hdd : ((2 * b + 1) * 2 ^ (s + 1)) / 2 ^ (s + 1) = 2 * b + 1 :=
        div_eq_of_range ((2 * b + 1) * 2 ^ (s + 1)) (2 * b + 1) (2 ^ (s + 1)) hp2
          (le_refl _) (by omega)
      rw [he, hdd]
      omega
    have hA := (hexit (2 * b) hb1).1 hd1
    have hDs := (hexit (2 * b + 1) hb2).2 hd2
    have hmt : MountWin v (b * 2 ^ (s + 2)) (2 ^ (s + 2)) := by
      refine sortedA_D_mount v (b * 2 ^ (s + 2)) (2 ^ (s + 1)) (2 ^ (s + 2)) (by omega)
        ?_ ?_
      · rw [hx1]
        exact hA
      · have hy : b * 2 ^ (s + 2) + 2 ^ (s + 1) = (2 * b + 1) * 2 ^ (s + 1) := by
          rw [h2s]; ring
        have hz : 2 ^ (s + 2) - 2 ^ (s + 1) = 2 ^ (s + 1) := by omega
        rw [hy, hz]
        exact hDs
    exact mount_bit4 v _ _ hmt
  · intro i j hi hj hsup hlt
    exfalso
    have hsup2 : i / 2 ^ (s + 2) = j / 2 ^ (s + 2) := hsup
    omega

theorem phasesRun_exit (e : Nat) : ∀ s, s + 1 ≤ e → ∀ v : List Bool, v.length = 2 ^ e →
    ∀ b, (b + 1) * 2 ^ (s + 1) ≤ 2 ^ e →
      (bitAt (s + 1) (b * 2 ^ (s + 1)) = 0 →
        SortedWinA (phasesRun (2 ^ e) (s + 1) v) (b * 2 ^ (s + 1)) (2 ^ (s + 1))) ∧
      (bitAt (s + 1) (b * 2 ^ (s + 1)) = 1 →
        SortedWinD (phasesRun (2 ^ e) (s + 1) v) (b * 2 ^ (s + 1)) (2 ^ (s + 1))) := by
  intro s
  induction s with
  | zero =>
    intro hse v hv
    have hstart := subinv_start e v
    have hsub := phaseRun_subinv e 0 hse 0 (le_refl 0) v hv hstart
    exact subinv_exit e 0 hse _ (phaseRun_length 0 (2 ^ e) 0 v) hsub
  | succ s ih =>
    intro hse v hv
    have hw1 := ih (by omega) v hv
    have hlen1 : (phasesRun (2 ^ e) (s + 1) v).length = 2 ^ e :=
      phasesRun_length (2 ^ e) (s + 1) v hv
    have hentry := subinv_next_entry e s hse _ hlen1 hw1
    have hsub := phaseRun_subinv e (s + 1) hse (s + 1) (le_refl _) _ hlen1 hentry
    exact subinv_exit e (s + 1) hse _
      (phaseRun_length (s + 1) (2 ^ e) (s + 1) (phasesRun (2 ^ e) (s + 1) v)) hsub

/-- The canonical parallel bitonic network sorts every boolean row. -/
theorem canonParallel_sorted (e : Nat) (v : List Bool) (hv : v.length = 2 ^ e) :
    SortedWinA (canonParallel e v) 0 (2 ^ e) := by
  cases e with
  | zero =>
    intro i j h1 h2 h3
    have hz : (2 : Nat) ^ 0 = 1 := rfl
    have hij : i = j := by omega
    rw [hij]
  | succ e2 =>
    rw [canonParallel_eq_phasesRun]
    have hex := phasesRun_exit (e2 + 1) e2 (le_refl _) v hv 0 (by omega)
    have hd0 : bitAt (e2 + 1) (0 * 2 ^ (e2 + 1)) = 0 := by
      have he : bitAt (e2 + 1) (0 * 2 ^ (e2 + 1)) =
          (0 * 2 ^ (e2 + 1)) / 2 ^ (e2 + 1) % 2 := rfl
      rw [he]
      simp
    have hs := hex.1 hd0
    intro i j h1 h2 h3
    exact hs i j (by omega) h2 (by omega)

end spu.kernel.hlo


namespace spu.kernel.hlo

theorem parK_length {α : Type} [LinearOrder α] [Inhabited α] (n : Nat) (v : List α)
    (hv : v.length = n) : (parK n v).length = n := by
  have aux : ∀ (idxs : List (List Nat)), (∀ idx ∈ idxs, idx.Perm (List.range n)) →
      ∀ u : List α, u.length = n → (idxs.foldl (parStepK n) u).length = n := by
    intro idxs
    induction idxs with
    | nil => intro _ u hu; exact hu
    | cons idx rest ih =>
      intro hall u hu
      rw [List.foldl_cons]
      exact ih (fun i hi => hall i (List.mem_cons_of_mem _ hi)) _
        (parStepK_length n u idx (hall idx (List.mem_cons_self _ _)))
  exact aux _ (bitonicIndices_perm_range n) v hv

/-- When the decidable schedule check passes, the generated network equals
the canonical one on every boolean row. -/
theorem parK_eq_canonParallel (e : Nat) (hok : scheduleOk e = true) (w : List Bool)
    (hw : w.length = 2 ^ e) : parK (2 ^ e) w = canonParallel e w := by
  by_cases he : e = 0
  · subst he
    rfl
  · unfold scheduleOk at hok
    rw [Bool.and_eq_true, beq_iff_eq] at hok
    obtain ⟨hlen, hall0⟩ := hok
    have hall : ∀ pr ∈ (generateBitonicMergeIndex (2 ^ e) ++
        generateBitonicSortIndex (2 ^ e)).zip (phaseList e),
        stageOk (2 ^ e) pr.2.1 pr.2.2 pr.1 = true :=
      fun pr hpr => List.all_eq_true.mp hall0 pr hpr
    have hts := phaseList_mem_le e
    have heven : (2 : Nat) ^ e % 2 = 0 := by
      have h2 : e - 1 + 1 = e := by omega
      have h3 : (2 : Nat) ^ e = 2 * 2 ^ (e - 1) := by
        conv_lhs => rw [← h2]
        rw [pow_succ]
        ring
      omega
    have aux : ∀ (idxs : List (List Nat)) (ph : List (Nat × Nat)) (v : List Bool),
        idxs.length = ph.length → v.length = 2 ^ e →
        (∀ pr ∈ idxs.zip ph, stageOk (2 ^ e) pr.2.1 pr.2.2 pr.1 = true) →
        (∀ st ∈ ph, st.2 ≤ st.1) →
        idxs.foldl (parStepK (2 ^ e)) v =
          ph.foldl (fun w st => phaseStepVal st.1 st.2 (2 ^ e) w) v := by
      intro idxs
      induction idxs with
      | nil =>
        intro ph v hl _ _ _
        cases ph with
        | nil => rfl
        | cons a b => simp at hl
      | cons idx rest ih =>
        intro ph v hl hv2 hall2 hts2
        cases ph with
        | nil => simp at hl
        | cons st ph2 =>
          simp only [List.foldl_cons]
          have hok1 : stageOk (2 ^ e) st.1 st.2 idx = true :=
            hall2 (idx, st) (by rw [List.zip_cons_cons]; exact List.mem_cons_self _ _)
          rw [parStepK_eq_phaseStep (2 ^ e) st.1 st.2 idx hok1
            (hts2 st (List.mem_cons_self _ _)) heven (two_pow_pos e) v hv2]
          exact ih ph2 (phaseStepVal st.1 st.2 (2 ^ e) v) (by simpa using hl)
            (phaseStepVal_length _ _ _ _)
            (fun pr hpr => hall2 pr
              (by rw [List.zip_cons_cons]; exact List.mem_cons_of_mem _ hpr))
            (fun st2 hst2 => hts2 st2 (List.mem_cons_of_mem _ hst2))
    exact aux _ _ w hlen hw hall hts

/-- Zero-one-principle transfer for the parallel network. -/
theorem parK_sorted_le {α : Type} [LinearOrder α] [Inhabited α] (e : Nat)
    (hok : scheduleOk e = true) (w : List α) (hw : w.length = 2 ^ e) :
    ∀ i j, i ≤ j → j < 2 ^ e →
      wAt (parK (2 ^ e) w) i ≤ wAt (parK (2 ^ e) w) j := by
  intro i j hij hj
  by_contra hlt0
  have hlt : wAt (parK (2 ^ e) w) j < wAt (parK (2 ^ e) w) i := not_le.mp hlt0
  set r := parK (2 ^ e) w with hr
  have hmono : Monotone (fun x => decide (wAt r i ≤ x)) := by
    intro a b hab
    show decide (wAt r i ≤ a) ≤ decide (wAt r i ≤ b)
    rw [bool_le_iff]
    intro ha
    rw [decide_eq_true_eq] at ha ⊢
    exact le_trans ha hab
  have hmap := parK_map_mono (fun x => decide (wAt r i ≤ x)) hmono (2 ^ e) w hw
  have hrlen : r.length = 2 ^ e := by rw [hr, parK_length _ w hw]
  have hcanon := parK_eq_canonParallel e hok (w.map (fun x => decide (wAt r i ≤ x)))
    (by rw [List.length_map, hw])
  have hbool := canonParallel_sorted e (w.map (fun x => decide (wAt r i ≤ x)))
    (by rw [List.length_map, hw])
  rw [← hcanon, hmap, ← hr] at hbool
  have hcmp := hbool i j (by omega) hij (by omega)
  rw [wAt_map (fun x => decide (wAt r i ≤ x)) r i (by omega),
    wAt_map (fun x => decide (wAt r i ≤ x)) r j (by omega)] at hcmp
  have h1 : decide (wAt r i ≤ wAt r i) = true := decide_eq_true_eq.mpr (le_refl _)
  have h2 : decide (wAt r i ≤ wAt r j) = false := decide_eq_false (not_le.mpr hlt)
  rw [h1, h2] at hcmp
  exact absurd hcmp (by decide)

/-- The parallel bitonic network computes exactly the sorted permutation of
the row, whenever its schedule passes the canonical check. -/
theorem parallel_eq_insertionSort {α : Type} [LinearOrder α] [Inhabited α] (e : Nat)
    (hok : scheduleOk e = true) (w : List α) (hw : w.length = 2 ^ e) :
    parallelBitonicSort (ltCompFn α) [w] (2 ^ e) =
      [w.insertionSort (fun a b => a ≤ b)] := by
  rw [parK_spec]
  congr 1
  have hrlen : (parK (2 ^ e) w).length = 2 ^ e := parK_length _ w hw
  have hsorted : List.Sorted (fun a b => a ≤ b) (parK (2 ^ e) w) := by
    refine List.pairwise_iff_getElem.mpr ?_
    intro i j hi hj hij
    have h := parK_sorted_le e hok w hw i j (by omega) (by omega)
    rw [wAt_eq_getElem _ i (by omega), wAt_eq_getElem _ j (by omega)] at h
    exact h
  have hperm : (parK (2 ^ e) w).Perm (w.insertionSort (fun a b => a ≤ b)) :=
    (parK_perm (2 ^ e) w hw).trans (List.perm_insertionSort _ w).symm
  exact List.eq_of_perm_of_sorted hperm hsorted (List.sorted_insertionSort _ w)

/-- The public row path computes exactly the sorted permutation of the
row. -/
theorem public_eq_insertionSort {α : Type} [LinearOrder α] [Inhabited α] (n : Nat)
    (w : List α) (hw : w.length = n) (is_stable : Bool) :
    sortRowPublic (ltCompFn α) is_stable [w] n = [w.insertionSort (fun a b => a ≤ b)] := by
  rw [sortRowPublic_sim (ltCompFn α)
    (fun a b : List α => List.zipWith (fun x y => decide (x < y)) a b) (fun vs => rfl)
    is_stable w [] n]
  simp only [List.map_cons, List.map_nil]
  congr 1
  have hr : ∀ a b : Nat,
      (getConditionValue ((fun a b : List α =>
        List.zipWith (fun x y => decide (x < y)) a b) [w.getD b default]
          [w.getD a default]) = false) ↔
        w.getD a default ≤ w.getD b default := by
    intro a b
    have he : getConditionValue ((fun a b : List α =>
        List.zipWith (fun x y => decide (x < y)) a b) [w.getD b default]
          [w.getD a default]) = decide (w.getD b default < w.getD a default) := rfl
    rw [he, decide_eq_false_iff_not, not_lt]
  haveI hT : IsTotal Nat (fun a b => getConditionValue ((fun a b : List α =>
      List.zipWith (fun x y => decide (x < y)) a b) [w.getD b default]
        [w.getD a default]) = false) := by
    constructor
    intro a b
    rw [hr, hr]
    exact le_total _ _
  haveI hTr : IsTrans Nat (fun a b => getConditionValue ((fun a b : List α =>
      List.zipWith (fun x y => decide (x < y)) a b) [w.getD b default]
        [w.getD a default]) = false) := by
    constructor
    intro a b c hab hbc
    rw [hr] at hab hbc ⊢
    exact le_trans hab hbc
  have hqperm : (posPublicIdx
      (fun a b : List α => List.zipWith (fun x y => decide (x < y)) a b) w n).Perm
      (List.range n) := by
    unfold posPublicIdx
    exact (List.perm_insertionSort _ _)
  have hsorted0 : List.Pairwise (fun a b => getConditionValue ((fun a b : List α =>
      List.zipWith (fun x y => decide (x < y)) a b) [w.getD b default]
        [w.getD a default]) = false)
      (posPublicIdx (fun a b : List α => List.zipWith (fun x y => decide (x < y)) a b)
        w n) := by
    unfold posPublicIdx
    exact List.sorted_insertionSort _ _
  have hsorted : List.Sorted (fun a b : α => a ≤ b)
      (permute w (posPublicIdx
        (fun a b : List α => List.zipWith (fun x y => decide (x < y)) a b) w n)) := by
    unfold permute
    refine List.Pairwise.map _ ?_ hsorted0
    intro a b hab
    exact (hr a b).mp hab
  have hperm : (permute w (posPublicIdx
      (fun a b : List α => List.zipWith (fun x y => decide (x < y)) a b) w n)).Perm
      (w.insertionSort (fun a b => a ≤ b)) := by
    refine (permute_perm_of_perm_range w _ (by rw [hw]; exact hqperm)).trans
      (List.perm_insertionSort _ w).symm
  exact List.eq_of_perm_of_sorted hperm hsorted (List.sorted_insertionSort _ w)

end spu.kernel.hlo


namespace spu.kernel.hlo

/-- Claim C1: for every power-of-two row length `n ∈ {1,2,4,8,16,32}` and
every ordering of a duplicate-free key row, `parallelBitonicSort`,
`sequentialBitonicSort` and the public comparison-sort path of `Sort`
(`VIS_PUBLIC`) all produce the same output order — each equals the sorted
permutation of the row. -/
theorem bitonic_paths_agree {α : Type} [LinearOrder α] [Inhabited α] (n : Nat)
    (hn : n = 1 ∨ n = 2 ∨ n = 4 ∨ n = 8 ∨ n = 16 ∨ n = 32) (w : List α)
    (hw : w.length = n) (hnd : w.Nodup) (is_stable : Bool) :
    parallelBitonicSort (ltCompFn α) [w] n = [w.insertionSort (fun a b => a ≤ b)] ∧
    sequentialBitonicSort (ltCompFn α) n [w] 0 n true =
      [w.insertionSort (fun a b => a ≤ b)] ∧
    hloSort [w] 0 is_stable (ltCompFn α) Visibility.VIS_PUBLIC =
      Except.ok [w.insertionSort (fun a b => a ≤ b)] := by
  refine ⟨?_, seqSort_eq_insertionSort n w hw, ?_⟩
  · rcases hn with rfl | rfl | rfl | rfl | rfl | rfl
    · exact parallel_eq_insertionSort 0 (by decide) w (by rw [hw]; rfl)
    · exact parallel_eq_insertionSort 1 (by decide) w (by rw [hw]; rfl)
    · exact parallel_eq_insertionSort 2 (by decide) w (by rw [hw]; rfl)
    · exact parallel_eq_insertionSort 3 (by decide) w (by rw [hw]; rfl)
    · exact parallel_eq_insertionSort 4 (by decide) w (by rw [hw]; rfl)
    · exact parallel_eq_insertionSort 5 (by decide) w (by rw [hw]; rfl)
  · have hev : hloSort [w] 0 is_stable (ltCompFn α) Visibility.VIS_PUBLIC =
        Except.ok (sortRowPublic (ltCompFn α) is_stable [w] w.length) := rfl
    rw [hev, hw, public_eq_insertionSort n w hw is_stable]

/-- Witness for C1: at `n = 4` with keys `[3,1,2,4]`, all three paths return
the sorted row `[1,2,3,4]`. -/
theorem bitonic_paths_agree_witness :
    (parallelBitonicSort (ltCompFn Int) [[3, 1, 2, 4]] 4 =
        [([3, 1, 2, 4] : List Int).insertionSort (fun a b => a ≤ b)] ∧
      sequentialBitonicSort (ltCompFn Int) 4 [[3, 1, 2, 4]] 0 4 true =
        [([3, 1, 2, 4] : List Int).insertionSort (fun a b => a ≤ b)] ∧
      hloSort [[3, 1, 2, 4]] 0 true (ltCompFn Int) Visibility.VIS_PUBLIC =
        Except.ok [([3, 1, 2, 4] : List Int).insertionSort (fun a b => a ≤ b)]) ∧
    ([3, 1, 2, 4] : List Int).insertionSort (fun a b => a ≤ b) = [1, 2, 3, 4] :=
  ⟨bitonic_paths_agree 4 (Or.inr (Or.inr (Or.inl rfl))) [3, 1, 2, 4] rfl (by decide)
    true, by decide⟩

end spu.kernel.hlo

namespace spu.kernel.hlo

/-- Claim C3: `Sort` on the single operand `[3,1,2,4]` with `sortDim = 0`, a
less-than comparator and `VIS_SECRET` returns `[1,2,3,4]`; since `n = 4` is a
power of two, the row is handled by `parallelBitonicSort`. -/
theorem hloSort_secret_3124 :
    hloSort [[3, 1, 2, 4]] 0 false intLtComparator .VIS_SECRET = .ok [[1, 2, 3, 4]] ∧
      nonPublicSortPath intLtComparator [[3, 1, 2, 4]] 4 =
        parallelBitonicSort intLtComparator [[3, 1, 2, 4]] 4 := by
  constructor
  · decide
  · decide

/-- Claim C7 (failing-input evaluation): calling `Sort` with `sortDim` equal
to the rank does *not* cleanly raise `InvalidSortDimension` first: the source
reads `key_shape[sort_dim]` through `std::vector::operator[]` one line before
the `YACL_ENFORCE` range check, so the out-of-bounds read (undefined
behaviour) happens before the check can fire.  The same applies to any
`sortDim` outside `[0, rank)`. -/
theorem hloSort_sortDim_eq_rank_oob_before_check :
    hloSort [[3, 1, 2, 4]] 1 false intLtComparator .VIS_SECRET = .error .oobRead ∧
      hloSort [[3, 1, 2, 4]] (-1) false intLtComparator .VIS_SECRET = .error .oobRead ∧
      hloSort [[3, 1, 2, 4]] 1 false intLtComparator .VIS_SECRET ≠
        .error .invalidSortDimension := by
  refine ⟨by decide, by decide, by decide⟩

/-- Claim C10: `Sort` reads `inputs[0]` before any validation, so on an empty
operand span every call runs into the out-of-bounds read (undefined
behaviour) instead of any reported error — every guarantee of `Sort` carries
the unstated precondition that `inputs` is non-empty. -/
theorem hloSort_empty_inputs_oob {α : Type} [Inhabited α] (sort_dim : Int)
    (is_stable : Bool) (comparator_body : CompFn α) (vis : Visibility) :
    hloSort ([] : List (List α)) sort_dim is_stable comparator_body vis = .error .oobRead :=
  rfl

theorem sequentialBitonicMergeTr_trace {α : Type} (comparator_body : CompFn α) :
    ∀ (fuel : Nat) (vals : List (List α)) (lo n : Nat) (acc : Bool),
      (sequentialBitonicMergeTr comparator_body fuel vals lo n acc).2 =
        seqMergeSchedule fuel lo n := by
  intro fuel
  induction fuel with
  | zero => intro vals lo n acc; rfl
  | succ f ih =>
    intro vals lo n acc
    by_cases h : 1 < n
    · simp only [sequentialBitonicMergeTr, seqMergeSchedule, if_pos h, ih]
    · simp only [sequentialBitonicMergeTr, seqMergeSchedule, if_neg h]

theorem sequentialBitonicMergeTr_fst {α : Type} (comparator_body : CompFn α) :
    ∀ (fuel : Nat) (vals : List (List α)) (lo n : Nat) (acc : Bool),
      (sequentialBitonicMergeTr comparator_body fuel vals lo n acc).1 =
        sequentialBitonicMerge comparator_body fuel vals lo n acc := by
  intro fuel
  induction fuel with
  | zero => intro vals lo n acc; rfl
  | succ f ih =>
    intro vals lo n acc
    by_cases h : 1 < n
    · simp only [sequentialBitonicMergeTr, sequentialBitonicMerge, if_pos h, ih]
    · simp only [sequentialBitonicMergeTr, sequentialBitonicMerge, if_neg h]

theorem sequentialBitonicSortTr_trace {α : Type} (comparator_body : CompFn α) :
    ∀ (fuel : Nat) (vals : List (List α)) (lo n : Nat) (acc : Bool),
      (sequentialBitonicSortTr comparator_body fuel vals lo n acc).2 =
        seqSortSchedule fuel lo n := by
  intro fuel
  induction fuel with
  | zero => intro vals lo n acc; rfl
  | succ f ih =>
    intro vals lo n acc
    by_cases h : 1 < n
    · simp only [sequentialBitonicSortTr, seqSortSchedule, if_pos h, ih,
        sequentialBitonicMergeTr_trace]
    · simp only [sequentialBitonicSortTr, seqSortSchedule, if_neg h]

theorem sequentialBitonicSortTr_fst {α : Type} (comparator_body : CompFn α) :
    ∀ (fuel : Nat) (vals : List (List α)) (lo n : Nat) (acc : Bool),
      (sequentialBitonicSortTr comparator_body fuel vals lo n acc).1 =
        sequentialBitonicSort comparator_body fuel vals lo n acc := by
  intro fuel
  induction fuel with
  | zero => intro vals lo n acc; rfl
  | succ f ih =>
    intro vals lo n acc
    by_cases h : 1 < n
    · simp only [sequentialBitonicSortTr, sequentialBitonicSort, if_pos h, ih,
        sequentialBitonicMergeTr_fst]
    · simp only [sequentialBitonicSortTr, sequentialBitonicSort, if_neg h]

theorem parallelBitonicSortTr_spec {α : Type} [Inhabited α] (comparator_body : CompFn α)
    (values_to_sort : List (List α)) (n : Nat) :
    parallelBitonicSortTr comparator_body values_to_sort n =
      (parallelBitonicSort comparator_body values_to_sort n, parallelSchedule n) := by
  unfold parallelBitonicSortTr parallelBitonicSort parallelSchedule
  generalize generateBitonicMergeIndex n ++ generateBitonicSortIndex n = idxs
  suffices h : ∀ (idxs : List (List Nat)) (vals : List (List α)) (tr : List SortEvent),
      idxs.foldl (fun st index =>
        let permuted_values := st.1.map (fun v => permute v index)
        let swapped := cmpSwap comparator_body permuted_values 0 (n / 2) (n / 2) true
        let inverse_permutation := inversePermutation index
        (swapped.map (fun v => permute v inverse_permutation),
          st.2 ++ [SortEvent.permIdx index, SortEvent.swapWin 0 (n / 2) (n / 2),
            SortEvent.permIdx inverse_permutation])) (vals, tr) =
      (idxs.foldl (fun target index =>
        let permuted_values := target.map (fun v => permute v index)
        let swapped := cmpSwap comparator_body permuted_values 0 (n / 2) (n / 2) true
        let inverse_permutation := inversePermutation index
        swapped.map (fun v => permute v inverse_permutation)) vals,
       tr ++ idxs.flatMap (fun index =>
        [SortEvent.permIdx index, SortEvent.swapWin 0 (n / 2) (n / 2),
          SortEvent.permIdx (inversePermutation index)])) by
    simpa using h idxs values_to_sort []
  intro idxs
  induction idxs with
  | nil => intro vals tr; simp
  | cons i rest ih =>
    intro vals tr
    simp only [List.foldl_cons, List.flatMap_cons, ih, List.append_assoc]

/-- Claim C2: the sequence of compare-exchange windows and permutation index
lists issued by the non-public sort path equals the precomputed schedule for
the row length `n` — whatever the operand data, their element type, or the
comparator — so any two runs with the same `n` issue identical sequences; and
the instrumented path computes exactly what the uninstrumented path
computes. -/
theorem nonPublicSortPath_oblivious {α β : Type} [Inhabited α] [Inhabited β]
    (cmp1 : CompFn α) (cmp2 : CompFn β) (vals1 : List (List α)) (vals2 : List (List β))
    (n : Nat) :
    (nonPublicSortPathTr cmp1 vals1 n).2 = (nonPublicSortPathTr cmp2 vals2 n).2 ∧
      (nonPublicSortPathTr cmp1 vals1 n).2 = nonPublicSchedule n ∧
      (nonPublicSortPathTr cmp1 vals1 n).1 = nonPublicSortPath cmp1 vals1 n := by
  have key : ∀ {γ : Type} [Inhabited γ] (cmp : CompFn γ) (vals : List (List γ)),
      (nonPublicSortPathTr cmp vals n).2 = nonPublicSchedule n := by
    intro γ _ cmp vals
    unfold nonPublicSortPathTr nonPublicSchedule
    by_cases h : hasSingleBit n
    · simp [h, parallelBitonicSortTr_spec]
    · simp [h, sequentialBitonicSortTr_trace]
  refine ⟨(key cmp1 vals1).trans (key cmp2 vals2).symm, key cmp1 vals1, ?_⟩
  unfold nonPublicSortPathTr nonPublicSortPath
  by_cases h : hasSingleBit n
  · simp [h, parallelBitonicSortTr_spec]
  · simp [h, sequentialBitonicSortTr_fst]

end spu.kernel.hlo

namespace spu.device

/-- `List.mapM` into `Except` succeeds with exactly one output per input, each
the value of `f` at that input. -/
theorem mapM_ok_getD {ε β γ : Type} [Inhabited γ] (f : β → Except ε γ) (dflt : β) :
    ∀ (l : List β) (out : List γ), l.mapM f = .ok out →
      out.length = l.length ∧ ∀ i, i < l.length → f (l.getD i dflt) = .ok (out.getD i default) := by
  intro l
  induction l with
  | nil =>
    intro out h
    simp only [List.mapM_nil, pure, Except.pure] at h
    cases h
    exact ⟨rfl, by intro i hi; cases hi⟩
  | cons x xs ih =>
    intro out h
    simp only [List.mapM_cons] at h
    cases hfx : f x with
    | error e => rw [hfx] at h; simp [Bind.bind, Except.bind] at h
    | ok y =>
      rw [hfx] at h
      cases hxs : xs.mapM f with
      | error e =>
        rw [hxs] at h; simp [Bind.bind, Except.bind, pure, Except.pure] at h
      | ok ys =>
        rw [hxs] at h
        simp only [Bind.bind, Except.bind, pure, Except.pure] at h
        cases h
        obtain ⟨hlen, helem⟩ := ih ys hxs
        refine ⟨by simp [hlen], ?_⟩
        intro i hi
        cases i with
        | zero => simpa using hfx
        | succ j =>
          have hj : j < xs.length := by simpa using hi
          simpa using helem j hj

/-- Running the non-terminator operations of a block only ever rewrites the
innermost scope: the parent chain survives untouched. -/
theorem foldl_runKernel_parent {V Op : Type} (kernel : KernelFn V Op) :
    ∀ (ops : List Op) (f : Frame V) (p : ScopeChain V),
      ∃ f2, ops.foldl (runKernel kernel) (f :: p) = f2 :: p := by
  intro ops
  induction ops with
  | nil => intro f p; exact ⟨f, rfl⟩
  | cons op rest ih =>
    intro f p
    have hstep : runKernel kernel (f :: p) op =
        ((kernel (f :: p) op).foldl (fun fr kv => addValue fr kv.1 kv.2) f) :: p := rfl
    rw [List.foldl_cons, hstep]
    exact ih _ p

/-- Unfolding equation for `runBlock` when the block has a terminator. -/
theorem runBlock_eq_of_term {V Op : Type} (kernel : KernelFn V Op) (chain : ScopeChain V)
    (block : BlockModel Op) (termOperands : List Nat)
    (ht : block.terminator = some termOperands) :
    runBlock kernel chain block =
      (termOperands.mapM (lookupValue (block.ops.foldl (runKernel kernel) chain))).map
        (fun rs => (rs, block.ops.foldl (runKernel kernel) chain)) := by
  unfold runBlock
  rw [ht]

/-- Unfolding equation for `runRegion` when the arity matches and the region
has exactly one block. -/
theorem runRegion_eq {V Op : Type} (kernel : KernelFn V Op) (parent : ScopeChain V)
    (region : RegionModel Op) (params : List V) (block : BlockModel Op)
    (hb : region.blocks = [block]) (harity : region.argIds.length = params.length) :
    runRegion kernel parent region params =
      (runBlock kernel (initScope region.argIds params :: parent) block).map
        (fun rc => (rc.1, rc.2.tail)) := by
  unfold runRegion
  rw [if_neg (by omega), hb]

/-- Claim C5: when `runRegion` is called with matching arity and succeeds, it
returns exactly as many values as the block's terminator has operands, and the
`i`-th returned value is the scope-chain lookup of the terminator's `i`-th
operand in the scope reached after all non-terminator operations have
executed. -/
theorem runRegion_returns_terminator_lookups {V Op : Type} [Inhabited V]
    (kernel : KernelFn V Op) (parent : ScopeChain V) (region : RegionModel Op)
    (params : List V) (block : BlockModel Op) (termOperands : List Nat)
    (rs : List V) (after : ScopeChain V)
    (hb : region.blocks = [block]) (ht : block.terminator = some termOperands)
    (harity : region.argIds.length = params.length)
    (h : runRegion kernel parent region params = .ok (rs, after)) :
    rs.length = termOperands.length ∧
      ∀ i, i < termOperands.length →
        lookupValue (block.ops.foldl (runKernel kernel)
            (initScope region.argIds params :: parent)) (termOperands.getD i 0) =
          .ok (rs.getD i default) := by
  rw [runRegion_eq kernel parent region params block hb harity,
    runBlock_eq_of_term kernel _ block termOperands ht] at h
  cases hm : termOperands.mapM (lookupValue (block.ops.foldl (runKernel kernel)
      (initScope region.argIds params :: parent))) with
  | error e => rw [hm] at h; simp [Except.map] at h
  | ok out =>
    rw [hm] at h
    simp only [Except.map, Except.ok.injEq, Prod.mk.injEq] at h
    obtain ⟨hrs, _⟩ := h
    subst hrs
    obtain ⟨hlen, helem⟩ := mapM_ok_getD _ 0 _ _ hm
    exact ⟨hlen, helem⟩

theorem runRegion_returns_terminator_lookups_witness :
    ([99, 42] : List Nat).length = [5, 7].length ∧
      ∀ i, i < [5, 7].length →
        lookupValue ([()].foldl (runKernel (fun _ _ => [(5, 99)]))
            (initScope [7] [42] :: ([] : ScopeChain Nat))) ([5, 7].getD i 0) =
          .ok (([99, 42] : List Nat).getD i default) :=
  runRegion_returns_terminator_lookups (fun _ _ => [(5, 99)]) [] ⟨[7], [⟨[()], some [5, 7]⟩]⟩
    [42] ⟨[()], some [5, 7]⟩ [5, 7] [99, 42] [] rfl rfl rfl rfl

/-- Unfolding equation for `runBlock` when the block has no terminator. -/
theorem runBlock_eq_of_no_term {V Op : Type} (kernel : KernelFn V Op) (chain : ScopeChain V)
    (block : BlockModel Op) (ht : block.terminator = none) :
    runBlock kernel chain block = .error .missingTerminator := by
  unfold runBlock
  rw [ht]

/-- Claim C6: a successful `runRegion` leaves the enclosing scope chain
exactly as it was, so any binding added inside the child scope is invisible
afterwards and rebinding an id inside the child never alters what an outer
lookup returns. -/
theorem runRegion_discards_child_scope {V Op : Type}
    (kernel : KernelFn V Op) (parent : ScopeChain V) (region : RegionModel Op)
    (params : List V) (rs : List V) (after : ScopeChain V)
    (h : runRegion kernel parent region params = .ok (rs, after)) :
    after = parent ∧ ∀ key, lookupValue after key = lookupValue parent key := by
  suffices hp : after = parent by exact ⟨hp, by intro key; rw [hp]⟩
  unfold runRegion at h
  by_cases harity : region.argIds.length ≠ params.length
  · simp [harity] at h
  · rw [if_neg harity] at h
    cases hbs : region.blocks with
    | nil => rw [hbs] at h; simp at h
    | cons b rest =>
      cases rest with
      | cons b2 rest2 => rw [hbs] at h; simp at h
      | nil =>
        rw [hbs] at h
        dsimp only at h
        cases ht : b.terminator with
        | none =>
          rw [runBlock_eq_of_no_term kernel _ b ht] at h
          simp [Except.map] at h
        | some termOperands =>
          rw [runBlock_eq_of_term kernel _ b termOperands ht] at h
          obtain ⟨f2, hf2⟩ := foldl_runKernel_parent kernel b.ops
            (initScope region.argIds params) parent
          rw [hf2] at h
          cases hm : termOperands.mapM (lookupValue (f2 :: parent)) with
          | error e => rw [hm] at h; simp [Except.map] at h
          | ok out =>
            rw [hm] at h
            simp only [Except.map, Except.ok.injEq, Prod.mk.injEq] at h
            exact h.2.symm

theorem runRegion_discards_child_scope_witness :
    ([] : ScopeChain Nat) = ([] : ScopeChain Nat) ∧
      ∀ key, lookupValue ([] : ScopeChain Nat) key = lookupValue ([] : ScopeChain Nat) key :=
  runRegion_discards_child_scope (fun _ _ => [(7, 1)]) [] ⟨[7], [⟨[()], some [7]⟩]⟩ [42] [1] []
    rfl

end spu.device
